import Mathlib

/-
Verification of the AG-UI streaming server (src/server/server.py and
src/server/tools.py) against its natural-language specification.

The streaming transducer of `event_generator` in server.py is embedded as a
pure function over an explicit chunk stream.  Text is modelled as `List Char`
(so that delimiter search, the partial-tag hold-back check, and whitespace
checks can be reasoned about), protocol events as an inductive type, and the
generator state as records mirroring the local variables of the Python code.
Python falsiness of the optional string fields (None or the empty string) is
modelled by the empty string / empty list; message ids drawn from uuid4 are
modelled by a deterministic fresh counter (0 = message_id,
1 = thinking_message_id, 2... = continuation ids), which preserves exactly the
property used (freshness/distinctness).  Exceptions are modelled with
`Except` / an error field threaded through the processing functions: an
exception carries its message and aborts processing, after which the
run-controller boundary emits a RUN_ERROR event, exactly as the
try/except of `event_generator` does.
-/

namespace AgStream

/-- Protocol events, mirroring the event constructions in server.py.
Events that carry a message id use the modelled numeric ids.  The thinking
events carry no id in the source and so carry none here. -/
inductive Ev where
  | runStarted
  | runFinished
  | runError (msg : String)
  | textStart (mid : Nat)
  | textContent (mid : Nat) (delta : List Char)
  | textEnd (mid : Nat)
  | thinkingStart
  | thinkingEnd
  | ttStart
  | ttContent (delta : List Char)
  | ttEnd
  | toolStart (id : String) (nm : String) (parent : Nat)
  | toolArgs (id : String) (delta : String)
  | toolEnd (id : String) (result : String)
deriving DecidableEq

/-- The literal open delimiter searched for by server.py. -/
def openTag : List Char := String.toList "<thinking>"

/-- The literal close delimiter searched for by server.py. -/
def closeTag : List Char := String.toList "</thinking>"

/-- First-occurrence split: `splitFirst d b = some (pre, suf)` when
`b = pre ++ d ++ suf` with `pre` minimal; models the Python
`b.split(d, 1)` call guarded by `d in b` (for nonempty `d`). -/
def splitFirst (d : List Char) : List Char → Option (List Char × List Char)
  | [] => none
  | c :: rest =>
    if d.isPrefixOf (c :: rest) then some ([], List.drop d.length (c :: rest))
    else match splitFirst d rest with
         | some (pre, suf) => some (c :: pre, suf)
         | none => none

/-- Python str.isspace characters relevant to str.strip (ASCII range). -/
def isWs (c : Char) : Bool :=
  c = ' ' || c = Char.ofNat 9 || c = Char.ofNat 10 || c = Char.ofNat 13 ||
  c = Char.ofNat 11 || c = Char.ofNat 12

/-- Models the Python emptiness test `s.strip() != ""`, i.e. the buffer
holds at least one non-whitespace character. -/
def hasNonWs (b : List Char) : Bool := b.any (fun c => !isWs c)

/-- Models `content_buffer.endswith(">")`. -/
def endsGt (b : List Char) : Bool := b.getLast? = some (Char.ofNat 62)

/-- Models the hold-back test of server.py:
`"<" in content_buffer and not content_buffer.endswith(">")`. -/
def holdBack (b : List Char) : Bool := b.contains (Char.ofNat 60) && !(endsGt b)

/-- Demultiplexer part of the generator state: the five local variables of
event_generator that the content-processing loop reads or writes, plus two
instrumentation counters (openedSections / closedSections) that count the
executions of the open-tag and close-tag branches; the counters affect no
control flow and are used only to state theorems about section closure. -/
structure DemSt where
  isInThinking : Bool
  hasStartedText : Bool
  hasTextContent : Bool
  hasStartedThinking : Bool
  buffer : List Char
  openedSections : Nat
  closedSections : Nat
deriving DecidableEq

/-- Emission of a plain text span (the two identical code blocks at
server.py lines 221-239 and 269-287): if the span has non-whitespace
content, emit TEXT_MESSAGE_START once per turn and then the untrimmed
delta. -/
def emitPlain (mid : Nat) (st : DemSt) (txt : List Char) : DemSt × List Ev :=
  if hasNonWs txt then
    if st.hasStartedText then
      ({ st with hasTextContent := true }, [Ev.textContent mid txt])
    else
      ({ st with hasStartedText := true, hasTextContent := true },
       [Ev.textStart mid, Ev.textContent mid txt])
  else (st, [])

/-- First-time emission of THINKING_START and THINKING_TEXT_MESSAGE_START
(server.py lines 243-258), guarded by has_started_thinking. -/
def startThinking (st : DemSt) : DemSt × List Ev :=
  if st.hasStartedThinking then (st, [])
  else ({ st with hasStartedThinking := true }, [Ev.thinkingStart, Ev.ttStart])

theorem emitPlain_buffer (mid : Nat) (st : DemSt) (txt : List Char) :
    (emitPlain mid st txt).1.buffer = st.buffer := by
  unfold emitPlain; split <;> [skip; rfl]; split <;> rfl

theorem startThinking_buffer (st : DemSt) :
    (startThinking st).1.buffer = st.buffer := by
  unfold startThinking; split <;> rfl

theorem splitFirst_sound (d : List Char) (b pre suf : List Char)
    (h : splitFirst d b = some (pre, suf)) : b = pre ++ d ++ suf := by
  induction b generalizing pre suf with
  | nil => simp [splitFirst] at h
  | cons c rest ih =>
    unfold splitFirst at h
    split at h
    · rename_i hp
      injection h with h
      injection h with h1 h2
      rcases List.isPrefixOf_iff_prefix.mp hp with ⟨t, ht⟩
      subst h1
      subst h2
      rw [← ht]
      simp [List.drop_left]
    · rename_i hp
      cases hrec : splitFirst d rest with
      | none => rw [hrec] at h; simp at h
      | some pr =>
        rw [hrec] at h
        obtain ⟨pre2, suf2⟩ := pr
        simp only [Option.some.injEq, Prod.mk.injEq] at h
        obtain ⟨h1, h2⟩ := h
        subst h1
        subst h2
        have := ih pre2 suf2 hrec
        simp [this]

theorem splitFirst_suf_length (d : List Char) (b pre suf : List Char)
    (hd : d ≠ []) (h : splitFirst d b = some (pre, suf)) :
    suf.length < b.length := by
  have hs := splitFirst_sound d b pre suf h
  subst hs
  have : 0 < d.length := List.length_pos.mpr hd
  simp only [List.length_append]
  omega

theorem openTag_ne_nil : openTag ≠ [] := by decide

theorem closeTag_ne_nil : closeTag ≠ [] := by decide

/-- One iteration of the content-processing loop of event_generator
(server.py lines 213-339), with the back edge of the loop abstracted as
`recur`: split the buffer at the delimiter of the current mode, emitting
spans and switching modes, or hold the buffer back as a possible partial
tag, or emit it wholesale. -/
def processBufferStep (mid : Nat) (recur : DemSt → DemSt × List Ev) (st : DemSt) :
    DemSt × List Ev :=
  if st.isInThinking = false then
    match splitFirst openTag st.buffer with
    | some (before, after) =>
      let r1 := emitPlain mid st before
      let st2 : DemSt := { r1.1 with
        isInThinking := true
        buffer := after
        openedSections := r1.1.openedSections + 1 }
      let r2 := startThinking st2
      let r3 := recur r2.1
      (r3.1, r1.2 ++ r2.2 ++ r3.2)
    | none =>
      if holdBack st.buffer then (st, [])
      else
        let r1 := emitPlain mid st st.buffer
        ({ r1.1 with buffer := [] }, r1.2)
  else
    match splitFirst closeTag st.buffer with
    | some (tc, after) =>
      let evs1 : List Ev := if hasNonWs tc then [Ev.ttContent tc] else []
      let st2 : DemSt := { st with
        isInThinking := false
        buffer := after
        closedSections := st.closedSections + 1 }
      let r3 := recur st2
      (r3.1, evs1 ++ [Ev.ttEnd, Ev.thinkingEnd] ++ r3.2)
    | none =>
      if holdBack st.buffer then (st, [])
      else
        let evs1 : List Ev := if hasNonWs st.buffer then [Ev.ttContent st.buffer] else []
        ({ st with buffer := [] }, evs1)

/-- The loop, iterated with an explicit bound (structural recursion on the
bound keeps the function kernel-computable).  Every split shortens the
buffer, so any bound larger than the buffer length is never exhausted
(processBufferF_congr below). -/
def processBufferF (mid : Nat) : Nat → DemSt → DemSt × List Ev
  | 0, st => (st, [])
  | fuel + 1, st => processBufferStep mid (processBufferF mid fuel) st

/-- The loop with the canonical sufficient bound. -/
def processBuffer (mid : Nat) (st : DemSt) : DemSt × List Ev :=
  processBufferF mid (st.buffer.length + 1) st

/-- A loop iteration only recurs on a strictly shorter buffer, so the step
is insensitive to the interpretation of the back edge beyond that. -/
theorem processBufferStep_congr (mid : Nat) (r1 r2 : DemSt → DemSt × List Ev)
    (st : DemSt)
    (h : ∀ s2 : DemSt, s2.buffer.length < st.buffer.length → r1 s2 = r2 s2) :
    processBufferStep mid r1 st = processBufferStep mid r2 st := by
  by_cases hth : st.isInThinking = false
  · cases hsp : splitFirst openTag st.buffer with
    | none => simp only [processBufferStep, hth, if_pos, hsp]
    | some pr =>
      obtain ⟨before, after⟩ := pr
      have hlt := splitFirst_suf_length openTag st.buffer before after openTag_ne_nil hsp
      have hb : (startThinking { (emitPlain mid st before).1 with
          isInThinking := true
          buffer := after
          openedSections := (emitPlain mid st before).1.openedSections + 1 }).1.buffer =
          after := by
        rw [startThinking_buffer]
      simp only [processBufferStep, hth, if_pos, hsp]
      rw [h _ (by rw [hb]; omega)]
  · have hth2 : st.isInThinking = true := by
      revert hth; cases st.isInThinking <;> simp
    cases hsp : splitFirst closeTag st.buffer with
    | none =>
      simp only [processBufferStep, hth2, hsp,
        if_neg (show ¬ ((true : Bool) = false) by decide)]
    | some pr =>
      obtain ⟨tc, after⟩ := pr
      have hlt := splitFirst_suf_length closeTag st.buffer tc after closeTag_ne_nil hsp
      simp only [processBufferStep, hth2, hsp,
        if_neg (show ¬ ((true : Bool) = false) by decide)]
      rw [h _ (by show after.length < st.buffer.length; omega)]

theorem processBufferF_congr (mid : Nat) :
    ∀ n m st, st.buffer.length < n → st.buffer.length < m →
      processBufferF mid n st = processBufferF mid m st := by
  intro n
  induction n with
  | zero => intro m st hn; omega
  | succ k ih =>
    intro m st hn hm
    cases m with
    | zero => omega
    | succ j =>
      show processBufferStep mid (processBufferF mid k) st =
        processBufferStep mid (processBufferF mid j) st
      exact processBufferStep_congr mid _ _ st
        (fun s2 hs2 => ih j s2 (by omega) (by omega))

/-- One-step unfolding of processBuffer in terms of itself, usable for
induction on the buffer length. -/
theorem processBuffer_eq (mid : Nat) (st : DemSt) :
    processBuffer mid st = processBufferStep mid (processBuffer mid) st := by
  show processBufferStep mid (processBufferF mid st.buffer.length) st =
    processBufferStep mid (processBuffer mid) st
  exact processBufferStep_congr mid _ _ st
    (fun s2 hs2 => processBufferF_congr mid _ _ s2 (by omega) (by omega))

/-- One feed of a content fragment (server.py lines 208-210 followed by the
loop): guarded by the Python falsiness test `if delta.content:`. -/
def feedContent (mid : Nat) (st : DemSt) (frag : List Char) : DemSt × List Ev :=
  if frag = [] then (st, [])
  else processBuffer mid { st with buffer := st.buffer ++ frag }

/-- Feeding a list of fragments in order (the demultiplexer over a whole
turn of content deltas). -/
def feedList (mid : Nat) (st : DemSt) : List (List Char) → DemSt × List Ev
  | [] => (st, [])
  | f :: rest =>
    let r := feedContent mid st f
    let r2 := feedList mid r.1 rest
    (r2.1, r.2 ++ r2.2)

/-- One streamed tool-call fragment (an element of delta.tool_calls).
Absent optional fields (Python None) are modelled by the empty string,
matching the Python falsiness tests that guard every use. -/
structure ToolDelta where
  id : String
  nm : String
  args : String
deriving DecidableEq

/-- One model stream chunk carrying a choice (chunks without a choice are
skipped by the source and therefore not modelled). -/
structure Chunk where
  content : List Char
  toolCalls : List ToolDelta
  finishReason : String
deriving DecidableEq

/-- Tool accumulator part of the generator state:
current_tool_call_id / _name / _args of event_generator. -/
structure ToolSt where
  curId : Option String
  curName : String
  curArgs : String
deriving DecidableEq

/-- The tool executor boundary: a call may return a result string or raise
(modelled as `Except.error` carrying the textual message of the raised
exception, which the run controller turns into RUN_ERROR). -/
def Exec : Type := String → String → Except String String

/-- An executor built from a total result function; models an execute_tool
that never raises. -/
def pureExec (f : String → String → String) : Exec :=
  fun nm args => Except.ok (f nm args)

/-- Processing of one tool-call fragment (server.py lines 344-388): a truthy
delta id closes the previous pending call (executing it and emitting its
end event) and starts the new one; a truthy argument fragment is then
appended to the pending buffer and re-emitted as a TOOL_CALL_ARGS event.
A fragment that arrives with no pending call id would make the source
construct ToolCallArgsEvent with tool_call_id=None, which raises a pydantic
validation error; this is modelled as an exception. -/
def processToolDelta (exec : Exec) (mid : Nat) (ts : ToolSt) (tc : ToolDelta) :
    ToolSt × List Ev × Option String :=
  let r1 : ToolSt × List Ev × Option String :=
    if tc.id ≠ "" then
      match ts.curId with
      | some cid =>
        match exec ts.curName ts.curArgs with
        | Except.error e => (ts, [], some e)
        | Except.ok res =>
          ({ curId := some tc.id, curName := tc.nm, curArgs := tc.args },
           [Ev.toolEnd cid res, Ev.toolStart tc.id tc.nm mid], none)
      | none =>
        ({ curId := some tc.id, curName := tc.nm, curArgs := tc.args },
         [Ev.toolStart tc.id tc.nm mid], none)
    else (ts, [], none)
  match r1.2.2 with
  | some _ => r1
  | none =>
    let ts1 := r1.1
    if tc.args ≠ "" then
      match ts1.curId with
      | some cid =>
        ({ ts1 with curArgs := ts1.curArgs ++ tc.args },
         r1.2.1 ++ [Ev.toolArgs cid tc.args], none)
      | none =>
        ({ ts1 with curArgs := ts1.curArgs ++ tc.args },
         r1.2.1, some "validation error: tool_call_id is None")
    else (ts1, r1.2.1, none)

/-- Fold of processToolDelta over the fragments of one chunk, stopping at
the first raised exception. -/
def processToolDeltas (exec : Exec) (mid : Nat) (ts : ToolSt) :
    List ToolDelta → ToolSt × List Ev × Option String
  | [] => (ts, [], none)
  | tc :: rest =>
    let r := processToolDelta exec mid ts tc
    match r.2.2 with
    | some e => (r.1, r.2.1, some e)
    | none =>
      let r2 := processToolDeltas exec mid r.1 rest
      (r2.1, r.2.1 ++ r2.2.1, r2.2.2)

/-- An executed tool call tuple (the dict appended to tool_results). -/
structure ToolResult where
  callId : String
  nm : String
  args : String
  result : String
deriving DecidableEq

/-- Messages appended to the conversation before the continuation call. -/
inductive PyMsg where
  | assistantToolCalls (calls : List (String × String × String))
  | toolResult (callId : String) (content : String)
deriving DecidableEq

/-- The continuation stream loop (server.py lines 470-504): content-only,
with its own started flag and fresh message id; tool calls and thinking
tags in continuation chunks are not handled. -/
def contLoop (contMid : Nat) (started : Bool) : List Chunk → Bool × List Ev
  | [] => (started, [])
  | ch :: rest =>
    let r1 : Bool × List Ev :=
      if ch.content ≠ [] then
        if started then (true, [Ev.textContent contMid ch.content])
        else (true, [Ev.textStart contMid, Ev.textContent contMid ch.content])
      else (started, [])
    let r2 : List Ev := if ch.finishReason ≠ "" && r1.1 then [Ev.textEnd contMid] else []
    let r3 := contLoop contMid r1.1 rest
    (r3.1, r1.2 ++ r2 ++ r3.2)

/-- Output of the finish-reason handler. -/
structure FinOut where
  ts : ToolSt
  evs : List Ev
  appended : List PyMsg
  contIssued : Bool
  nextId : Nat
  err : Option String
deriving DecidableEq

/-- Second half of the finish-reason handler (after the final pending tool
call was executed): close the text message if it was started, and when the
finish reason is tool_calls with a nonempty result list, append the
assistant tool-call message and the per-call tool messages and issue the
single continuation call. -/
def processFinish2 (mid : Nat) (nextId : Nat) (cont : List Chunk)
    (contErr : Option String) (dem : DemSt) (ts : ToolSt) (reason : String)
    (evs1 : List Ev) (tres : List ToolResult) : FinOut :=
  let evs2 : List Ev := if dem.hasStartedText then [Ev.textEnd mid] else []
  if reason = "tool_calls" && !tres.isEmpty then
    let appended := PyMsg.assistantToolCalls (tres.map fun tr => (tr.callId, tr.nm, tr.args)) ::
      tres.map (fun tr => PyMsg.toolResult tr.callId tr.result)
    let rc := contLoop nextId false cont
    { ts := ts
      evs := evs1 ++ evs2 ++ rc.2
      appended := appended
      contIssued := true
      nextId := nextId + 1
      err := contErr }
  else
    { ts := ts, evs := evs1 ++ evs2, appended := [], contIssued := false
      nextId := nextId, err := none }

/-- The finish-reason handler (server.py lines 391-504): execute and close
the pending tool call if any (collecting its tuple into tool_results),
then close the text message and possibly run the continuation.  The content
buffer of the demultiplexer is not touched (the source performs no flush). -/
def processFinish (exec : Exec) (mid : Nat) (nextId : Nat) (cont : List Chunk)
    (contErr : Option String) (dem : DemSt) (ts : ToolSt) (reason : String) : FinOut :=
  match ts.curId with
  | some cid =>
    match exec ts.curName ts.curArgs with
    | Except.error e =>
      { ts := ts, evs := [], appended := [], contIssued := false
        nextId := nextId, err := some e }
    | Except.ok res =>
      processFinish2 mid nextId cont contErr dem ts reason [Ev.toolEnd cid res]
        [{ callId := cid, nm := ts.curName, args := ts.curArgs, result := res }]
  | none => processFinish2 mid nextId cont contErr dem ts reason [] []

/-- Whole generator state. -/
structure GSt where
  dem : DemSt
  ts : ToolSt
  nextId : Nat
deriving DecidableEq

/-- Output of processing one chunk. -/
structure StepOut where
  st : GSt
  evs : List Ev
  appended : List PyMsg
  contIssued : Bool
  err : Option String
deriving DecidableEq

/-- Processing of one chunk, in source order: content first, then tool-call
fragments, then the finish reason if truthy. -/
def processChunk (exec : Exec) (mid : Nat) (cont : List Chunk)
    (contErr : Option String) (g : GSt) (ch : Chunk) : StepOut :=
  let r1 := feedContent mid g.dem ch.content
  let r2 := processToolDeltas exec mid g.ts ch.toolCalls
  match r2.2.2 with
  | some e =>
    { st := { dem := r1.1, ts := r2.1, nextId := g.nextId }
      evs := r1.2 ++ r2.2.1, appended := [], contIssued := false, err := some e }
  | none =>
    if ch.finishReason ≠ "" then
      let f := processFinish exec mid g.nextId cont contErr r1.1 r2.1 ch.finishReason
      { st := { dem := r1.1, ts := f.ts, nextId := f.nextId }
        evs := r1.2 ++ r2.2.1 ++ f.evs, appended := f.appended
        contIssued := f.contIssued, err := f.err }
    else
      { st := { dem := r1.1, ts := r2.1, nextId := g.nextId }
        evs := r1.2 ++ r2.2.1, appended := [], contIssued := false, err := none }

/-- Output of the chunk loop. -/
structure LoopOut where
  st : GSt
  evs : List Ev
  appended : List PyMsg
  contCount : Nat
  err : Option String
deriving DecidableEq

/-- The async-for loop over the model stream, stopping at the first raised
exception. -/
def runChunks (exec : Exec) (mid : Nat) (cont : List Chunk)
    (contErr : Option String) (g : GSt) : List Chunk → LoopOut
  | [] => { st := g, evs := [], appended := [], contCount := 0, err := none }
  | ch :: rest =>
    let r := processChunk exec mid cont contErr g ch
    match r.err with
    | some e =>
      { st := r.st, evs := r.evs, appended := r.appended
        contCount := (if r.contIssued then 1 else 0), err := some e }
    | none =>
      let r2 := runChunks exec mid cont contErr r.st rest
      { st := r2.st, evs := r.evs ++ r2.evs, appended := r.appended ++ r2.appended
        contCount := (if r.contIssued then 1 else 0) + r2.contCount, err := r2.err }

/-- A modelled run input: the primary model stream (its chunks, and the
message of an exception raised by the stream after them, if any), and the
stream returned by the continuation call, likewise. -/
structure RunInput where
  chunks : List Chunk
  streamErr : Option String
  cont : List Chunk
  contErr : Option String

/-- Observable outcome of one run: the emitted event sequence, the trace of
model invocations (true = tools offered, false = tools not offered), the
messages appended to the conversation before a continuation, the final
generator state, and the exception that aborted the run, if any. -/
structure RunOut where
  events : List Ev
  modelCalls : List Bool
  appended : List PyMsg
  finalSt : GSt
  err : Option String

/-- The id of the first turn: the first uuid4 draw of event_generator. -/
def mainMid : Nat := 0

/-- Initial generator state; nextId 2 reflects that message_id and
thinking_message_id consume the first two uuid4 draws. -/
def initGSt : GSt :=
  { dem := { isInThinking := false, hasStartedText := false, hasTextContent := false
             hasStartedThinking := false, buffer := [], openedSections := 0
             closedSections := 0 }
    ts := { curId := none, curName := "", curArgs := "" }
    nextId := 2 }

/-- The event generator with its run-controller boundary (server.py lines
117-523): RUN_STARTED, then the chunk loop; on normal completion
RUN_FINISHED; if an exception was raised anywhere while consuming the
stream, RUN_ERROR with its message.  The primary model call offers the
tool declarations, a continuation call does not. -/
def runGen (exec : Exec) (inp : RunInput) : RunOut :=
  let L := runChunks exec mainMid inp.cont inp.contErr initGSt inp.chunks
  let calls := true :: List.replicate L.contCount false
  match L.err with
  | some e =>
    { events := Ev.runStarted :: (L.evs ++ [Ev.runError e]), modelCalls := calls
      appended := L.appended, finalSt := L.st, err := some e }
  | none =>
    match inp.streamErr with
    | some e =>
      { events := Ev.runStarted :: (L.evs ++ [Ev.runError e]), modelCalls := calls
        appended := L.appended, finalSt := L.st, err := some e }
    | none =>
      { events := Ev.runStarted :: (L.evs ++ [Ev.runFinished]), modelCalls := calls
        appended := L.appended, finalSt := L.st, err := none }

end AgStream

namespace AgTools

/-
Embedding of src/server/tools.py.  The Python standard library pieces used
by it (json.loads, compile/eval of expressions, the random module) are not
part of the repository; they are modelled as explicit parameters:
a JSON parser `loads : String → Option JVal`, a compile/eval model
`PyEvalModel`, and a pseudo-random generator `PRNG` whose global state is
threaded explicitly (random.seed resets that state from the seed alone).
The definitions below translate the control flow of tools.py over these
parameters.
-/

/-- JSON values as produced by json.loads. -/
inductive JVal where
  | jnull
  | jbool (b : Bool)
  | jnum (n : Int)
  | jstr (s : String)
  | jobj (fields : List (String × JVal))

/-- Python truthiness of a JSON value (used by `if not city:`). -/
def truthy : JVal → Bool
  | JVal.jnull => false
  | JVal.jbool b => b
  | JVal.jnum n => n ≠ 0
  | JVal.jstr s => s ≠ ""
  | JVal.jobj fs => !fs.isEmpty

/-- Models `args.get(key, default)`: dict lookup with default on a parsed
JSON object; on any non-object value the attribute access raises
AttributeError (the source never guards the shape of the parsed value). -/
def objGet : JVal → String → JVal → Except String JVal
  | JVal.jobj fs, k, dflt => Except.ok (((fs.find? (fun p => p.1 = k)).map Prod.snd).getD dflt)
  | _, _, _ => Except.error "AttributeError: get"

/-- A single-quote character, used in the error strings of tools.py. -/
def sq : String := String.singleton (Char.ofNat 39)

/-- Abstract model of Python compile/eval for the calculate tool: compile
returns a code token or an error (the Bool marks a SyntaxError as opposed
to another exception such as TypeError or ValueError), names lists
co_names of the code object, and eval returns str(result) of a successful
evaluation or the message of a caught exception. -/
structure PyEvalModel where
  pycompile : String → Except (Bool × String) Nat
  conames : Nat → List String
  pyeval : Nat → Except String String

/-- The allowed_names table of tools.py (keys only; the values are the
Python builtins/math functions, which stay inside the abstract eval). -/
def allowedNames : List String :=
  ["abs", "round", "min", "max", "sum", "pow", "sqrt", "sin", "cos", "tan",
   "log", "log10", "exp", "pi", "e"]

/-- The message of the TypeError raised by compile on a non-string first
argument (caught by the bare except of calculate). -/
def compileTypeError : String := "compile() arg 1 must be a string, bytes or AST object"

/-- The calculate tool (tools.py lines 121-167).  The whole body sits in a
try/except that maps a SyntaxError to the dedicated message and any other
exception to "Error: " followed by its message, so calculate itself never
raises; a non-string expression raises TypeError inside compile and is
likewise caught. -/
def calculate (M : PyEvalModel) (expression : JVal) : String :=
  match expression with
  | JVal.jstr s =>
    match M.pycompile s with
    | Except.error (true, m) => "Error: Invalid expression syntax - " ++ m
    | Except.error (false, m) => "Error: " ++ m
    | Except.ok code =>
      match (M.conames code).find? (fun n => !(allowedNames.contains n)) with
      | some n => "Error: Use of " ++ sq ++ n ++ sq ++ " is not allowed"
      | none =>
        match M.pyeval code with
        | Except.error m => "Error: " ++ m
        | Except.ok v => v
  | _ => "Error: " ++ compileTypeError

/-- Abstract model of the random module: seedInit is random.seed (the new
global state depends on the seed alone), randint and choice consume and
return the global state. -/
structure PRNG where
  seedInit : Nat → Nat
  randint : Nat → Int → Int → Int × Nat
  choice : Nat → Nat → Nat × Nat

/-- Models `units == "fahrenheit"`: a Python equality test against a string
literal, false on every non-string value. -/
def isFahrenheit : JVal → Bool
  | JVal.jstr s => s = "fahrenheit"
  | _ => false

/-- The conditions table of get_weather. -/
def conditions : List String :=
  ["Sunny", "Partly Cloudy", "Cloudy", "Rainy", "Stormy", "Snowy", "Foggy", "Windy"]

/-- Models `sum(ord(c) for c in city.lower())`. -/
def seedOf (city : String) : Nat :=
  ((city.toList.map Char.toLower).map Char.toNat).sum

/-- Models `round(temp_celsius * 9/5 + 32)`: the exact rational value of
t*9/5+32 has fractional part in 0, 1/5, 2/5, 3/5, 4/5, so rounding to the
nearest integer never ties and agrees with the Python float round. -/
def pyRound95 (t : Int) : Int :=
  let n : Int := t * 9 + 160
  (Int.fdiv n 5) + (if 3 ≤ Int.emod n 5 then 1 else 0)

/-- The degree character. -/
def degChar : String := String.singleton (Char.ofNat 176)

/-- Shallow rendering of a JSON value inside the output of json.dumps
(display-only; obj rendering elided since the units field is never an
object in any modelled call). -/
def jshow : JVal → String
  | JVal.jnull => "null"
  | JVal.jbool b => if b then "true" else "false"
  | JVal.jnum n => toString n
  | JVal.jstr s => "\"" ++ s ++ "\""
  | JVal.jobj _ => "\x7b...\x7d"

/-- The output string of get_weather: json.dumps(result, indent=2) of the
result dict (string escaping elided; the exact rendering carries no claim). -/
def dumpsWeather (city : String) (temp : Int) (tunit : String)
    (condition : String) (humidity : Int) (wind : Int) (units : JVal) : String :=
  "\x7b\n  \"city\": \"" ++ city ++ "\",\n  \"temperature\": \"" ++ toString temp ++
  tunit ++ "\",\n  \"condition\": \"" ++ condition ++ "\",\n  \"humidity\": \"" ++
  toString humidity ++ "%\",\n  \"wind_speed\": \"" ++ toString wind ++
  " km/h\",\n  \"units\": " ++ jshow units ++ "\n\x7d"

/-- The get_weather tool (tools.py lines 76-118), over the abstract random
module with explicit global state `rst`.  A falsy city yields the error
string; a truthy non-string city raises AttributeError at city.lower()
(the call is not inside any try). -/
def get_weather (G : PRNG) (rst : Nat) (city units : JVal) :
    Except String (String × Nat) :=
  if truthy city = false then Except.ok ("Error: City name is required", rst)
  else
    match city with
    | JVal.jstr c =>
      let st0 := G.seedInit (seedOf c)
      let p1 := G.randint st0 (-10) 40
      let p2 := G.randint p1.2 30 95
      let p3 := G.choice p2.2 conditions.length
      let condition := conditions.getD p3.1 ""
      let p4 := G.randint p3.2 0 50
      let tp : Int × String :=
        if isFahrenheit units then (pyRound95 p1.1, degChar ++ "F")
        else (p1.1, degChar ++ "C")
      Except.ok (dumpsWeather c tp.1 tp.2 condition p2.1 p4.1 units, p4.2)
    | _ => Except.error "AttributeError: lower"

/-- The execute_tool dispatcher (tools.py lines 52-73): only the json.loads
call is guarded by a try/except; the args.get attribute accesses and the
tool bodies run unguarded, so their exceptions propagate to the caller. -/
def execute_tool (loads : String → Option JVal) (M : PyEvalModel) (G : PRNG)
    (rst : Nat) (tool_name arguments : String) : Except String (String × Nat) :=
  match loads arguments with
  | none => Except.ok ("Error: Invalid JSON arguments: " ++ arguments, rst)
  | some args =>
    if tool_name = "calculate" then
      match objGet args "expression" (JVal.jstr "") with
      | Except.error e => Except.error e
      | Except.ok expr => Except.ok (calculate M expr, rst)
    else if tool_name = "get_weather" then
      match objGet args "city" (JVal.jstr "") with
      | Except.error e => Except.error e
      | Except.ok city =>
        match objGet args "units" (JVal.jstr "celsius") with
        | Except.error e => Except.error e
        | Except.ok units => get_weather G rst city units
    else Except.ok ("Error: Unknown tool " ++ sq ++ tool_name ++ sq, rst)

end AgTools

namespace AgStream

/-- A content-only chunk. -/
def contentChunk (s : String) : Chunk :=
  { content := s.toList, toolCalls := [], finishReason := "" }

/-- A bare finish chunk. -/
def finishChunk (r : String) : Chunk :=
  { content := [], toolCalls := [], finishReason := r }

/-- A run input with no upstream errors and an empty continuation stream. -/
def plainInput (chs : List Chunk) : RunInput :=
  { chunks := chs, streamErr := none, cont := [], contErr := none }

/-- A tool-call fragment literal. -/
def td (i n a : String) : ToolDelta := { id := i, nm := n, args := a }

/-- A chunk carrying only tool-call fragments. -/
def toolChunk (tds : List ToolDelta) : Chunk :=
  { content := [], toolCalls := tds, finishReason := "" }

/-- An executor model that echoes the raw argument string as the result. -/
def echoExec : Exec := pureExec fun _ args => args

/-- A run input whose model stream yields one content chunk and then raises
an exception with message boom. -/
def boomInput : RunInput :=
  { chunks := [contentChunk "hi"], streamErr := some "boom", cont := [], contErr := none }

/-- A run input whose model stream is a prefix followed by a bare
tool_calls finish chunk, with a given continuation stream and no upstream
errors. -/
def tcInput (pre cont : List Chunk) : RunInput :=
  { chunks := pre ++ [finishChunk "tool_calls"], streamErr := none, cont := cont, contErr := none }

/-- Terminal run events (RUN_FINISHED or RUN_ERROR). -/
def isTerminal : Ev → Bool
  | Ev.runFinished => true
  | Ev.runError _ => true
  | _ => false

/-- Events the content demultiplexer may emit in a turn with message id
mid. -/
def contentEv (mid : Nat) : Ev → Bool
  | Ev.textStart m => m = mid
  | Ev.textContent m _ => m = mid
  | Ev.thinkingStart => true
  | Ev.ttStart => true
  | Ev.ttContent _ => true
  | Ev.ttEnd => true
  | Ev.thinkingEnd => true
  | _ => false

/-- Events the tool accumulator may emit (tool-call starts carry the parent
message id mid). -/
def toolEv (mid : Nat) : Ev → Bool
  | Ev.toolStart _ _ p => p = mid
  | Ev.toolArgs _ _ => true
  | Ev.toolEnd _ _ => true
  | _ => false

/-- Events the continuation loop with message id cm may emit: text message
events of that id only. -/
def contEv (cm : Nat) : Ev → Bool
  | Ev.textStart m => m = cm
  | Ev.textContent m _ => m = cm
  | Ev.textEnd m => m = cm
  | _ => false

/-- Plain-span events only: a text-message start of the given id, or a
text-message content delta of that id with non-whitespace text.  Excludes
in particular every thinking/reasoning event. -/
def plainEv (mid : Nat) : Ev → Bool
  | Ev.textStart m => m = mid
  | Ev.textContent m d => m = mid && hasNonWs d
  | _ => false

/-- Any event a chunk processing step may emit: demultiplexer or tool
accumulator output, the closing of the turn text message, or continuation
text events. -/
def chunkEv (mid : Nat) (nid : Nat) (e : Ev) : Bool :=
  contentEv mid e || toolEv mid e || (e = Ev.textEnd mid) || contEv nid e

/-- The plain span texts of an event list (deltas of the text-message
content events). -/
def plainSpans (evs : List Ev) : List (List Char) :=
  evs.filterMap fun e =>
    match e with
    | Ev.textContent _ d => some d
    | _ => none

end AgStream

namespace AgTools

/-- Model of json.loads restricted to the numeric literal used by the C5
counterexample: the standard library parses "42" to the number 42. -/
def loadsNum : String → Option JVal :=
  fun s => if s = "42" then some (JVal.jnum 42) else none

/-- A trivial compile/eval model (any instantiation works for the claims
about the dispatch layer). -/
def trivEval : PyEvalModel :=
  { pycompile := fun _ => Except.error (true, "x"), conames := fun _ => []
    pyeval := fun _ => Except.error "x" }

/-- A compile/eval model whose code objects mention the name open (which is
not in allowed_names). -/
def nameEval : PyEvalModel :=
  { pycompile := fun _ => Except.ok 0, conames := fun _ => ["open"]
    pyeval := fun _ => Except.ok "1" }

/-- A trivial linear-congruential random module model. -/
def trivPRNG : PRNG :=
  { seedInit := fun n => n
    randint := fun s lo _ => (lo + Int.ofNat (s % 7), s * 1103515245 + 12345)
    choice := fun s n => (s % (n + 1), s * 1103515245 + 12345) }

end AgTools

namespace AgStream

theorem emitPlain_events (mid : Nat) (st : DemSt) (txt : List Char) :
    ∀ e ∈ (emitPlain mid st txt).2, contentEv mid e = true := by
  intro e he
  unfold emitPlain at he
  split at he
  · split at he
    · simp at he
      subst he
      simp [contentEv]
    · simp at he
      rcases he with h | h <;> subst h <;> simp [contentEv]
  · simp at he

theorem startThinking_events (st : DemSt) :
    ∀ e ∈ (startThinking st).2, contentEv mid e = true := by
  intro e he
  unfold startThinking at he
  split at he
  · simp at he
  · simp at he
    rcases he with h | h <;> subst h <;> simp [contentEv]

theorem processBufferStep_events (mid : Nat) (recur : DemSt → DemSt × List Ev)
    (st : DemSt)
    (hrec : ∀ s2 : DemSt, s2.buffer.length < st.buffer.length →
      ∀ e ∈ (recur s2).2, contentEv mid e = true) :
    ∀ e ∈ (processBufferStep mid recur st).2, contentEv mid e = true := by
  intro e he
  by_cases hth : st.isInThinking = false
  · cases hsp : splitFirst openTag st.buffer with
    | none =>
      simp only [processBufferStep, hth, if_pos, hsp] at he
      split at he
      · simp at he
      · exact emitPlain_events mid st st.buffer e he
    | some pr =>
      obtain ⟨before, after⟩ := pr
      have hlt := splitFirst_suf_length openTag st.buffer before after openTag_ne_nil hsp
      have hb : (startThinking { (emitPlain mid st before).1 with
          isInThinking := true
          buffer := after
          openedSections := (emitPlain mid st before).1.openedSections + 1 }).1.buffer =
          after := by
        rw [startThinking_buffer]
      simp only [processBufferStep, hth, if_pos, hsp, List.mem_append] at he
      rcases he with (h | h) | h
      · exact emitPlain_events mid st before e h
      · exact startThinking_events _ e h
      · exact hrec _ (by rw [hb]; omega) e h
  · have hth2 : st.isInThinking = true := by
      revert hth; cases st.isInThinking <;> simp
    cases hsp : splitFirst closeTag st.buffer with
    | none =>
      simp only [processBufferStep, hth2, hsp,
        if_neg (show ¬ ((true : Bool) = false) by decide)] at he
      split at he
      · simp at he
      · split at he <;> simp at he <;> subst he <;> simp [contentEv]
    | some pr =>
      obtain ⟨tc, after⟩ := pr
      have hlt := splitFirst_suf_length closeTag st.buffer tc after closeTag_ne_nil hsp
      simp only [processBufferStep, hth2, hsp,
        if_neg (show ¬ ((true : Bool) = false) by decide), List.mem_append] at he
      rcases he with (h | h) | h
      · split at h <;> simp at h <;> subst h <;> simp [contentEv]
      · simp at h
        rcases h with h | h <;> subst h <;> simp [contentEv]
      · exact hrec _ (by show after.length < st.buffer.length; omega) e h

theorem processBuffer_events (mid : Nat) :
    ∀ n : Nat, ∀ st : DemSt, st.buffer.length ≤ n →
      ∀ e ∈ (processBuffer mid st).2, contentEv mid e = true := by
  intro n
  induction n with
  | zero =>
    intro st hl e he
    rw [processBuffer_eq] at he
    exact processBufferStep_events mid _ st (fun s2 hs2 => by omega) e he
  | succ k ih =>
    intro st hl e he
    rw [processBuffer_eq] at he
    exact processBufferStep_events mid _ st
      (fun s2 hs2 => ih s2 (by omega)) e he

theorem feedContent_events (mid : Nat) (st : DemSt) (frag : List Char) :
    ∀ e ∈ (feedContent mid st frag).2, contentEv mid e = true := by
  intro e he
  unfold feedContent at he
  split at he
  · simp at he
  · exact processBuffer_events mid _ _ (Nat.le_refl _) e he

theorem processToolDelta_events (exec : Exec) (mid : Nat) (ts : ToolSt)
    (tc : ToolDelta) :
    ∀ e ∈ (processToolDelta exec mid ts tc).2.1, toolEv mid e = true := by
  intro e he
  by_cases hid : tc.id = ""
  · by_cases hargs : tc.args = ""
    · simp [processToolDelta, hid, hargs] at he
    · cases hcur : ts.curId with
      | some cid =>
        simp [processToolDelta, hid, hargs, hcur] at he
        subst he
        simp [toolEv]
      | none => simp [processToolDelta, hid, hargs, hcur] at he
  · cases hcur : ts.curId with
    | none =>
      by_cases hargs : tc.args = ""
      · simp [processToolDelta, hid, hargs, hcur] at he
        subst he
        simp [toolEv]
      · simp [processToolDelta, hid, hargs, hcur] at he
        rcases he with h | h <;> subst h <;> simp [toolEv]
    | some cid =>
      cases hexec : exec ts.curName ts.curArgs with
      | error err => simp [processToolDelta, hid, hcur, hexec] at he
      | ok res =>
        by_cases hargs : tc.args = ""
        · simp [processToolDelta, hid, hargs, hcur, hexec] at he
          rcases he with h | h <;> subst h <;> simp [toolEv]
        · simp [processToolDelta, hid, hargs, hcur, hexec] at he
          rcases he with h | h | h <;> subst h <;> simp [toolEv]

theorem processToolDeltas_events (exec : Exec) (mid : Nat) :
    ∀ tds : List ToolDelta, ∀ ts : ToolSt,
      ∀ e ∈ (processToolDeltas exec mid ts tds).2.1, toolEv mid e = true := by
  intro tds
  induction tds with
  | nil => intro ts e he; simp [processToolDeltas] at he
  | cons tc rest ih =>
    intro ts e he
    simp only [processToolDeltas] at he
    cases hr : (processToolDelta exec mid ts tc).2.2 with
    | some err =>
      rw [hr] at he
      exact processToolDelta_events exec mid ts tc e he
    | none =>
      rw [hr] at he
      simp only [List.mem_append] at he
      rcases he with h | h
      · exact processToolDelta_events exec mid ts tc e h
      · exact ih _ e h

theorem contLoop_events (cm : Nat) :
    ∀ chs : List Chunk, ∀ started : Bool,
      ∀ e ∈ (contLoop cm started chs).2, contEv cm e = true := by
  intro chs
  induction chs with
  | nil => intro started e he; simp [contLoop] at he
  | cons ch rest ih =>
    intro started e he
    by_cases hc : ch.content = []
    · by_cases hf : ch.finishReason = ""
      · simp [contLoop, hc, hf] at he
        exact ih _ e he
      · cases started with
        | false =>
          simp [contLoop, hc, hf] at he
          exact ih _ e he
        | true =>
          simp [contLoop, hc, hf] at he
          rcases he with h | h
          · subst h; simp [contEv]
          · exact ih _ e h
    · by_cases hf : ch.finishReason = ""
      · cases started with
        | false =>
          simp [contLoop, hc, hf] at he
          rcases he with h | h | h
          · subst h; simp [contEv]
          · subst h; simp [contEv]
          · exact ih _ e h
        | true =>
          simp [contLoop, hc, hf] at he
          rcases he with h | h
          · subst h; simp [contEv]
          · exact ih _ e h
      · cases started with
        | false =>
          simp [contLoop, hc, hf] at he
          rcases he with h | h | h | h
          · subst h; simp [contEv]
          · subst h; simp [contEv]
          · subst h; simp [contEv]
          · exact ih _ e h
        | true =>
          simp [contLoop, hc, hf] at he
          rcases he with h | h | h
          · subst h; simp [contEv]
          · subst h; simp [contEv]
          · exact ih _ e h

theorem contentEv_chunkEv (mid nid : Nat) (e : Ev) (h : contentEv mid e = true) :
    chunkEv mid nid e = true := by
  simp [chunkEv, h]

theorem toolEv_chunkEv (mid nid : Nat) (e : Ev) (h : toolEv mid e = true) :
    chunkEv mid nid e = true := by
  simp [chunkEv, h]

theorem contEv_chunkEv (mid nid : Nat) (e : Ev) (h : contEv nid e = true) :
    chunkEv mid nid e = true := by
  simp [chunkEv, h]

theorem processFinish2_events (mid nextId : Nat) (cont : List Chunk)
    (contErr : Option String) (dem : DemSt) (ts : ToolSt) (reason : String)
    (evs1 : List Ev) (tres : List ToolResult)
    (h1 : ∀ e ∈ evs1, toolEv mid e = true) :
    ∀ e ∈ (processFinish2 mid nextId cont contErr dem ts reason evs1 tres).evs,
      chunkEv mid nextId e = true := by
  intro e he
  have hsplit : (processFinish2 mid nextId cont contErr dem ts reason evs1 tres).evs =
      evs1 ++ (if dem.hasStartedText then [Ev.textEnd mid] else []) ++
      (if (reason = "tool_calls" && !tres.isEmpty : Bool) then
        (contLoop nextId false cont).2 else []) := by
    unfold processFinish2
    split <;> simp_all <;> split <;> simp_all
  rw [hsplit] at he
  simp only [List.mem_append] at he
  rcases he with (h | h) | h
  · exact toolEv_chunkEv mid nextId e (h1 e h)
  · split at h
    · simp at h; subst h; simp [chunkEv, contEv]
    · simp at h
  · split at h
    · exact contEv_chunkEv mid nextId e (contLoop_events nextId cont false e h)
    · simp at h

theorem processFinish_events (exec : Exec) (mid nextId : Nat) (cont : List Chunk)
    (contErr : Option String) (dem : DemSt) (ts : ToolSt) (reason : String) :
    ∀ e ∈ (processFinish exec mid nextId cont contErr dem ts reason).evs,
      chunkEv mid nextId e = true := by
  intro e he
  unfold processFinish at he
  cases hcur : ts.curId with
  | none =>
    rw [hcur] at he
    exact processFinish2_events mid nextId cont contErr dem ts reason [] []
      (by intro x hx; simp at hx) e he
  | some cid =>
    rw [hcur] at he
    cases hexec : exec ts.curName ts.curArgs with
    | error err =>
      rw [hexec] at he
      simp at he
    | ok res =>
      rw [hexec] at he
      refine processFinish2_events mid nextId cont contErr dem ts reason _ _ ?_ e he
      intro x hx
      simp at hx
      subst hx
      simp [toolEv]

theorem processChunk_events (exec : Exec) (mid : Nat) (cont : List Chunk)
    (contErr : Option String) (g : GSt) (ch : Chunk) :
    ∀ e ∈ (processChunk exec mid cont contErr g ch).evs,
      chunkEv mid g.nextId e = true := by
  intro e he
  simp only [processChunk] at he
  cases hr : (processToolDeltas exec mid g.ts ch.toolCalls).2.2 with
  | some err =>
    rw [hr] at he
    have he2 : e ∈ (feedContent mid g.dem ch.content).2 ∨
        e ∈ (processToolDeltas exec mid g.ts ch.toolCalls).2.1 := by
      simpa using he
    rcases he2 with h | h
    · exact contentEv_chunkEv mid g.nextId e (feedContent_events mid g.dem ch.content e h)
    · exact toolEv_chunkEv mid g.nextId e
        (processToolDeltas_events exec mid ch.toolCalls g.ts e h)
  | none =>
    rw [hr] at he
    by_cases hfin : ch.finishReason = ""
    · have he2 : e ∈ (feedContent mid g.dem ch.content).2 ∨
          e ∈ (processToolDeltas exec mid g.ts ch.toolCalls).2.1 := by
        simpa [hfin] using he
      rcases he2 with h | h
      · exact contentEv_chunkEv mid g.nextId e (feedContent_events mid g.dem ch.content e h)
      · exact toolEv_chunkEv mid g.nextId e
          (processToolDeltas_events exec mid ch.toolCalls g.ts e h)
    · have he2 : e ∈ (feedContent mid g.dem ch.content).2 ∨
          e ∈ (processToolDeltas exec mid g.ts ch.toolCalls).2.1 ∨
          e ∈ (processFinish exec mid g.nextId cont contErr
            (feedContent mid g.dem ch.content).1
            (processToolDeltas exec mid g.ts ch.toolCalls).1 ch.finishReason).evs := by
        simpa [hfin, or_assoc] using he
      rcases he2 with h | h | h
      · exact contentEv_chunkEv mid g.nextId e (feedContent_events mid g.dem ch.content e h)
      · exact toolEv_chunkEv mid g.nextId e
          (processToolDeltas_events exec mid ch.toolCalls g.ts e h)
      · exact processFinish_events exec mid g.nextId cont contErr _ _ _ e h

theorem chunkEv_not_terminal (mid nid : Nat) (e : Ev) (h : chunkEv mid nid e = true) :
    isTerminal e = false := by
  cases e <;> simp_all [chunkEv, contentEv, toolEv, contEv, isTerminal]

theorem runChunks_events_nonterm (exec : Exec) (mid : Nat) (cont : List Chunk)
    (contErr : Option String) :
    ∀ chs : List Chunk, ∀ g : GSt,
      ∀ e ∈ (runChunks exec mid cont contErr g chs).evs, isTerminal e = false := by
  intro chs
  induction chs with
  | nil => intro g e he; simp [runChunks] at he
  | cons ch rest ih =>
    intro g e he
    simp only [runChunks] at he
    cases hr : (processChunk exec mid cont contErr g ch).err with
    | some err =>
      rw [hr] at he
      exact chunkEv_not_terminal mid g.nextId e
        (processChunk_events exec mid cont contErr g ch e he)
    | none =>
      rw [hr] at he
      simp only [List.mem_append] at he
      rcases he with h | h
      · exact chunkEv_not_terminal mid g.nextId e
          (processChunk_events exec mid cont contErr g ch e h)
      · exact ih _ e h

/-- Every run emits RUN_STARTED, then the non-terminal chunk-loop events,
then a single terminal event determined by whether an exception was
raised. -/
theorem runGen_events_form (exec : Exec) (inp : RunInput) :
    ∃ t : Ev, (runGen exec inp).events =
        Ev.runStarted ::
          ((runChunks exec mainMid inp.cont inp.contErr initGSt inp.chunks).evs ++ [t]) ∧
      isTerminal t = true ∧
      ((runGen exec inp).err = none → t = Ev.runFinished) ∧
      (∀ m, (runGen exec inp).err = some m → t = Ev.runError m) := by
  cases hLerr : (runChunks exec mainMid inp.cont inp.contErr initGSt inp.chunks).err with
  | some m =>
    refine ⟨Ev.runError m, ?_, rfl, ?_, ?_⟩
    · simp [runGen, tcInput, hLerr]
    · intro h
      simp [runGen, tcInput, hLerr] at h
    · intro m2 h
      simp [runGen, tcInput, hLerr] at h
      rw [h]
  | none =>
    cases hs : inp.streamErr with
    | some m =>
      refine ⟨Ev.runError m, ?_, rfl, ?_, ?_⟩
      · simp [runGen, hLerr, hs]
      · intro h
        simp [runGen, hLerr, hs] at h
      · intro m2 h
        simp [runGen, hLerr, hs] at h
        rw [h]
    | none =>
      refine ⟨Ev.runFinished, ?_, rfl, fun _ => rfl, ?_⟩
      · simp [runGen, hLerr, hs]
      · intro m2 h
        simp [runGen, hLerr, hs] at h

end AgStream

section Claims

open AgStream AgTools

/-- C1: the event stream of every run contains exactly one terminal run
event and it is the last event: RUN_FINISHED when the run completed with
no exception, RUN_ERROR carrying the raised message otherwise; in
particular no RUN_FINISHED appears anywhere in a run that errored, so a
RUN_FINISHED never follows a RUN_ERROR. -/
theorem C1_exactly_one_terminal (exec : Exec) (inp : RunInput) :
    (((runGen exec inp).events.filter isTerminal).length = 1) ∧
    (∃ e, (runGen exec inp).events.getLast? = some e ∧ isTerminal e = true) ∧
    ((runGen exec inp).err = none →
      (runGen exec inp).events.getLast? = some Ev.runFinished) ∧
    (∀ m, (runGen exec inp).err = some m →
      (runGen exec inp).events.getLast? = some (Ev.runError m) ∧
      Ev.runFinished ∉ (runGen exec inp).events) := by
  obtain ⟨t, hform, hterm, hnone, hsome⟩ := runGen_events_form exec inp
  have hnt := runChunks_events_nonterm exec mainMid inp.cont inp.contErr inp.chunks initGSt
  have hfilter : ((runGen exec inp).events.filter isTerminal).length = 1 := by
    rw [hform, List.filter_cons]
    have h0 : isTerminal Ev.runStarted = false := rfl
    rw [h0]
    simp only [Bool.false_eq_true, if_false, List.filter_append]
    have h1 : (runChunks exec mainMid inp.cont inp.contErr initGSt inp.chunks).evs.filter
        isTerminal = [] := by
      rw [List.filter_eq_nil_iff]
      intro a ha
      simp [hnt a ha]
    rw [h1]
    simp [hterm]
  have hlast : (runGen exec inp).events.getLast? = some t := by
    rw [hform, ← List.cons_append, List.getLast?_concat]
  refine ⟨hfilter, ⟨t, hlast, hterm⟩, ?_, ?_⟩
  · intro h
    rw [hlast, hnone h]
  · intro m h
    refine ⟨by rw [hlast, hsome m h], ?_⟩
    rw [hform, hsome m h]
    intro hmem
    simp only [List.mem_cons, List.mem_append, List.mem_singleton] at hmem
    rcases hmem with h1 | h1 | h1
    · exact absurd h1 (by simp)
    · have := hnt _ h1
      simp [isTerminal] at this
    · exact absurd h1 (by simp)

/-- C1 witness: the theorem applied to a clean one-chunk run (terminal
RUN_FINISHED) and to a run whose stream raises (terminal RUN_ERROR with
the message, and no RUN_FINISHED anywhere). -/
theorem C1_witness :
    ((runGen echoExec (plainInput [finishChunk "stop"])).events.getLast? =
      some Ev.runFinished) ∧
    ((runGen echoExec boomInput).events.getLast? = some (Ev.runError "boom") ∧
      Ev.runFinished ∉ (runGen echoExec boomInput).events) :=
  ⟨(C1_exactly_one_terminal echoExec (plainInput [finishChunk "stop"])).2.2.1 rfl,
   (C1_exactly_one_terminal echoExec boomInput).2.2.2 "boom" rfl⟩

/-- C10: get_weather is deterministic: for every random-module model and any
two incoming global generator states, invoking get_weather with the same
(city, units) arguments yields the same result string, because random.seed
resets the generator state from the sum of the character codes of the
lowercased city name before any value is drawn; temperature, condition,
humidity and wind therefore depend only on (city, units). -/
theorem C10_get_weather_deterministic (G : PRNG) (s1 s2 : Nat) (c u : String) :
    (get_weather G s1 (JVal.jstr c) (JVal.jstr u)).map (fun p => p.1) =
    (get_weather G s2 (JVal.jstr c) (JVal.jstr u)).map (fun p => p.1) := by
  unfold get_weather
  by_cases h : truthy (JVal.jstr c) = false
  · simp [h, Except.map]
  · simp only [h, if_false, if_neg]
    rfl

/-- C5 counterexample: execute_tool does not return for every tool name and
raw argument string: the argument string "42" is valid JSON, so json.loads
succeeds, but the parsed value is not an object and args.get then raises
AttributeError, which no handler in tools.py catches. -/
theorem C5_counterexample :
    execute_tool loadsNum trivEval trivPRNG 0 "calculate" "42" =
      Except.error "AttributeError: get" := by
  rfl

/-- C5 (amended): execute_tool never raises when the raw arguments fail to
parse or parse to a JSON object (with, for get_weather, a string or absent
city): malformed JSON, an unknown tool name, an empty city, and an invalid
or disallowed calculate expression each produce a result string beginning
with "Error:" instead of an exception; but when the arguments parse to a
non-object JSON value (or get_weather receives a truthy non-string city),
the unguarded attribute access raises. -/
theorem C5_execute_tool_errors (loads : String → Option JVal) (M : PyEvalModel)
    (G : PRNG) (rst : Nat) (tool_name arguments : String) :
    (loads arguments = none →
      execute_tool loads M G rst tool_name arguments =
        Except.ok ("Error: Invalid JSON arguments: " ++ arguments, rst)) ∧
    (∀ j, loads arguments = some j → tool_name ≠ "calculate" →
      tool_name ≠ "get_weather" →
      execute_tool loads M G rst tool_name arguments =
        Except.ok ("Error: Unknown tool " ++ sq ++ tool_name ++ sq, rst)) ∧
    (∀ fs, loads arguments = some (JVal.jobj fs) →
      ∃ r, execute_tool loads M G rst "calculate" arguments = Except.ok (r, rst)) ∧
    (∀ fs c, loads arguments = some (JVal.jobj fs) →
      objGet (JVal.jobj fs) "city" (JVal.jstr "") = Except.ok (JVal.jstr c) →
      ∃ r n2, execute_tool loads M G rst "get_weather" arguments = Except.ok (r, n2)) ∧
    (∀ s bm m, M.pycompile s = Except.error (bm, m) →
      ∃ t, calculate M (JVal.jstr s) = "Error:" ++ t) ∧
    (∀ s code n, M.pycompile s = Except.ok code →
      (M.conames code).find? (fun x => !(allowedNames.contains x)) = some n →
      ∃ t, calculate M (JVal.jstr s) = "Error:" ++ t) ∧
    (∀ u, get_weather G rst (JVal.jstr "") u =
      Except.ok ("Error: City name is required", rst)) := by
  refine ⟨?_, ?_, ?_, ?_, ?_, ?_, ?_⟩
  · intro h
    unfold execute_tool
    rw [h]
  · intro j hj h1 h2
    unfold execute_tool
    rw [hj]
    simp [h1, h2]
  · intro fs hf
    unfold execute_tool
    rw [hf]
    simp only [if_pos rfl]
    unfold objGet
    exact ⟨_, rfl⟩
  · intro fs c hf hcity
    have hu : ∃ uv, objGet (JVal.jobj fs) "units" (JVal.jstr "celsius") =
        Except.ok uv := ⟨_, rfl⟩
    obtain ⟨uv, huv⟩ := hu
    have hdisp : execute_tool loads M G rst "get_weather" arguments =
        get_weather G rst (JVal.jstr c) uv := by
      simp [execute_tool, hf, hcity, huv]
    rw [hdisp]
    by_cases hc : c = ""
    · subst hc
      exact ⟨_, _, rfl⟩
    · unfold get_weather
      have ht : truthy (JVal.jstr c) = true := by simp [truthy, hc]
      rw [ht]
      exact ⟨_, _, rfl⟩
  · intro s bm m hcmp
    simp only [calculate]
    rw [hcmp]
    cases bm
    · refine ⟨" " ++ m, ?_⟩
      simp only [← String.append_assoc]
      rfl
    · refine ⟨" Invalid expression syntax - " ++ m, ?_⟩
      simp only [← String.append_assoc]
      rfl
  · intro s code n hcmp hfind
    simp only [calculate]
    rw [hcmp]
    refine ⟨" Use of " ++ sq ++ n ++ sq ++ " is not allowed", ?_⟩
    simp only [hfind, ← String.append_assoc]
    rfl
  · intro u
    unfold get_weather
    simp [truthy]

/-- C5 witness: the amended executor theorem applied at concrete inputs,
covering malformed JSON, an unknown tool, the calculate and get_weather
dispatch paths, a syntax error, a disallowed name and an empty city. -/
theorem C5_witness :
    (execute_tool (fun _ => none) trivEval trivPRNG 0 "calculate" "bad" =
      Except.ok ("Error: Invalid JSON arguments: bad", 0)) ∧
    (execute_tool (fun _ => some (JVal.jobj [])) trivEval trivPRNG 0 "frobnicate" "a" =
      Except.ok ("Error: Unknown tool " ++ sq ++ "frobnicate" ++ sq, 0)) ∧
    (∃ r, execute_tool (fun _ => some (JVal.jobj [])) trivEval trivPRNG 0 "calculate" "a" =
      Except.ok (r, 0)) ∧
    (∃ r n2, execute_tool (fun _ => some (JVal.jobj [])) trivEval trivPRNG 0 "get_weather" "a" =
      Except.ok (r, n2)) ∧
    (∃ t, calculate trivEval (JVal.jstr "1+") = "Error:" ++ t) ∧
    (∃ t, calculate nameEval (JVal.jstr "open(1)") = "Error:" ++ t) ∧
    (get_weather trivPRNG 0 (JVal.jstr "") (JVal.jstr "celsius") =
      Except.ok ("Error: City name is required", 0)) :=
  ⟨(C5_execute_tool_errors (fun _ => none) trivEval trivPRNG 0 "calculate" "bad").1 rfl,
   (C5_execute_tool_errors (fun _ => some (JVal.jobj [])) trivEval trivPRNG 0
      "frobnicate" "a").2.1 (JVal.jobj []) rfl (by decide) (by decide),
   (C5_execute_tool_errors (fun _ => some (JVal.jobj [])) trivEval trivPRNG 0
      "calculate" "a").2.2.1 [] rfl,
   (C5_execute_tool_errors (fun _ => some (JVal.jobj [])) trivEval trivPRNG 0
      "get_weather" "a").2.2.2.1 [] "" rfl rfl,
   (C5_execute_tool_errors (fun _ => none) trivEval trivPRNG 0 "calculate"
      "bad").2.2.2.2.1 "1+" true "x" rfl,
   (C5_execute_tool_errors (fun _ => none) nameEval trivPRNG 0 "calculate"
      "bad").2.2.2.2.2.1 "open(1)" 0 "open" rfl rfl,
   (C5_execute_tool_errors (fun _ => none) trivEval trivPRNG 0 "calculate"
      "bad").2.2.2.2.2.2 (JVal.jstr "celsius")⟩

/-- C3: the finish-reason handler of event_generator never flushes the
content buffer: on the stream (content "2<3", finish stop) the fragment is
withheld by the partial-delimiter check (it contains a < and does not end
with >), the terminal handling emits no content event for it, and the run
finishes with the text still sitting in the buffer — the residual
non-whitespace text is discarded, not emitted. -/
theorem C3_residual_buffer_discarded :
    (runGen echoExec (plainInput [contentChunk "2<3", finishChunk "stop"])).events =
      [Ev.runStarted, Ev.runFinished] ∧
    (runGen echoExec (plainInput [contentChunk "2<3",
      finishChunk "stop"])).finalSt.dem.buffer = String.toList "2<3" ∧
    hasNonWs (String.toList "2<3") = true := by
  refine ⟨rfl, rfl, rfl⟩

/-- C4: when the first argument fragment arrives in the same delta that
carries the new call id, event_generator first initialises
current_tool_call_args to that fragment and then appends the same fragment
again, so the call executes with the fragment doubled instead of the
claimed exactly-once concatenation (the executor here echoes its raw
argument string, making the executed arguments visible in the end event
and in the recorded tuple). -/
theorem C4_first_fragment_doubled :
    (runGen echoExec (plainInput
      [toolChunk [td "call_1" "calculate" "\x7b\"expression\": \"2+2\"\x7d"],
       finishChunk "tool_calls"])).events =
      [Ev.runStarted,
       Ev.toolStart "call_1" "calculate" mainMid,
       Ev.toolArgs "call_1" "\x7b\"expression\": \"2+2\"\x7d",
       Ev.toolEnd "call_1"
         ("\x7b\"expression\": \"2+2\"\x7d" ++ "\x7b\"expression\": \"2+2\"\x7d"),
       Ev.runFinished] ∧
    (runGen echoExec (plainInput
      [toolChunk [td "call_1" "calculate" "\x7b\"expression\": \"2+2\"\x7d"],
       finishChunk "tool_calls"])).appended =
      [PyMsg.assistantToolCalls [("call_1", "calculate",
         "\x7b\"expression\": \"2+2\"\x7d" ++ "\x7b\"expression\": \"2+2\"\x7d")],
       PyMsg.toolResult "call_1"
         ("\x7b\"expression\": \"2+2\"\x7d" ++ "\x7b\"expression\": \"2+2\"\x7d")] ∧
    ("\x7b\"expression\": \"2+2\"\x7d" ++ "\x7b\"expression\": \"2+2\"\x7d" : String) ≠
      "\x7b\"expression\": \"2+2\"\x7d" := by
  refine ⟨rfl, rfl, by decide⟩

/-- C2 counterexample: on the stream (content "<thinking>a", finish stop)
the run opens a reasoning span (THINKING_START, THINKING_TEXT_MESSAGE_START
and content are emitted) but no matching end event is ever emitted before
RUN_FINISHED, refuting the claim that every opened reasoning span is closed
exactly once before the terminal run event. -/
theorem C2_counterexample :
    (runGen echoExec (plainInput [contentChunk "<thinking>a",
       finishChunk "stop"])).events =
      [Ev.runStarted, Ev.thinkingStart, Ev.ttStart,
       Ev.ttContent (String.toList "a"), Ev.runFinished] ∧
    (runGen echoExec (plainInput [contentChunk "<thinking>a",
       finishChunk "stop"])).events.count Ev.ttStart = 1 ∧
    (runGen echoExec (plainInput [contentChunk "<thinking>a",
       finishChunk "stop"])).events.count Ev.ttEnd = 0 ∧
    (runGen echoExec (plainInput [contentChunk "<thinking>a",
       finishChunk "stop"])).events.count Ev.thinkingEnd = 0 := by
  refine ⟨rfl, rfl, rfl, rfl⟩

/-- C6 counterexample: a turn announcing call id A (with argument "argA"),
then call id B (with argument "argB"), then finish reason tool_calls:
call A is executed and its end event emitted when B arrives, yet the
messages appended before the continuation contain only the tuple of B —
the executed tuple of A is absent, refuting the claim that every executed
tuple of the turn is collected. -/
theorem C6_counterexample :
    (runGen echoExec (plainInput
      [toolChunk [td "A" "calculate" ""], toolChunk [td "" "" "argA"],
       toolChunk [td "B" "calculate" ""], toolChunk [td "" "" "argB"],
       finishChunk "tool_calls"])).events.count (Ev.toolEnd "A" "argA") = 1 ∧
    (runGen echoExec (plainInput
      [toolChunk [td "A" "calculate" ""], toolChunk [td "" "" "argA"],
       toolChunk [td "B" "calculate" ""], toolChunk [td "" "" "argB"],
       finishChunk "tool_calls"])).appended =
      [PyMsg.assistantToolCalls [("B", "calculate", "argB")],
       PyMsg.toolResult "B" "argB"] := by
  refine ⟨rfl, rfl⟩

/-- C8 counterexample: feeding the delimiter-free fragments "a" then "b"
emits two plain spans, with texts "a" and "b", not a single plain span
equal to the trimmed concatenation "ab". -/
theorem C8_counterexample :
    plainSpans (feedList mainMid initGSt.dem
      [String.toList "a", String.toList "b"]).2 =
      [String.toList "a", String.toList "b"] ∧
    plainSpans (feedList mainMid initGSt.dem
      [String.toList "a", String.toList "b"]).2 ≠ [String.toList "ab"] := by
  refine ⟨rfl, by decide⟩

/-- C6 (amended): when a turn ends with finish reason tool_calls while a
call is pending, only that final pending call is collected into the
continuation context: one assistant message carrying exactly that one call
and one tool message with its result are appended; the tuples of calls that
were executed and closed earlier (when a later delta announced a new call
id) are not included. -/
theorem C6_only_final_call_collected (f : String → String → String)
    (mid nid : Nat) (cont : List Chunk) (cErr : Option String)
    (dem : DemSt) (ts : ToolSt) (cid : String) (h : ts.curId = some cid) :
    (processFinish (pureExec f) mid nid cont cErr dem ts "tool_calls").appended =
      [PyMsg.assistantToolCalls [(cid, ts.curName, ts.curArgs)],
       PyMsg.toolResult cid (f ts.curName ts.curArgs)] := by
  simp [processFinish, h, pureExec, processFinish2]

/-- C6 witness: the amended theorem applied to a concrete pending call. -/
theorem C6_witness :
    (processFinish (pureExec fun _ a => a) mainMid 2 [] none initGSt.dem
      { curId := some "A", curName := "calculate", curArgs := "x" }
      "tool_calls").appended =
      [PyMsg.assistantToolCalls [("A", "calculate", "x")],
       PyMsg.toolResult "A" "x"] :=
  C6_only_final_call_collected (fun _ a => a) mainMid 2 [] none initGSt.dem
    { curId := some "A", curName := "calculate", curArgs := "x" } "A" rfl

end Claims

namespace AgStream

/-- The chunk loop distributes over list append as long as the first part
raises no exception. -/
theorem runChunks_append (exec : Exec) (mid : Nat) (cont : List Chunk)
    (cErr : Option String) :
    ∀ l1 l2 : List Chunk, ∀ g : GSt,
      (runChunks exec mid cont cErr g l1).err = none →
      runChunks exec mid cont cErr g (l1 ++ l2) =
        { st := (runChunks exec mid cont cErr
            (runChunks exec mid cont cErr g l1).st l2).st
          evs := (runChunks exec mid cont cErr g l1).evs ++
            (runChunks exec mid cont cErr (runChunks exec mid cont cErr g l1).st l2).evs
          appended := (runChunks exec mid cont cErr g l1).appended ++
            (runChunks exec mid cont cErr
              (runChunks exec mid cont cErr g l1).st l2).appended
          contCount := (runChunks exec mid cont cErr g l1).contCount +
            (runChunks exec mid cont cErr
              (runChunks exec mid cont cErr g l1).st l2).contCount
          err := (runChunks exec mid cont cErr
            (runChunks exec mid cont cErr g l1).st l2).err } := by
  intro l1
  induction l1 with
  | nil => intro l2 g h; simp [runChunks]
  | cons ch rest ih =>
    intro l2 g h
    cases hr : (processChunk exec mid cont cErr g ch).err with
    | some e =>
      exfalso
      simp [runChunks, hr] at h
    | none =>
      have h2 : (runChunks exec mid cont cErr
          (processChunk exec mid cont cErr g ch).st rest).err = none := by
        simpa [runChunks, hr] using h
      simp only [List.cons_append, runChunks, hr, List.append_eq]
      rw [ih l2 _ h2]
      simp [List.append_assoc, Nat.add_assoc]

/-- A chunk with an empty (falsy) finish reason neither allocates a fresh
message id nor issues a continuation. -/
theorem processChunk_nofinish (exec : Exec) (mid : Nat) (cont : List Chunk)
    (cErr : Option String) (g : GSt) (ch : Chunk) (hfin : ch.finishReason = "") :
    (processChunk exec mid cont cErr g ch).st.nextId = g.nextId ∧
    (processChunk exec mid cont cErr g ch).contIssued = false := by
  cases hr : (processToolDeltas exec mid g.ts ch.toolCalls).2.2 with
  | some e => simp [processChunk, hr, hfin]
  | none => simp [processChunk, hr, hfin]

/-- Over a stream prefix with no finish reason, the fresh-id counter is
untouched and no continuation is issued. -/
theorem runChunks_nofinish (exec : Exec) (mid : Nat) (cont : List Chunk)
    (cErr : Option String) :
    ∀ chs : List Chunk, ∀ g : GSt, (∀ ch ∈ chs, ch.finishReason = "") →
      (runChunks exec mid cont cErr g chs).st.nextId = g.nextId ∧
      (runChunks exec mid cont cErr g chs).contCount = 0 := by
  intro chs
  induction chs with
  | nil => intro g hfin; simp [runChunks]
  | cons ch rest ih =>
    intro g hfin
    have hch := processChunk_nofinish exec mid cont cErr g ch
      (hfin ch (List.mem_cons_self ch rest))
    have hrest := ih (processChunk exec mid cont cErr g ch).st
      (fun c hc => hfin c (List.mem_cons_of_mem ch hc))
    cases hr : (processChunk exec mid cont cErr g ch).err with
    | some e =>
      refine ⟨?_, ?_⟩ <;> simp [runChunks, hr, hch.1, hch.2]
    | none =>
      refine ⟨?_, ?_⟩ <;> simp [runChunks, hr, hch.1, hch.2, hrest.1, hrest.2]

end AgStream

section Claims2

open AgStream AgTools

/-- C7: after a tool-call-terminated turn (a stream whose chunks before the
final one carry no finish reason and whose final chunk is a bare
finish_reason=tool_calls chunk, with a call pending at that point, no
upstream exceptions, and a tool executor that returns normally), exactly
one continuation model call is issued, and it is issued without tool
declarations (model-call trace [true, false]); the continuation stream is
processed as a new turn with the fresh message id 2, distinct from the
first turn id mainMid = 0, emitting only text events of that fresh id
(content only, no tool or thinking handling); and the run then ends in
RUN_FINISHED whatever the continuation stream contains, in particular
regardless of its own finish reason. -/
theorem C7_single_continuation (f : String → String → String)
    (pre cont : List Chunk) (cid : String)
    (hpre : ∀ ch ∈ pre, ch.finishReason = "")
    (hpend : (runChunks (pureExec f) mainMid cont none initGSt pre).st.ts.curId =
      some cid)
    (herr : (runChunks (pureExec f) mainMid cont none initGSt pre).err = none) :
    (runGen (pureExec f) (tcInput pre cont)).modelCalls =
      [true, false] ∧
    (runGen (pureExec f) (tcInput pre cont)).events.getLast? =
      some Ev.runFinished ∧
    (∃ evs1, (runGen (pureExec f) (tcInput pre cont)).events =
      evs1 ++ ((contLoop initGSt.nextId false cont).2 ++ [Ev.runFinished])) ∧
    (∀ e ∈ (contLoop initGSt.nextId false cont).2, contEv initGSt.nextId e = true) ∧
    initGSt.nextId ≠ mainMid := by
  have hnf := runChunks_nofinish (pureExec f) mainMid cont none pre initGSt hpre
  have happ := runChunks_append (pureExec f) mainMid cont none pre
    [finishChunk "tool_calls"] initGSt herr
  have hpc2 : (processChunk (pureExec f) mainMid cont none
      (runChunks (pureExec f) mainMid cont none initGSt pre).st
      (finishChunk "tool_calls")).err = none := by
    simp [processChunk, feedContent, processToolDeltas, processFinish, hpend,
      pureExec, processFinish2, finishChunk]
  have hpc1 : (processChunk (pureExec f) mainMid cont none
      (runChunks (pureExec f) mainMid cont none initGSt pre).st
      (finishChunk "tool_calls")).contIssued = true := by
    simp [processChunk, feedContent, processToolDeltas, processFinish, hpend,
      pureExec, processFinish2, finishChunk]
  have hpc4 : (processChunk (pureExec f) mainMid cont none
      (runChunks (pureExec f) mainMid cont none initGSt pre).st
      (finishChunk "tool_calls")).evs =
      ([Ev.toolEnd cid (f (runChunks (pureExec f) mainMid cont none initGSt
          pre).st.ts.curName
          (runChunks (pureExec f) mainMid cont none initGSt pre).st.ts.curArgs)] ++
        (if (runChunks (pureExec f) mainMid cont none initGSt
            pre).st.dem.hasStartedText then [Ev.textEnd mainMid] else [])) ++
        (contLoop (runChunks (pureExec f) mainMid cont none initGSt
          pre).st.nextId false cont).2 := by
    simp [processChunk, feedContent, processToolDeltas, processFinish, hpend,
      pureExec, processFinish2, finishChunk, List.append_assoc]
  have hR2err : (runChunks (pureExec f) mainMid cont none
      (runChunks (pureExec f) mainMid cont none initGSt pre).st
      [finishChunk "tool_calls"]).err = none := by
    simp [runChunks, hpc2]
  have hR2cc : (runChunks (pureExec f) mainMid cont none
      (runChunks (pureExec f) mainMid cont none initGSt pre).st
      [finishChunk "tool_calls"]).contCount = 1 := by
    simp [runChunks, hpc2, hpc1]
  have hR2evs : (runChunks (pureExec f) mainMid cont none
      (runChunks (pureExec f) mainMid cont none initGSt pre).st
      [finishChunk "tool_calls"]).evs =
      (processChunk (pureExec f) mainMid cont none
        (runChunks (pureExec f) mainMid cont none initGSt pre).st
        (finishChunk "tool_calls")).evs := by
    simp [runChunks, hpc2]
  have hLerr : (runChunks (pureExec f) mainMid cont none initGSt
      (pre ++ [finishChunk "tool_calls"])).err = none := by
    rw [happ]
    exact hR2err
  have hLcc : (runChunks (pureExec f) mainMid cont none initGSt
      (pre ++ [finishChunk "tool_calls"])).contCount = 1 := by
    rw [happ]
    simp [hnf.2, hR2cc]
  have hLevs : (runChunks (pureExec f) mainMid cont none initGSt
      (pre ++ [finishChunk "tool_calls"])).evs =
      (runChunks (pureExec f) mainMid cont none initGSt pre).evs ++
      ((processChunk (pureExec f) mainMid cont none
        (runChunks (pureExec f) mainMid cont none initGSt pre).st
        (finishChunk "tool_calls")).evs) := by
    rw [happ]
    simp [hR2evs]
  refine ⟨?_, ?_, ?_, ?_, by decide⟩
  · simp [runGen, tcInput, hLerr, hLcc]
  · obtain ⟨t, hform, hterm, hnone, hsome⟩ := runGen_events_form (pureExec f) (tcInput pre cont)
    simp only [tcInput] at hform
    have hoerr : (runGen (pureExec f) (tcInput pre cont)).err = none := by
      simp [runGen, tcInput, hLerr]
    simp only [tcInput]
    rw [hform, hnone hoerr, ← List.cons_append, List.getLast?_concat]
  · obtain ⟨t, hform, hterm, hnone, hsome⟩ := runGen_events_form (pureExec f) (tcInput pre cont)
    simp only [tcInput] at hform
    have hoerr : (runGen (pureExec f) (tcInput pre cont)).err = none := by
      simp [runGen, tcInput, hLerr]
    simp only [tcInput]
    refine ⟨Ev.runStarted :: ((runChunks (pureExec f) mainMid cont none initGSt
        pre).evs ++
      ([Ev.toolEnd cid (f (runChunks (pureExec f) mainMid cont none initGSt
          pre).st.ts.curName
          (runChunks (pureExec f) mainMid cont none initGSt pre).st.ts.curArgs)] ++
        (if (runChunks (pureExec f) mainMid cont none initGSt
            pre).st.dem.hasStartedText then [Ev.textEnd mainMid] else []))), ?_⟩
    rw [hform, hnone hoerr, hLevs, hpc4, hnf.1]
    simp [List.append_assoc]
  · intro e he
    exact contLoop_events initGSt.nextId cont false e he

/-- C7 witness: the continuation theorem applied to a concrete one-call
turn followed by a continuation stream with content and a stop finish. -/
theorem C7_witness :
    (runGen (pureExec fun _ a => a)
      (tcInput [toolChunk [td "call_1" "calculate" "x"]]
        [contentChunk "ok", finishChunk "stop"])).modelCalls = [true, false] ∧
    (runGen (pureExec fun _ a => a)
      (tcInput [toolChunk [td "call_1" "calculate" "x"]]
        [contentChunk "ok", finishChunk "stop"])).events.getLast? =
      some Ev.runFinished :=
  ⟨(C7_single_continuation (fun _ a => a) [toolChunk [td "call_1" "calculate" "x"]]
      [contentChunk "ok", finishChunk "stop"] "call_1" (by decide) rfl rfl).1,
   (C7_single_continuation (fun _ a => a) [toolChunk [td "call_1" "calculate" "x"]]
      [contentChunk "ok", finishChunk "stop"] "call_1" (by decide) rfl rfl).2.1⟩

end Claims2

namespace AgStream

theorem splitFirst_isSome_of_decomp (d : List Char) (hd0 : d ≠ []) :
    ∀ p s b : List Char, b = p ++ d ++ s → (splitFirst d b).isSome = true := by
  intro p
  induction p with
  | nil =>
    intro s b hb
    subst hb
    cases hd : d with
    | nil => exact absurd hd hd0
    | cons c rest =>
      rw [← hd]
      have : d.isPrefixOf (d ++ s ++ []) = true := by
        simp [List.isPrefixOf_iff_prefix]
      cases hds : d ++ s with
      | nil =>
        rw [hd] at hds
        simp at hds
      | cons x xs =>
        simp only [List.nil_append]
        rw [hds, splitFirst]
        have hpref : d.isPrefixOf (x :: xs) = true := by
          rw [← hds]
          simp [List.isPrefixOf_iff_prefix]
        rw [hpref]
        simp
  | cons c p2 ih =>
    intro s b hb
    subst hb
    simp only [List.cons_append]
    rw [splitFirst]
    split
    · simp
    · have := ih s (p2 ++ d ++ s) rfl
      cases hrec : splitFirst d (p2 ++ d ++ s) with
      | none => rw [hrec] at this; simp at this
      | some pr => simp [hrec]

theorem splitFirst_none_append_left (d a b : List Char) (hd0 : d ≠ [])
    (h : splitFirst d (a ++ b) = none) : splitFirst d a = none := by
  cases hsp : splitFirst d a with
  | none => rfl
  | some pr =>
    obtain ⟨p, s⟩ := pr
    have hd := splitFirst_sound d a p s hsp
    have := splitFirst_isSome_of_decomp d hd0 p (s ++ b) (a ++ b)
      (by rw [hd]; simp [List.append_assoc])
    rw [h] at this
    simp at this

theorem splitFirst_none_append_right (d a b : List Char) (hd0 : d ≠ [])
    (h : splitFirst d (a ++ b) = none) : splitFirst d b = none := by
  cases hsp : splitFirst d b with
  | none => rfl
  | some pr =>
    obtain ⟨p, s⟩ := pr
    have hd := splitFirst_sound d b p s hsp
    have := splitFirst_isSome_of_decomp d hd0 (a ++ p) s (a ++ b)
      (by rw [hd]; simp [List.append_assoc])
    rw [h] at this
    simp at this

theorem emitPlain_isInThinking (mid : Nat) (st : DemSt) (txt : List Char) :
    (emitPlain mid st txt).1.isInThinking = st.isInThinking := by
  unfold emitPlain
  split <;> [skip; rfl]
  split <;> rfl

theorem emitPlain_events_plain (mid : Nat) (st : DemSt) (txt : List Char) :
    ∀ e ∈ (emitPlain mid st txt).2, plainEv mid e = true := by
  intro e he
  unfold emitPlain at he
  split at he
  · rename_i hws
    split at he
    · simp at he
      subst he
      simp [plainEv, hws]
    · simp at he
      rcases he with h | h <;> subst h <;> simp [plainEv, hws]
  · simp at he

/-- Behaviour of one loop pass when the buffer holds no open delimiter and
the mode is plain: hold back, or emit the whole buffer as a plain span. -/
theorem processBuffer_none (mid : Nat) (st : DemSt)
    (hth : st.isInThinking = false) (hsp : splitFirst openTag st.buffer = none) :
    processBuffer mid st =
      if holdBack st.buffer then (st, [])
      else ({ (emitPlain mid st st.buffer).1 with buffer := [] },
        (emitPlain mid st st.buffer).2) := by
  rw [processBuffer_eq]
  simp [processBufferStep, hth, hsp]

/-- The demultiplexer over a fragment list whose total text (appended to
the current buffer) holds no open delimiter emits only plain-span events
and stays in plain mode. -/
theorem feedList_no_tag (mid : Nat) :
    ∀ fs : List (List Char), ∀ st : DemSt, st.isInThinking = false →
      splitFirst openTag (st.buffer ++ fs.flatten) = none →
      (∀ e ∈ (feedList mid st fs).2, plainEv mid e = true) ∧
      (feedList mid st fs).1.isInThinking = false := by
  intro fs
  induction fs with
  | nil =>
    intro st hth hsp
    exact ⟨by intro e he; simp [feedList] at he, hth⟩
  | cons f rest ih =>
    intro st hth hsp
    have hflat : (f :: rest).flatten = f ++ rest.flatten := by simp
    by_cases hf : f = []
    · subst hf
      have hr := ih st hth (by simpa using hsp)
      have hfeed : feedContent mid st [] = (st, []) := by simp [feedContent]
      refine ⟨?_, ?_⟩
      · intro e he
        simp only [feedList, hfeed] at he
        simp at he
        exact hr.1 e he
      · simp only [feedList, hfeed]
        exact hr.2
    · have hsp2 : splitFirst openTag (st.buffer ++ f) = none := by
        refine splitFirst_none_append_left openTag (st.buffer ++ f) rest.flatten openTag_ne_nil ?_
        rw [hflat] at hsp
        simpa [List.append_assoc] using hsp
      have hfeed : feedContent mid st f =
          processBuffer mid { st with buffer := st.buffer ++ f } := by
        simp [feedContent, hf]
      have hpb := processBuffer_none mid { st with buffer := st.buffer ++ f }
        (by simpa using hth) (by simpa using hsp2)
      by_cases hhold : holdBack (st.buffer ++ f)
      · have hres : feedContent mid st f = ({ st with buffer := st.buffer ++ f }, []) := by
          rw [hfeed, hpb]
          simp [hhold]
        have hr := ih { st with buffer := st.buffer ++ f } (by simpa using hth)
          (by rw [hflat] at hsp; simpa [List.append_assoc] using hsp)
        refine ⟨?_, ?_⟩
        · intro e he
          simp only [feedList, hres] at he
          simp at he
          exact hr.1 e he
        · simp only [feedList, hres]
          exact hr.2
      · have hres : feedContent mid st f =
            ({ (emitPlain mid { st with buffer := st.buffer ++ f }
                (st.buffer ++ f)).1 with buffer := [] },
              (emitPlain mid { st with buffer := st.buffer ++ f }
                (st.buffer ++ f)).2) := by
          rw [hfeed, hpb]
          simp [hhold]
        have hth2 : ({ (emitPlain mid { st with buffer := st.buffer ++ f }
            (st.buffer ++ f)).1 with buffer := ([] : List Char) }).isInThinking = false := by
          have h1 := emitPlain_isInThinking mid { st with buffer := st.buffer ++ f }
            (st.buffer ++ f)
          show (emitPlain mid { st with buffer := st.buffer ++ f }
            (st.buffer ++ f)).1.isInThinking = false
          rw [h1]
          exact hth
        have hr := ih { (emitPlain mid { st with buffer := st.buffer ++ f }
            (st.buffer ++ f)).1 with buffer := [] } hth2
          (by
            simp only [List.nil_append]
            refine splitFirst_none_append_right openTag (st.buffer ++ f) rest.flatten openTag_ne_nil ?_
            rw [hflat] at hsp
            simpa [List.append_assoc] using hsp)
        refine ⟨?_, ?_⟩
        · intro e he
          simp only [feedList, hres] at he
          simp only [List.mem_append] at he
          rcases he with h | h
          · exact emitPlain_events_plain mid _ _ e h
          · exact hr.1 e h
        · simp only [feedList, hres]
          exact hr.2

end AgStream

section Claims3

open AgStream AgTools

/-- C8 (amended): for every sequence of text fragments whose concatenation
contains no thinking delimiter, the demultiplexer never emits a reasoning
span or any thinking event and stays in plain mode: every emitted event is
a plain text-message start or a plain content delta with non-whitespace
text of the turn message id.  (As the counterexample shows, the content
may be split over several plain spans, each untrimmed, rather than one
span equal to the trimmed concatenation.) -/
theorem C8_no_delimiter_plain_only (fs : List (List Char))
    (hopen : splitFirst openTag fs.flatten = none) :
    (∀ e ∈ (feedList mainMid initGSt.dem fs).2, plainEv mainMid e = true) ∧
    (feedList mainMid initGSt.dem fs).1.isInThinking = false :=
  feedList_no_tag mainMid fs initGSt.dem rfl (by simpa using hopen)

/-- C8 witness: the amended theorem applied to the fragment list
["Hel", "lo"], whose events are a plain start and two plain content
deltas; the extracted facts are evaluated on the second content event. -/
theorem C8_witness :
    (plainEv mainMid (Ev.textContent mainMid (String.toList "lo")) = true) ∧
    ((feedList mainMid initGSt.dem
      [String.toList "Hel", String.toList "lo"]).1.isInThinking = false) :=
  ⟨(C8_no_delimiter_plain_only [String.toList "Hel", String.toList "lo"]
      (by decide)).1 (Ev.textContent mainMid (String.toList "lo")) (by decide),
   (C8_no_delimiter_plain_only [String.toList "Hel", String.toList "lo"]
      (by decide)).2⟩

end Claims3

namespace AgStream

/-- Prefixes survive appending on the right. -/
theorem isPrefixOf_append_right (d l e : List Char)
    (h : d.isPrefixOf l = true) : d.isPrefixOf (l ++ e) = true := by
  rw [List.isPrefixOf_iff_prefix] at h ⊢
  exact h.trans (List.prefix_append l e)

/-- A prefix of the extended list that fits inside the original list is a
prefix of the original list. -/
theorem isPrefixOf_of_append (d l e : List Char) (hlen : d.length ≤ l.length)
    (h : d.isPrefixOf (l ++ e) = true) : d.isPrefixOf l = true := by
  rw [List.isPrefixOf_iff_prefix] at h ⊢
  rcases h with ⟨t, ht⟩
  refine ⟨l.drop d.length, ?_⟩
  have h1 : (d ++ t).take d.length = d := by
    simp [List.take_left]
  have h2 : l.take d.length = d := by
    have := congrArg (List.take d.length) ht
    rw [List.take_append_of_le_length hlen] at this
    rw [← this]
    exact h1
  conv => rhs; rw [← List.take_append_drop d.length l]
  rw [h2]

/-- The first occurrence found by splitFirst is stable under appending more
input: the split point is unchanged and the extension lands in the suffix. -/
theorem splitFirst_append_some (d : List Char) :
    ∀ b e pre suf : List Char, splitFirst d b = some (pre, suf) →
      splitFirst d (b ++ e) = some (pre, suf ++ e) := by
  intro b
  induction b with
  | nil => intro e pre suf h; simp [splitFirst] at h
  | cons c rest ih =>
    intro e pre suf h
    have hsound := splitFirst_sound d (c :: rest) pre suf h
    have hdlen : d.length ≤ (c :: rest).length := by
      rw [hsound]
      simp only [List.length_append]
      omega
    rw [splitFirst] at h
    split at h
    · rename_i hp
      injection h with h
      injection h with h1 h2
      subst h1
      subst h2
      have hp2 : d.isPrefixOf (c :: (rest ++ e)) = true := by
        have := isPrefixOf_append_right d (c :: rest) e hp
        simpa using this
      rw [List.cons_append, splitFirst, hp2]
      simp only [if_pos]
      have hdrop : List.drop d.length (c :: (rest ++ e)) =
          List.drop d.length (c :: rest) ++ e := by
        rw [← List.cons_append]
        exact List.drop_append_of_le_length hdlen
      rw [hdrop]
    · rename_i hp
      have hp2 : d.isPrefixOf (c :: (rest ++ e)) = false := by
        cases hxx : d.isPrefixOf (c :: (rest ++ e)) with
        | false => rfl
        | true =>
          exfalso
          have hyy : d.isPrefixOf ((c :: rest) ++ e) = true := by simpa using hxx
          exact hp (isPrefixOf_of_append d (c :: rest) e hdlen hyy)
      cases hrec : splitFirst d rest with
      | none => rw [hrec] at h; simp at h
      | some pr =>
        obtain ⟨p2, s2⟩ := pr
        rw [hrec] at h
        simp only [Option.some.injEq, Prod.mk.injEq] at h
        obtain ⟨h1, h2⟩ := h
        subst h1
        subst h2
        have := ih e p2 s2 hrec
        rw [List.cons_append, splitFirst]
        rw [hp2]
        simp only [Bool.false_eq_true, if_false]
        rw [this]

/-- Suffix overlap: if x ++ p = y ++ d ++ after, where p avoids the last
character of d, then p is a suffix of after. -/
theorem suffix_overlap (x p y d after : List Char) (gt : Char)
    (h : x ++ p = y ++ d ++ after) (hp : p ≠ [])
    (hlast : d.getLast? = some gt) (hgt : gt ∉ p) :
    ∃ c, after = c ++ p := by
  have hd0 : d ≠ [] := by
    intro hnil
    rw [hnil] at hlast
    simp at hlast
  have hrev : p.reverse ++ x.reverse = after.reverse ++ (d.reverse ++ y.reverse) := by
    have := congrArg List.reverse h
    simpa [List.reverse_append, List.append_assoc] using this
  have hpfx1 : p.reverse <+: (p.reverse ++ x.reverse) := List.prefix_append _ _
  have hpfx2 : after.reverse <+: (p.reverse ++ x.reverse) := by
    rw [hrev]
    exact List.prefix_append _ _
  rcases List.prefix_or_prefix_of_prefix hpfx1 hpfx2 with hc | hc
  · rcases hc with ⟨t, ht⟩
    refine ⟨t.reverse, ?_⟩
    have := congrArg List.reverse ht
    simpa [List.reverse_append] using this.symm
  · rcases hc with ⟨s, hs⟩
    by_cases hs0 : s = []
    · subst hs0
      refine ⟨[], ?_⟩
      have := congrArg List.reverse hs
      simpa [List.reverse_reverse] using this
    · exfalso
      have hcancel : s ++ x.reverse = d.reverse ++ y.reverse := by
        have : after.reverse ++ (s ++ x.reverse) = after.reverse ++ (d.reverse ++ y.reverse) := by
          rw [← List.append_assoc, hs]
          exact hrev
        exact List.append_cancel_left this
      have hdr : d.reverse ≠ [] := by simpa using hd0
      have hhead : s.head? = some gt := by
        have h1 : (s ++ x.reverse).head? = s.head? := List.head?_append_of_ne_nil _ hs0
        have h2 : (d.reverse ++ y.reverse).head? = d.reverse.head? :=
          List.head?_append_of_ne_nil _ hdr
        rw [hcancel, h2, List.head?_reverse] at h1
        rw [← h1, hlast]
      have hmem : gt ∈ s := by
        cases s with
        | nil => simp at hhead
        | cons a rest2 =>
          simp only [List.head?] at hhead
          injection hhead with hh
          subst hh
          exact List.mem_cons_self _ _
      have : gt ∈ p.reverse := by
        rw [← hs]
        exact List.mem_append_right _ hmem
      exact hgt (by simpa using this)

end AgStream

namespace AgStream

theorem emitPlain_buffer_irrel (mid : Nat) (st : DemSt) (X txt : List Char) :
    emitPlain mid { st with buffer := X } txt =
      ({ (emitPlain mid st txt).1 with buffer := X }, (emitPlain mid st txt).2) := by
  by_cases h1 : hasNonWs txt
  · by_cases h2 : st.hasStartedText
    · simp [emitPlain, h1, h2]
    · simp [emitPlain, h1, h2]
  · simp [emitPlain, h1]

theorem startThinking_buffer_irrel (st : DemSt) (X : List Char) :
    startThinking { st with buffer := X } =
      ({ (startThinking st).1 with buffer := X }, (startThinking st).2) := by
  by_cases h : st.hasStartedThinking
  · simp [startThinking, h]
  · simp [startThinking, h]

/-- Extension: once a pass of the loop ends in the hold-back state (with a
nonempty residual buffer), feeding more input is the same as running the
loop on the residual buffer extended by that input, with the earlier
events emitted first. -/
theorem processBuffer_extend (mid : Nat) :
    ∀ n : Nat, ∀ st : DemSt, st.buffer.length ≤ n → ∀ e : List Char,
      (processBuffer mid st).1.buffer ≠ [] →
      processBuffer mid { st with buffer := st.buffer ++ e } =
        ((processBuffer mid { (processBuffer mid st).1 with
            buffer := (processBuffer mid st).1.buffer ++ e }).1,
          (processBuffer mid st).2 ++
          (processBuffer mid { (processBuffer mid st).1 with
            buffer := (processBuffer mid st).1.buffer ++ e }).2) := by
  intro n
  induction n with
  | zero =>
    intro st hl e hres
    exfalso
    apply hres
    have hnil : st.buffer = [] := by
      cases hb : st.buffer with
      | nil => rfl
      | cons c r => rw [hb] at hl; simp at hl
    rw [processBuffer_eq]
    by_cases hth : st.isInThinking = false
    · simp [processBufferStep, hth, hnil, splitFirst, holdBack, emitPlain, hasNonWs]
    · have hth2 : st.isInThinking = true := by
        revert hth; cases st.isInThinking <;> simp
      simp [processBufferStep, hth2, hnil, splitFirst, holdBack]
  | succ k ih =>
    intro st hl e hres
    by_cases hth : st.isInThinking = false
    · cases hsp : splitFirst openTag st.buffer with
      | none =>
        by_cases hhold : holdBack st.buffer
        · have hA : processBuffer mid st = (st, []) := by
            rw [processBuffer_eq]
            simp [processBufferStep, hth, hsp, hhold]
          rw [hA]
          simp
        · exfalso
          apply hres
          rw [processBuffer_eq]
          simp [processBufferStep, hth, hsp, hhold]
      | some pr =>
        obtain ⟨before, after⟩ := pr
        have hlt := splitFirst_suf_length openTag st.buffer before after openTag_ne_nil hsp
        have hspe : splitFirst openTag (st.buffer ++ e) = some (before, after ++ e) :=
          splitFirst_append_some openTag st.buffer e before after hsp
        have hA := processBuffer_eq mid st
        simp only [processBufferStep, hth, if_pos, hsp] at hA
        have hRbuf : (startThinking { (emitPlain mid st before).1 with
            isInThinking := true
            buffer := after
            openedSections := (emitPlain mid st before).1.openedSections + 1 }).1.buffer =
            after := by
          rw [startThinking_buffer]
        have hresR : (processBuffer mid (startThinking { (emitPlain mid st before).1 with
            isInThinking := true
            buffer := after
            openedSections := (emitPlain mid st before).1.openedSections + 1 }).1).1.buffer ≠ [] := by
          intro hx
          apply hres
          rw [hA]
          exact hx
        have hIH := ih (startThinking { (emitPlain mid st before).1 with
            isInThinking := true
            buffer := after
            openedSections := (emitPlain mid st before).1.openedSections + 1 }).1
          (by rw [hRbuf]; omega) e hresR
        have hB := processBuffer_eq mid { st with buffer := st.buffer ++ e }
        simp only [processBufferStep, hspe] at hB
        rw [if_pos hth] at hB
        rw [emitPlain_buffer_irrel mid st (st.buffer ++ e) before] at hB
        have hrec : ({ ({ (emitPlain mid st before).1 with buffer := st.buffer ++ e } :
            DemSt) with
            isInThinking := true
            buffer := after ++ e
            openedSections := ({ (emitPlain mid st before).1 with
              buffer := st.buffer ++ e } : DemSt).openedSections + 1 } : DemSt) =
            { ({ (emitPlain mid st before).1 with
              isInThinking := true
              buffer := after
              openedSections := (emitPlain mid st before).1.openedSections + 1 } : DemSt) with
              buffer := after ++ e } := rfl
        rw [hrec, startThinking_buffer_irrel] at hB
        rw [show ({ (startThinking { (emitPlain mid st before).1 with
            isInThinking := true
            buffer := after
            openedSections := (emitPlain mid st before).1.openedSections + 1 }).1 with
            buffer := after ++ e } : DemSt) =
          { (startThinking { (emitPlain mid st before).1 with
            isInThinking := true
            buffer := after
            openedSections := (emitPlain mid st before).1.openedSections + 1 }).1 with
            buffer := (startThinking { (emitPlain mid st before).1 with
              isInThinking := true
              buffer := after
              openedSections := (emitPlain mid st before).1.openedSections + 1 }).1.buffer ++ e }
          from by rw [hRbuf]] at hB
        rw [hIH] at hB
        rw [hB, hA]
        simp [List.append_assoc]
    · have hth2 : st.isInThinking = true := by
        revert hth; cases st.isInThinking <;> simp
      cases hsp : splitFirst closeTag st.buffer with
      | none =>
        by_cases hhold : holdBack st.buffer
        · have hA : processBuffer mid st = (st, []) := by
            rw [processBuffer_eq]
            simp [processBufferStep, hth2, hsp, hhold]
          rw [hA]
          simp
        · exfalso
          apply hres
          rw [processBuffer_eq]
          simp [processBufferStep, hth2, hsp, hhold]
      | some pr =>
        obtain ⟨tc, after⟩ := pr
        have hlt := splitFirst_suf_length closeTag st.buffer tc after closeTag_ne_nil hsp
        have hspe : splitFirst closeTag (st.buffer ++ e) = some (tc, after ++ e) :=
          splitFirst_append_some closeTag st.buffer e tc after hsp
        have hA := processBuffer_eq mid st
        simp only [processBufferStep, hth2, hsp,
          if_neg (show ¬ ((true : Bool) = false) by decide)] at hA
        have hresR : (processBuffer mid ({ st with
            isInThinking := false
            buffer := after
            closedSections := st.closedSections + 1 } : DemSt)).1.buffer ≠ [] := by
          intro hx
          apply hres
          rw [hA]
          exact hx
        have hIH := ih ({ st with
            isInThinking := false
            buffer := after
            closedSections := st.closedSections + 1 } : DemSt)
          (by show after.length ≤ k; omega) e hresR
        have hB := processBuffer_eq mid { st with buffer := st.buffer ++ e }
        simp only [processBufferStep, hspe] at hB
        rw [if_neg (show ¬ (st.isInThinking = false) by simp [hth2])] at hB
        have hrec : ({ ({ st with buffer := st.buffer ++ e } : DemSt) with
            isInThinking := false
            buffer := after ++ e
            closedSections := ({ st with buffer := st.buffer ++ e } : DemSt).closedSections +
              1 } : DemSt) =
            { ({ st with
              isInThinking := false
              buffer := after
              closedSections := st.closedSections + 1 } : DemSt) with
              buffer := after ++ e } := rfl
        rw [hrec] at hB
        rw [show ({ ({ st with
            isInThinking := false
            buffer := after
            closedSections := st.closedSections + 1 } : DemSt) with
            buffer := after ++ e } : DemSt) =
          { ({ st with
            isInThinking := false
            buffer := after
            closedSections := st.closedSections + 1 } : DemSt) with
            buffer := ({ st with
              isInThinking := false
              buffer := after
              closedSections := st.closedSections + 1 } : DemSt).buffer ++ e }
          from rfl] at hB
        rw [hIH] at hB
        rw [hB, hA]
        simp [List.append_assoc]

theorem mem_of_getLast?_eq (l : List Char) (a : Char) (h : l.getLast? = some a) :
    a ∈ l := by
  cases l with
  | nil => simp at h
  | cons b t =>
    have h2 : (b :: t).getLast (by simp) = a := by
      have h3 := List.getLast?_eq_getLast (b :: t) (by simp)
      rw [h3] at h
      injection h
    rw [← h2]
    exact List.getLast_mem _

/-- A buffer that ends with a fragment containing a `<` and no `>` passes
the hold-back test of server.py line 217. -/
theorem holdBack_of_suffix (c p : List Char) (hp : p ≠ [])
    (h60 : Char.ofNat 60 ∈ p) (h62 : Char.ofNat 62 ∉ p) :
    holdBack (c ++ p) = true := by
  simp only [holdBack, Bool.and_eq_true, Bool.not_eq_true']
  refine ⟨List.elem_eq_true_of_mem (List.mem_append_right _ h60), ?_⟩
  simp only [endsGt, decide_eq_false_iff_not]
  intro h
  rw [List.getLast?_append_of_ne_nil c hp] at h
  exact h62 (mem_of_getLast?_eq p _ h)

/-- Residual invariant: a buffer suffix that contains a `<` and no `>`
(such as a partial delimiter) survives a whole pass of the loop: every
split consumes a delimiter ending in `>`, which cannot end inside the
suffix, and the hold-back test fires on any remaining buffer carrying it,
so the final buffer still ends with the suffix. -/
theorem processBuffer_residual (mid : Nat) :
    ∀ n : Nat, ∀ st : DemSt, st.buffer.length ≤ n → ∀ p : List Char,
      p ≠ [] → Char.ofNat 60 ∈ p → Char.ofNat 62 ∉ p →
      (∃ c, st.buffer = c ++ p) →
      ∃ c, (processBuffer mid st).1.buffer = c ++ p := by
  intro n
  induction n with
  | zero =>
    intro st hl p hp h60 h62 hdec
    exfalso
    obtain ⟨c, hc⟩ := hdec
    have hnil : st.buffer = [] := by
      cases hb : st.buffer with
      | nil => rfl
      | cons a r => rw [hb] at hl; simp at hl
    rw [hnil] at hc
    exact hp (List.append_eq_nil.mp hc.symm).2
  | succ k ih =>
    intro st hl p hp h60 h62 hdec
    obtain ⟨c, hc⟩ := hdec
    by_cases hth : st.isInThinking = false
    · cases hsp : splitFirst openTag st.buffer with
      | none =>
        have hhold : holdBack st.buffer = true := by
          rw [hc]; exact holdBack_of_suffix c p hp h60 h62
        have hA : processBuffer mid st = (st, []) := by
          rw [processBuffer_eq]
          simp [processBufferStep, hth, hsp, hhold]
        rw [hA]
        exact ⟨c, hc⟩
      | some pr =>
        obtain ⟨before, after⟩ := pr
        have hlt := splitFirst_suf_length openTag st.buffer before after openTag_ne_nil hsp
        have hsound := splitFirst_sound openTag st.buffer before after hsp
        have hover : ∃ c2, after = c2 ++ p :=
          suffix_overlap c p before openTag after (Char.ofNat 62)
            (hc.symm.trans hsound) hp (by decide) h62
        have hA := processBuffer_eq mid st
        simp only [processBufferStep, hth, if_pos, hsp] at hA
        have hRbuf : (startThinking { (emitPlain mid st before).1 with
            isInThinking := true
            buffer := after
            openedSections := (emitPlain mid st before).1.openedSections + 1 }).1.buffer =
            after := by
          rw [startThinking_buffer]
        have hIH := ih (startThinking { (emitPlain mid st before).1 with
            isInThinking := true
            buffer := after
            openedSections := (emitPlain mid st before).1.openedSections + 1 }).1
          (by rw [hRbuf]; omega) p hp h60 h62 (by rw [hRbuf]; exact hover)
        rw [hA]
        exact hIH
    · have hth2 : st.isInThinking = true := by
        revert hth; cases st.isInThinking <;> simp
      cases hsp : splitFirst closeTag st.buffer with
      | none =>
        have hhold : holdBack st.buffer = true := by
          rw [hc]; exact holdBack_of_suffix c p hp h60 h62
        have hA : processBuffer mid st = (st, []) := by
          rw [processBuffer_eq]
          simp [processBufferStep, hth2, hsp, hhold]
        rw [hA]
        exact ⟨c, hc⟩
      | some pr =>
        obtain ⟨tc, after⟩ := pr
        have hlt := splitFirst_suf_length closeTag st.buffer tc after closeTag_ne_nil hsp
        have hsound := splitFirst_sound closeTag st.buffer tc after hsp
        have hover : ∃ c2, after = c2 ++ p :=
          suffix_overlap c p tc closeTag after (Char.ofNat 62)
            (hc.symm.trans hsound) hp (by decide) h62
        have hA := processBuffer_eq mid st
        simp only [processBufferStep, hth2, hsp,
          if_neg (show ¬ ((true : Bool) = false) by decide)] at hA
        have hIH := ih ({ st with
            isInThinking := false
            buffer := after
            closedSections := st.closedSections + 1 } : DemSt)
          (by show after.length ≤ k; omega) p hp h60 h62 hover
        rw [hA]
        exact hIH

end AgStream

section Claims4

open AgStream

/-- C9: splitting a thinking delimiter across two consecutively fed
fragments (for example feeding "<thi" then "nking>") produces the same
classification and hence the same events as feeding the concatenated text
in a single fragment: the demultiplexer ends in the same state, and the
single feed emits exactly the events of the first feed followed by those
of the second.  The held-back partial delimiter survives the first feed as
a buffer residue (processBuffer_residual) and the second feed then
continues from exactly that residue (processBuffer_extend). -/
theorem C9_split_invariance (mid : Nat) (st : DemSt) (u p q v : List Char)
    (hp : p ≠ []) (hq : q ≠ [])
    (htag : p ++ q = openTag ∨ p ++ q = closeTag) :
    (feedContent mid (feedContent mid st (u ++ p)).1 (q ++ v)).1 =
      (feedContent mid st (u ++ p ++ (q ++ v))).1 ∧
    (feedContent mid st (u ++ p ++ (q ++ v))).2 =
      (feedContent mid st (u ++ p)).2 ++
        (feedContent mid (feedContent mid st (u ++ p)).1 (q ++ v)).2 := by
  have h60 : Char.ofNat 60 ∈ p := by
    have hh : (p ++ q).head? = p.head? := List.head?_append_of_ne_nil _ hp
    have hhd : p.head? = some (Char.ofNat 60) := by
      rw [← hh]
      cases htag with
      | inl h => rw [h]; decide
      | inr h => rw [h]; decide
    exact List.mem_of_mem_head? (by simp [hhd])
  have hq0 : 0 < q.length := List.length_pos.mpr hq
  have hlenp : p.length < (p ++ q).length := by
    simp only [List.length_append]; omega
  have h62 : Char.ofNat 62 ∉ p := by
    have hall1 : ∀ m, m < openTag.length → Char.ofNat 62 ∉ openTag.take m := by decide
    have hall2 : ∀ m, m < closeTag.length → Char.ofNat 62 ∉ closeTag.take m := by decide
    have hpeq : p = (p ++ q).take p.length := (List.take_left p q).symm
    cases htag with
    | inl h => rw [hpeq, h]; exact hall1 p.length (by rw [← h]; exact hlenp)
    | inr h => rw [hpeq, h]; exact hall2 p.length (by rw [← h]; exact hlenp)
  have hne1 : u ++ p ≠ [] := fun hx => hp (List.append_eq_nil.mp hx).2
  have hne2 : q ++ v ≠ [] := fun hx => hq (List.append_eq_nil.mp hx).1
  have hne3 : u ++ p ++ (q ++ v) ≠ [] :=
    fun hx => hq (List.append_eq_nil.mp (List.append_eq_nil.mp hx).2).1
  simp only [feedContent, if_neg hne1, if_neg hne2, if_neg hne3]
  have hres := processBuffer_residual mid
    (st.buffer ++ (u ++ p)).length
    { st with buffer := st.buffer ++ (u ++ p) } (le_refl _)
    p hp h60 h62 ⟨st.buffer ++ u, (List.append_assoc st.buffer u p).symm⟩
  obtain ⟨c, hcres⟩ := hres
  have hnonempty :
      (processBuffer mid { st with buffer := st.buffer ++ (u ++ p) }).1.buffer ≠ [] := by
    rw [hcres]
    intro hx
    exact hp (List.append_eq_nil.mp hx).2
  have hext := processBuffer_extend mid
    (({ st with buffer := st.buffer ++ (u ++ p) } : DemSt)).buffer.length
    { st with buffer := st.buffer ++ (u ++ p) } (le_refl _) (q ++ v) hnonempty
  have hbridge : ({ ({ st with buffer := st.buffer ++ (u ++ p) } : DemSt) with
      buffer := ({ st with buffer := st.buffer ++ (u ++ p) } : DemSt).buffer ++
        (q ++ v) } : DemSt) =
      { st with buffer := st.buffer ++ (u ++ p ++ (q ++ v)) } := by
    simp [List.append_assoc]
  rw [hbridge] at hext
  rw [hext]
  exact ⟨rfl, rfl⟩

/-- C9 witness: feeding "<thi" then "nking>" from the initial state
reaches the same demultiplexer state as feeding "<thinking>" whole, and
the events of the split feeds concatenate to those of the single feed. -/
theorem C9_witness :
    (String.toList "<thi") ≠ [] ∧ (String.toList "nking>") ≠ [] ∧
    ((feedContent mainMid (feedContent mainMid initGSt.dem
        ([] ++ String.toList "<thi")).1 (String.toList "nking>" ++ [])).1 =
      (feedContent mainMid initGSt.dem
        ([] ++ String.toList "<thi" ++ (String.toList "nking>" ++ []))).1 ∧
     (feedContent mainMid initGSt.dem
        ([] ++ String.toList "<thi" ++ (String.toList "nking>" ++ []))).2 =
      (feedContent mainMid initGSt.dem ([] ++ String.toList "<thi")).2 ++
        (feedContent mainMid (feedContent mainMid initGSt.dem
          ([] ++ String.toList "<thi")).1 (String.toList "nking>" ++ [])).2) :=
  ⟨by decide, by decide,
   C9_split_invariance mainMid initGSt.dem [] (String.toList "<thi")
     (String.toList "nking>") [] (by decide) (by decide) (Or.inl (by decide))⟩

end Claims4

namespace AgStream

/-- 1 if the flag is set, else 0 (for ledger equations). -/
def flagInd (b : Bool) : Nat := if b then 1 else 0

/-- The start/end ledger the demultiplexer maintains between two of its
states over an emitted event list: THINKING_TEXT_MESSAGE_END events count
the closed sections, THINKING_END events match them one for one, the
section counters balance against the thinking flag, and the one-shot start
events (THINKING_START, THINKING_TEXT_MESSAGE_START and the turn's
TEXT_MESSAGE_START) are emitted exactly on the transition of their guard
flag. -/
def demLedger (mid : Nat) (d0 d1 : DemSt) (evs : List Ev) : Prop :=
  d1.closedSections = d0.closedSections + evs.count Ev.ttEnd ∧
  evs.count Ev.thinkingEnd = evs.count Ev.ttEnd ∧
  d1.openedSections + d0.closedSections + flagInd d0.isInThinking =
    d0.openedSections + d1.closedSections + flagInd d1.isInThinking ∧
  evs.count Ev.thinkingStart + flagInd d0.hasStartedThinking =
    flagInd d1.hasStartedThinking ∧
  evs.count Ev.ttStart + flagInd d0.hasStartedThinking =
    flagInd d1.hasStartedThinking ∧
  evs.count (Ev.textStart mid) + flagInd d0.hasStartedText =
    flagInd d1.hasStartedText

theorem demLedger_trans (mid : Nat) (d0 d1 d2 : DemSt) (evs1 evs2 : List Ev)
    (h1 : demLedger mid d0 d1 evs1) (h2 : demLedger mid d1 d2 evs2) :
    demLedger mid d0 d2 (evs1 ++ evs2) := by
  obtain ⟨a1, b1, c1, e1, f1, g1⟩ := h1
  obtain ⟨a2, b2, c2, e2, f2, g2⟩ := h2
  simp only [demLedger, List.count_append]
  refine ⟨?_, ?_, ?_, ?_, ?_, ?_⟩ <;> omega

theorem demLedger_zero (mid : Nat) (d : DemSt) (evs : List Ev)
    (h1 : evs.count Ev.ttEnd = 0) (h2 : evs.count Ev.thinkingEnd = 0)
    (h3 : evs.count Ev.thinkingStart = 0) (h4 : evs.count Ev.ttStart = 0)
    (h5 : evs.count (Ev.textStart mid) = 0) :
    demLedger mid d d evs := by
  refine ⟨?_, ?_, ?_, ?_, ?_, ?_⟩ <;> omega

theorem emitPlain_ledger (mid : Nat) (st : DemSt) (txt : List Char) :
    demLedger mid st (emitPlain mid st txt).1 (emitPlain mid st txt).2 ∧
    (emitPlain mid st txt).2.count (Ev.textEnd mid) = 0 := by
  by_cases h1 : hasNonWs txt
  · by_cases h2 : st.hasStartedText <;>
      simp [emitPlain, h1, h2, demLedger, flagInd, List.count_cons, beq_iff_eq]
  · simp [emitPlain, h1, demLedger, flagInd]

theorem startThinking_ledger (mid : Nat) (st : DemSt) :
    demLedger mid st (startThinking st).1 (startThinking st).2 ∧
    (startThinking st).2.count (Ev.textEnd mid) = 0 := by
  by_cases h : st.hasStartedThinking <;>
    simp [startThinking, h, demLedger, flagInd, List.count_cons, beq_iff_eq]

end AgStream

namespace AgStream

theorem processBuffer_ledger (mid : Nat) :
    ∀ n : Nat, ∀ st : DemSt, st.buffer.length ≤ n →
      demLedger mid st (processBuffer mid st).1 (processBuffer mid st).2 ∧
      (processBuffer mid st).2.count (Ev.textEnd mid) = 0 := by
  intro n
  induction n with
  | zero =>
    intro st hl
    have hnil : st.buffer = [] := by
      cases hb : st.buffer with
      | nil => rfl
      | cons a r => rw [hb] at hl; simp at hl
    rw [processBuffer_eq]
    by_cases hth : st.isInThinking = false
    · simp [processBufferStep, hth, hnil, splitFirst, holdBack, emitPlain, hasNonWs,
        demLedger, flagInd]
    · have hth2 : st.isInThinking = true := by
        revert hth; cases st.isInThinking <;> simp
      simp [processBufferStep, hth2, hnil, splitFirst, holdBack, hasNonWs,
        demLedger, flagInd]
  | succ k ih =>
    intro st hl
    by_cases hth : st.isInThinking = false
    · cases hsp : splitFirst openTag st.buffer with
      | none =>
        by_cases hhold : holdBack st.buffer
        · have hA : processBuffer mid st = (st, []) := by
            rw [processBuffer_eq]
            simp [processBufferStep, hth, hsp, hhold]
          rw [hA]
          exact ⟨demLedger_zero mid st [] rfl rfl rfl rfl rfl, rfl⟩
        · have hA : processBuffer mid st =
              ({ (emitPlain mid st st.buffer).1 with buffer := [] },
               (emitPlain mid st st.buffer).2) := by
            rw [processBuffer_eq]
            simp [processBufferStep, hth, hsp, hhold]
          rw [hA]
          exact emitPlain_ledger mid st st.buffer
      | some pr =>
        obtain ⟨before, after⟩ := pr
        have hlt := splitFirst_suf_length openTag st.buffer before after openTag_ne_nil hsp
        have hA := processBuffer_eq mid st
        simp only [processBufferStep, hth, if_pos, hsp] at hA
        have hRbuf : (startThinking { (emitPlain mid st before).1 with
            isInThinking := true
            buffer := after
            openedSections := (emitPlain mid st before).1.openedSections + 1 }).1.buffer =
            after := by
          rw [startThinking_buffer]
        have hI := ih (startThinking { (emitPlain mid st before).1 with
            isInThinking := true
            buffer := after
            openedSections := (emitPlain mid st before).1.openedSections + 1 }).1
          (by rw [hRbuf]; omega)
        have hE := emitPlain_ledger mid st before
        have hS := startThinking_ledger mid { (emitPlain mid st before).1 with
            isInThinking := true
            buffer := after
            openedSections := (emitPlain mid st before).1.openedSections + 1 }
        have hmid : demLedger mid (emitPlain mid st before).1
            ({ (emitPlain mid st before).1 with
              isInThinking := true
              buffer := after
              openedSections := (emitPlain mid st before).1.openedSections + 1 } : DemSt)
            [] := by
          refine ⟨by simp, rfl, ?_, by simp [flagInd], by simp [flagInd], by simp [flagInd]⟩
          simp only [List.count_nil]
          rw [emitPlain_isInThinking, hth]
          simp only [flagInd, if_pos, if_neg, Bool.false_eq_true, if_false, if_true]
          omega
        have t1 : demLedger mid st
            ({ (emitPlain mid st before).1 with
              isInThinking := true
              buffer := after
              openedSections := (emitPlain mid st before).1.openedSections + 1 } : DemSt)
            (emitPlain mid st before).2 := by
          have := demLedger_trans mid _ _ _ _ _ hE.1 hmid
          simpa using this
        have t2 := demLedger_trans mid _ _ _ _ _ t1 hS.1
        have t3 := demLedger_trans mid _ _ _ _ _ t2 hI.1
        rw [hA]
        refine ⟨t3, ?_⟩
        simp only [List.count_append]
        rw [hE.2, hS.2, hI.2]
    · have hth2 : st.isInThinking = true := by
        revert hth; cases st.isInThinking <;> simp
      cases hsp : splitFirst closeTag st.buffer with
      | none =>
        by_cases hhold : holdBack st.buffer
        · have hA : processBuffer mid st = (st, []) := by
            rw [processBuffer_eq]
            simp [processBufferStep, hth2, hsp, hhold]
          rw [hA]
          exact ⟨demLedger_zero mid st [] rfl rfl rfl rfl rfl, rfl⟩
        · have hA : processBuffer mid st =
              ({ st with buffer := [] },
               if hasNonWs st.buffer then [Ev.ttContent st.buffer] else []) := by
            rw [processBuffer_eq]
            simp [processBufferStep, hth2, hsp, hhold]
          rw [hA]
          by_cases htc : hasNonWs st.buffer <;>
            simp [demLedger, htc, flagInd, List.count_cons, beq_iff_eq]
      | some pr =>
        obtain ⟨tc, after⟩ := pr
        have hlt := splitFirst_suf_length closeTag st.buffer tc after closeTag_ne_nil hsp
        have hA := processBuffer_eq mid st
        simp only [processBufferStep, hth2, hsp,
          if_neg (show ¬ ((true : Bool) = false) by decide)] at hA
        have hI := ih ({ st with
            isInThinking := false
            buffer := after
            closedSections := st.closedSections + 1 } : DemSt)
          (by show after.length ≤ k; omega)
        have hmid : demLedger mid st
            ({ st with
              isInThinking := false
              buffer := after
              closedSections := st.closedSections + 1 } : DemSt)
            ((if hasNonWs tc then [Ev.ttContent tc] else []) ++
              [Ev.ttEnd, Ev.thinkingEnd]) := by
          by_cases htc : hasNonWs tc <;>
            simp [demLedger, htc, flagInd, hth2, List.count_append, List.count_cons,
              beq_iff_eq] <;>
            omega
        have t3 := demLedger_trans mid _ _ _ _ _ hmid hI.1
        rw [hA]
        refine ⟨t3, ?_⟩
        by_cases htc : hasNonWs tc <;>
          simp [htc, List.count_append, List.count_cons, beq_iff_eq, hI.2]

end AgStream

namespace AgStream

theorem feedContent_ledger (mid : Nat) (st : DemSt) (frag : List Char) :
    demLedger mid st (feedContent mid st frag).1 (feedContent mid st frag).2 ∧
    (feedContent mid st frag).2.count (Ev.textEnd mid) = 0 := by
  unfold feedContent
  split
  · exact ⟨demLedger_zero mid st [] rfl rfl rfl rfl rfl, rfl⟩
  · exact processBuffer_ledger mid _ _ (Nat.le_refl _)

theorem count_zero_of_shape (P : Ev → Bool) (evs : List Ev)
    (hall : ∀ e ∈ evs, P e = true) (a : Ev) (ha : P a = false) :
    evs.count a = 0 := by
  rw [List.count_eq_zero]
  intro hmem
  rw [hall a hmem] at ha
  simp at ha

theorem countP_zero_of_shape (P : Ev → Bool) (q : Ev → Bool) (evs : List Ev)
    (hall : ∀ e ∈ evs, P e = true) (hq : ∀ e, P e = true → q e = false) :
    evs.countP q = 0 := by
  rw [List.countP_eq_zero]
  intro e he
  rw [hq e (hall e he)]
  exact Bool.false_ne_true

/-- Number of TOOL_CALL_START events for call id s. -/
def cntToolStart (s : String) (evs : List Ev) : Nat :=
  evs.countP fun e => match e with
    | Ev.toolStart i _ _ => i == s
    | _ => false

/-- Number of TOOL_CALL_END events for call id s. -/
def cntToolEnd (s : String) (evs : List Ev) : Nat :=
  evs.countP fun e => match e with
    | Ev.toolEnd i _ => i == s
    | _ => false

/-- 1 if call id s is the pending call of the accumulator, else 0. -/
def pendInd (ts : ToolSt) (s : String) : Nat := if ts.curId = some s then 1 else 0

theorem cntToolStart_append (s : String) (a b : List Ev) :
    cntToolStart s (a ++ b) = cntToolStart s a + cntToolStart s b := by
  simp [cntToolStart, List.countP_append]

theorem cntToolEnd_append (s : String) (a b : List Ev) :
    cntToolEnd s (a ++ b) = cntToolEnd s a + cntToolEnd s b := by
  simp [cntToolEnd, List.countP_append]

theorem processToolDelta_toolLedger (exec : Exec) (mid : Nat) (ts : ToolSt)
    (tc : ToolDelta) (s : String)
    (herr : (processToolDelta exec mid ts tc).2.2 = none) :
    cntToolStart s (processToolDelta exec mid ts tc).2.1 + pendInd ts s =
      cntToolEnd s (processToolDelta exec mid ts tc).2.1 +
        pendInd (processToolDelta exec mid ts tc).1 s := by
  by_cases hid : tc.id = ""
  · by_cases hargs : tc.args = ""
    · simp [processToolDelta, hid, hargs, cntToolStart, cntToolEnd]
    · cases hcur : ts.curId with
      | some cid =>
        simp [processToolDelta, hid, hargs, hcur, cntToolStart, cntToolEnd,
          List.countP_cons, pendInd]
      | none =>
        simp [processToolDelta, hid, hargs, hcur] at herr
  · cases hcur : ts.curId with
    | none =>
      by_cases hargs : tc.args = ""
      · simp [processToolDelta, hid, hargs, hcur, cntToolStart, cntToolEnd,
          List.countP_cons, pendInd, beq_iff_eq]
      · simp [processToolDelta, hid, hargs, hcur, cntToolStart, cntToolEnd,
          List.countP_cons, pendInd, beq_iff_eq]
    | some cid =>
      cases hexec : exec ts.curName ts.curArgs with
      | error err => simp [processToolDelta, hid, hcur, hexec] at herr
      | ok res =>
        by_cases hargs : tc.args = ""
        · simp [processToolDelta, hid, hargs, hcur, hexec, cntToolStart, cntToolEnd,
            List.countP_cons, pendInd, beq_iff_eq]
          by_cases hts : tc.id = s <;> by_cases hcs : cid = s <;>
            simp [hts, hcs] <;> omega
        · simp [processToolDelta, hid, hargs, hcur, hexec, cntToolStart, cntToolEnd,
            List.countP_cons, pendInd, beq_iff_eq]
          by_cases hts : tc.id = s <;> by_cases hcs : cid = s <;>
            simp [hts, hcs] <;> omega

end AgStream

namespace AgStream

theorem processToolDeltas_toolLedger (exec : Exec) (mid : Nat) (s : String) :
    ∀ tds : List ToolDelta, ∀ ts : ToolSt,
      (processToolDeltas exec mid ts tds).2.2 = none →
      cntToolStart s (processToolDeltas exec mid ts tds).2.1 + pendInd ts s =
        cntToolEnd s (processToolDeltas exec mid ts tds).2.1 +
          pendInd (processToolDeltas exec mid ts tds).1 s := by
  intro tds
  induction tds with
  | nil => intro ts herr; simp [processToolDeltas, cntToolStart, cntToolEnd]
  | cons tc rest ih =>
    intro ts herr
    simp only [processToolDeltas] at herr ⊢
    cases hr : (processToolDelta exec mid ts tc).2.2 with
    | some e => rw [hr] at herr; simp at herr
    | none =>
      rw [hr] at herr
      simp only [] at herr ⊢
      have h1 := processToolDelta_toolLedger exec mid ts tc s hr
      have h2 := ih (processToolDelta exec mid ts tc).1 herr
      rw [cntToolStart_append, cntToolEnd_append]
      omega

theorem toolEvs_demLedger (mid : Nat) (d : DemSt) (evs : List Ev)
    (hall : ∀ e ∈ evs, toolEv mid e = true) :
    demLedger mid d d evs ∧ evs.count (Ev.textEnd mid) = 0 := by
  refine ⟨demLedger_zero mid d evs ?_ ?_ ?_ ?_ ?_, ?_⟩ <;>
    exact count_zero_of_shape (toolEv mid) evs hall _ rfl

theorem contentEvs_toolCnt (mid : Nat) (s : String) (evs : List Ev)
    (hall : ∀ e ∈ evs, contentEv mid e = true) :
    cntToolStart s evs = 0 ∧ cntToolEnd s evs = 0 := by
  constructor <;>
    [exact countP_zero_of_shape (contentEv mid) _ evs hall
      (by intro e he; cases e <;> simp_all [contentEv]);
     exact countP_zero_of_shape (contentEv mid) _ evs hall
      (by intro e he; cases e <;> simp_all [contentEv])]

theorem contEvs_toolCnt (nid : Nat) (s : String) (evs : List Ev)
    (hall : ∀ e ∈ evs, contEv nid e = true) :
    cntToolStart s evs = 0 ∧ cntToolEnd s evs = 0 := by
  constructor <;>
    [exact countP_zero_of_shape (contEv nid) _ evs hall
      (by intro e he; cases e <;> simp_all [contEv]);
     exact countP_zero_of_shape (contEv nid) _ evs hall
      (by intro e he; cases e <;> simp_all [contEv])]

theorem contEvs_demLedger (mid nid : Nat) (hne : nid ≠ mid) (d : DemSt)
    (evs : List Ev) (hall : ∀ e ∈ evs, contEv nid e = true) :
    demLedger mid d d evs ∧ evs.count (Ev.textEnd mid) = 0 := by
  refine ⟨demLedger_zero mid d evs
    (count_zero_of_shape (contEv nid) evs hall _ rfl)
    (count_zero_of_shape (contEv nid) evs hall _ rfl)
    (count_zero_of_shape (contEv nid) evs hall _ rfl)
    (count_zero_of_shape (contEv nid) evs hall _ rfl)
    (count_zero_of_shape (contEv nid) evs hall _ (by simp [contEv]; omega)),
    count_zero_of_shape (contEv nid) evs hall _ (by simp [contEv]; omega)⟩

end AgStream

namespace AgStream

theorem contLoop_counts (mid nid : Nat) (hne : nid ≠ mid) (cont : List Chunk)
    (started : Bool) (s : String) :
    (contLoop nid started cont).2.count Ev.ttEnd = 0 ∧
    (contLoop nid started cont).2.count Ev.thinkingEnd = 0 ∧
    (contLoop nid started cont).2.count Ev.thinkingStart = 0 ∧
    (contLoop nid started cont).2.count Ev.ttStart = 0 ∧
    (contLoop nid started cont).2.count (Ev.textStart mid) = 0 ∧
    (contLoop nid started cont).2.count (Ev.textEnd mid) = 0 ∧
    cntToolStart s (contLoop nid started cont).2 = 0 ∧
    cntToolEnd s (contLoop nid started cont).2 = 0 := by
  have hall := contLoop_events nid cont started
  exact ⟨count_zero_of_shape _ _ hall _ rfl, count_zero_of_shape _ _ hall _ rfl,
    count_zero_of_shape _ _ hall _ rfl, count_zero_of_shape _ _ hall _ rfl,
    count_zero_of_shape _ _ hall _ (by simp [contEv]; omega),
    count_zero_of_shape _ _ hall _ (by simp [contEv]; omega),
    (contEvs_toolCnt nid s _ hall).1, (contEvs_toolCnt nid s _ hall).2⟩

theorem cntToolStart_nil (s : String) : cntToolStart s [] = 0 := rfl

theorem cntToolEnd_nil (s : String) : cntToolEnd s [] = 0 := rfl

theorem cntToolStart_cons_toolEnd (s i r : String) (l : List Ev) :
    cntToolStart s (Ev.toolEnd i r :: l) = cntToolStart s l := by
  simp [cntToolStart, List.countP_cons]

theorem cntToolStart_cons_textEnd (s : String) (m : Nat) (l : List Ev) :
    cntToolStart s (Ev.textEnd m :: l) = cntToolStart s l := by
  simp [cntToolStart, List.countP_cons]

theorem cntToolEnd_cons_textEnd (s : String) (m : Nat) (l : List Ev) :
    cntToolEnd s (Ev.textEnd m :: l) = cntToolEnd s l := by
  simp [cntToolEnd, List.countP_cons]

theorem cntToolEnd_cons_toolEnd (s i r : String) (l : List Ev) :
    cntToolEnd s (Ev.toolEnd i r :: l) =
      cntToolEnd s l + (if i = s then 1 else 0) := by
  by_cases h : i = s <;> simp [cntToolEnd, List.countP_cons, h]

theorem processFinish_ledger (exec : Exec) (mid nid : Nat) (cont : List Chunk)
    (cErr : Option String) (dem : DemSt) (ts : ToolSt) (reason : String)
    (s : String) (hne : nid ≠ mid)
    (herr : (processFinish exec mid nid cont cErr dem ts reason).err = none) :
    (processFinish exec mid nid cont cErr dem ts reason).evs.count Ev.ttEnd = 0 ∧
    (processFinish exec mid nid cont cErr dem ts reason).evs.count Ev.thinkingEnd = 0 ∧
    (processFinish exec mid nid cont cErr dem ts reason).evs.count Ev.thinkingStart = 0 ∧
    (processFinish exec mid nid cont cErr dem ts reason).evs.count Ev.ttStart = 0 ∧
    (processFinish exec mid nid cont cErr dem ts reason).evs.count (Ev.textStart mid) = 0 ∧
    (processFinish exec mid nid cont cErr dem ts reason).evs.count (Ev.textEnd mid) =
      flagInd dem.hasStartedText ∧
    cntToolStart s (processFinish exec mid nid cont cErr dem ts reason).evs = 0 ∧
    cntToolEnd s (processFinish exec mid nid cont cErr dem ts reason).evs =
      pendInd ts s := by
  obtain ⟨hc1, hc2, hc3, hc4, hc5, hc6, hc7, hc8⟩ := contLoop_counts mid nid hne cont false s
  cases hcur : ts.curId with
  | none =>
    by_cases hst : dem.hasStartedText <;>
      by_cases hr2 : reason = "tool_calls" <;>
      simp [processFinish, hcur, processFinish2, hst, hr2, flagInd, cntToolStart,
        cntToolEnd, pendInd, List.count_cons, beq_iff_eq]
  | some cid =>
    cases hexec : exec ts.curName ts.curArgs with
    | error e => simp [processFinish, hcur, hexec] at herr
    | ok res =>
      have hend : cntToolEnd s [Ev.toolEnd cid res] = pendInd ts s := by
        by_cases h : cid = s <;>
          simp [cntToolEnd, List.countP_cons, pendInd, hcur, beq_iff_eq, h]
      have hsta : cntToolStart s [Ev.toolEnd cid res] = 0 := by
        simp [cntToolStart, List.countP_cons]
      have hpend : pendInd ts s = if cid = s then 1 else 0 := by
        simp [pendInd, hcur]
      by_cases hst : dem.hasStartedText <;>
        by_cases hr2 : reason = "tool_calls" <;>
        simp [processFinish, hcur, hexec, processFinish2, hst, hr2, flagInd,
          List.count_cons, List.count_append, cntToolStart_append, cntToolEnd_append,
          cntToolStart_cons_toolEnd, cntToolStart_cons_textEnd,
          cntToolEnd_cons_textEnd, cntToolEnd_cons_toolEnd, hpend,
          cntToolStart_nil, cntToolEnd_nil,
          beq_iff_eq, hc1, hc2, hc3, hc4, hc5, hc6, hc7, hc8]

end AgStream

namespace AgStream

theorem processChunk_ledger_nofinish (exec : Exec) (mid : Nat) (cont : List Chunk)
    (cErr : Option String) (g : GSt) (ch : Chunk) (s : String)
    (hfin : ch.finishReason = "")
    (herr : (processChunk exec mid cont cErr g ch).err = none) :
    demLedger mid g.dem (processChunk exec mid cont cErr g ch).st.dem
      (processChunk exec mid cont cErr g ch).evs ∧
    (processChunk exec mid cont cErr g ch).evs.count (Ev.textEnd mid) = 0 ∧
    cntToolStart s (processChunk exec mid cont cErr g ch).evs + pendInd g.ts s =
      cntToolEnd s (processChunk exec mid cont cErr g ch).evs +
        pendInd (processChunk exec mid cont cErr g ch).st.ts s := by
  cases hr : (processToolDeltas exec mid g.ts ch.toolCalls).2.2 with
  | some e => simp [processChunk, hr] at herr
  | none =>
    have hC := feedContent_ledger mid g.dem ch.content
    have hT := processToolDeltas_toolLedger exec mid s ch.toolCalls g.ts hr
    have hTz := toolEvs_demLedger mid (feedContent mid g.dem ch.content).1
      (processToolDeltas exec mid g.ts ch.toolCalls).2.1
      (processToolDeltas_events exec mid ch.toolCalls g.ts)
    have hCz := contentEvs_toolCnt mid s (feedContent mid g.dem ch.content).2
      (feedContent_events mid g.dem ch.content)
    have hshape : processChunk exec mid cont cErr g ch =
        { st := { dem := (feedContent mid g.dem ch.content).1
                  ts := (processToolDeltas exec mid g.ts ch.toolCalls).1
                  nextId := g.nextId }
          evs := (feedContent mid g.dem ch.content).2 ++
            (processToolDeltas exec mid g.ts ch.toolCalls).2.1
          appended := []
          contIssued := false
          err := none } := by
      simp [processChunk, hr, hfin]
    rw [hshape]
    refine ⟨demLedger_trans mid _ _ _ _ _ hC.1 hTz.1, ?_, ?_⟩
    · simp only [List.count_append]
      rw [hC.2, hTz.2]
    · rw [cntToolStart_append, cntToolEnd_append]
      have h1 := hCz.1
      have h2 := hCz.2
      simp only []
      omega

theorem processChunk_ledger_finish (exec : Exec) (mid : Nat) (cont : List Chunk)
    (cErr : Option String) (g : GSt) (ch : Chunk) (s : String)
    (hfin : ch.finishReason ≠ "")
    (hne : g.nextId ≠ mid)
    (herr : (processChunk exec mid cont cErr g ch).err = none) :
    demLedger mid g.dem (processChunk exec mid cont cErr g ch).st.dem
      (processChunk exec mid cont cErr g ch).evs ∧
    (processChunk exec mid cont cErr g ch).evs.count (Ev.textEnd mid) =
      flagInd (processChunk exec mid cont cErr g ch).st.dem.hasStartedText ∧
    cntToolStart s (processChunk exec mid cont cErr g ch).evs + pendInd g.ts s =
      cntToolEnd s (processChunk exec mid cont cErr g ch).evs := by
  cases hr : (processToolDeltas exec mid g.ts ch.toolCalls).2.2 with
  | some e => simp [processChunk, hr] at herr
  | none =>
    have hferr : (processFinish exec mid g.nextId cont cErr
        (feedContent mid g.dem ch.content).1
        (processToolDeltas exec mid g.ts ch.toolCalls).1 ch.finishReason).err =
        none := by
      simp [processChunk, hr, hfin] at herr
      exact herr
    have hC := feedContent_ledger mid g.dem ch.content
    have hT := processToolDeltas_toolLedger exec mid s ch.toolCalls g.ts hr
    have hTz := toolEvs_demLedger mid (feedContent mid g.dem ch.content).1
      (processToolDeltas exec mid g.ts ch.toolCalls).2.1
      (processToolDeltas_events exec mid ch.toolCalls g.ts)
    have hCz := contentEvs_toolCnt mid s (feedContent mid g.dem ch.content).2
      (feedContent_events mid g.dem ch.content)
    have hF := processFinish_ledger exec mid g.nextId cont cErr
      (feedContent mid g.dem ch.content).1
      (processToolDeltas exec mid g.ts ch.toolCalls).1 ch.finishReason s hne hferr
    obtain ⟨hF1, hF2, hF3, hF4, hF5, hF6, hF7, hF8⟩ := hF
    have hshape : processChunk exec mid cont cErr g ch =
        { st := { dem := (feedContent mid g.dem ch.content).1
                  ts := (processFinish exec mid g.nextId cont cErr
                    (feedContent mid g.dem ch.content).1
                    (processToolDeltas exec mid g.ts ch.toolCalls).1
                    ch.finishReason).ts
                  nextId := (processFinish exec mid g.nextId cont cErr
                    (feedContent mid g.dem ch.content).1
                    (processToolDeltas exec mid g.ts ch.toolCalls).1
                    ch.finishReason).nextId }
          evs := (feedContent mid g.dem ch.content).2 ++
            (processToolDeltas exec mid g.ts ch.toolCalls).2.1 ++
            (processFinish exec mid g.nextId cont cErr
              (feedContent mid g.dem ch.content).1
              (processToolDeltas exec mid g.ts ch.toolCalls).1 ch.finishReason).evs
          appended := (processFinish exec mid g.nextId cont cErr
            (feedContent mid g.dem ch.content).1
            (processToolDeltas exec mid g.ts ch.toolCalls).1 ch.finishReason).appended
          contIssued := (processFinish exec mid g.nextId cont cErr
            (feedContent mid g.dem ch.content).1
            (processToolDeltas exec mid g.ts ch.toolCalls).1 ch.finishReason).contIssued
          err := (processFinish exec mid g.nextId cont cErr
            (feedContent mid g.dem ch.content).1
            (processToolDeltas exec mid g.ts ch.toolCalls).1 ch.finishReason).err } := by
      simp [processChunk, hr, hfin]
    rw [hshape]
    refine ⟨?_, ?_, ?_⟩
    · refine demLedger_trans mid _ _ _ _ _ (demLedger_trans mid _ _ _ _ _ hC.1 hTz.1)
        (demLedger_zero mid _ _ hF1 hF2 hF3 hF4 hF5)
    · simp only [List.count_append]
      rw [hC.2, hTz.2, hF6]
      omega
    · rw [cntToolStart_append, cntToolStart_append, cntToolEnd_append,
        cntToolEnd_append]
      have h1 := hCz.1
      have h2 := hCz.2
      omega

end AgStream

namespace AgStream

theorem runChunks_err_prefix (exec : Exec) (mid : Nat) (cont : List Chunk)
    (cErr : Option String) :
    ∀ l1 l2 : List Chunk, ∀ g : GSt,
      (runChunks exec mid cont cErr g (l1 ++ l2)).err = none →
      (runChunks exec mid cont cErr g l1).err = none := by
  intro l1
  induction l1 with
  | nil => intro l2 g h; simp [runChunks]
  | cons ch rest ih =>
    intro l2 g h
    cases hr : (processChunk exec mid cont cErr g ch).err with
    | some e =>
      exfalso
      rw [List.cons_append] at h
      simp [runChunks, hr] at h
    | none =>
      rw [List.cons_append] at h
      simp only [runChunks, hr] at h ⊢
      exact ih l2 _ h

theorem runChunks_ledger_nofinish (exec : Exec) (mid : Nat) (cont : List Chunk)
    (cErr : Option String) (s : String) :
    ∀ chs : List Chunk, ∀ g : GSt,
      (∀ ch ∈ chs, ch.finishReason = "") →
      (runChunks exec mid cont cErr g chs).err = none →
      demLedger mid g.dem (runChunks exec mid cont cErr g chs).st.dem
        (runChunks exec mid cont cErr g chs).evs ∧
      (runChunks exec mid cont cErr g chs).evs.count (Ev.textEnd mid) = 0 ∧
      cntToolStart s (runChunks exec mid cont cErr g chs).evs + pendInd g.ts s =
        cntToolEnd s (runChunks exec mid cont cErr g chs).evs +
          pendInd (runChunks exec mid cont cErr g chs).st.ts s := by
  intro chs
  induction chs with
  | nil =>
    intro g hfin herr
    exact ⟨demLedger_zero mid g.dem [] rfl rfl rfl rfl rfl, rfl, rfl⟩
  | cons ch rest ih =>
    intro g hfin herr
    cases hr : (processChunk exec mid cont cErr g ch).err with
    | some e =>
      exfalso
      simp [runChunks, hr] at herr
    | none =>
      have hre : (runChunks exec mid cont cErr
          (processChunk exec mid cont cErr g ch).st rest).err = none := by
        simpa [runChunks, hr] using herr
      have h1 := processChunk_ledger_nofinish exec mid cont cErr g ch s
        (hfin ch (List.mem_cons_self ch rest)) (by rw [hr])
      have h2 := ih (processChunk exec mid cont cErr g ch).st
        (fun c hc => hfin c (List.mem_cons_of_mem ch hc)) hre
      have hshape : runChunks exec mid cont cErr g (ch :: rest) =
          { st := (runChunks exec mid cont cErr
              (processChunk exec mid cont cErr g ch).st rest).st
            evs := (processChunk exec mid cont cErr g ch).evs ++
              (runChunks exec mid cont cErr
                (processChunk exec mid cont cErr g ch).st rest).evs
            appended := (processChunk exec mid cont cErr g ch).appended ++
              (runChunks exec mid cont cErr
                (processChunk exec mid cont cErr g ch).st rest).appended
            contCount := (if (processChunk exec mid cont cErr g ch).contIssued
              then 1 else 0) + (runChunks exec mid cont cErr
                (processChunk exec mid cont cErr g ch).st rest).contCount
            err := (runChunks exec mid cont cErr
              (processChunk exec mid cont cErr g ch).st rest).err } := by
        simp [runChunks, hr]
      rw [hshape]
      refine ⟨demLedger_trans mid _ _ _ _ _ h1.1 h2.1, ?_, ?_⟩
      · simp only [List.count_append]
        rw [h1.2.1, h2.2.1]
      · rw [cntToolStart_append, cntToolEnd_append]
        have ha := h1.2.2
        have hb := h2.2.2
        simp only []
        omega

end AgStream

namespace AgStream

theorem cntToolStart_cons_runStarted (s : String) (l : List Ev) :
    cntToolStart s (Ev.runStarted :: l) = cntToolStart s l := by
  simp [cntToolStart, List.countP_cons]

theorem cntToolEnd_cons_runStarted (s : String) (l : List Ev) :
    cntToolEnd s (Ev.runStarted :: l) = cntToolEnd s l := by
  simp [cntToolEnd, List.countP_cons]

theorem cntToolStart_runFinished (s : String) :
    cntToolStart s [Ev.runFinished] = 0 := rfl

theorem cntToolEnd_runFinished (s : String) :
    cntToolEnd s [Ev.runFinished] = 0 := rfl

end AgStream



namespace AgStream

/-- Scan flag: true once an event satisfying isS has occurred (or the flag
was set on entry). -/
def seenFold (isS : Ev → Bool) : Bool → List Ev → Bool
  | b, [] => b
  | b, e :: rest => seenFold isS (b || isS e) rest

/-- Ordering check: every event satisfying isC is preceded (strictly, or by
the entry flag) by an event satisfying isS. -/
def ordOK (isS isC : Ev → Bool) : Bool → List Ev → Bool
  | _, [] => true
  | b, e :: rest => (!(isC e) || b) && ordOK isS isC (b || isS e) rest

theorem seenFold_append (isS : Ev → Bool) :
    ∀ l1 l2 : List Ev, ∀ b,
      seenFold isS b (l1 ++ l2) = seenFold isS (seenFold isS b l1) l2 := by
  intro l1
  induction l1 with
  | nil => intro l2 b; rfl
  | cons e rest ih =>
    intro l2 b
    simp only [List.cons_append, seenFold]
    exact ih l2 _

theorem seenFold_true (isS : Ev → Bool) :
    ∀ l : List Ev, seenFold isS true l = true := by
  intro l
  induction l with
  | nil => rfl
  | cons e rest ih =>
    simp only [seenFold, Bool.true_or]
    exact ih

theorem seenFold_none (isS : Ev → Bool) :
    ∀ l : List Ev, (∀ e ∈ l, isS e = false) → ∀ b, seenFold isS b l = b := by
  intro l
  induction l with
  | nil => intro _ b; rfl
  | cons e rest ih =>
    intro h b
    simp only [seenFold, h e (List.mem_cons_self e rest), Bool.or_false]
    exact ih (fun x hx => h x (List.mem_cons_of_mem e hx)) b

theorem ordOK_true (isS isC : Ev → Bool) :
    ∀ l : List Ev, ordOK isS isC true l = true := by
  intro l
  induction l with
  | nil => rfl
  | cons e rest ih =>
    simp only [ordOK, Bool.or_true, Bool.true_or, Bool.true_and]
    exact ih

theorem ordOK_append (isS isC : Ev → Bool) :
    ∀ l1 l2 : List Ev, ∀ b, ordOK isS isC b (l1 ++ l2) =
      (ordOK isS isC b l1 && ordOK isS isC (seenFold isS b l1) l2) := by
  intro l1
  induction l1 with
  | nil => intro l2 b; simp [ordOK, seenFold]
  | cons e rest ih =>
    intro l2 b
    simp only [List.cons_append, ordOK, seenFold, List.append_eq]
    rw [ih, Bool.and_assoc]

theorem ordOK_no_content (isS isC : Ev → Bool) :
    ∀ l : List Ev, (∀ e ∈ l, isC e = false) → ∀ b, ordOK isS isC b l = true := by
  intro l
  induction l with
  | nil => intro _ b; rfl
  | cons e rest ih =>
    intro h b
    simp only [ordOK, h e (List.mem_cons_self e rest), Bool.not_false, Bool.true_or,
      Bool.true_and]
    exact ih (fun x hx => h x (List.mem_cons_of_mem e hx)) _

theorem ordOK_mono (isS isC : Ev → Bool) (l : List Ev) (b : Bool)
    (h : ordOK isS isC false l = true) : ordOK isS isC b l = true := by
  cases b
  · exact h
  · exact ordOK_true isS isC l

theorem ordOK_split (isS isC : Ev → Bool) :
    ∀ l1 : List Ev, ∀ b : Bool, ∀ e : Ev, ∀ l2 : List Ev,
      ordOK isS isC b (l1 ++ e :: l2) = true → isC e = true →
      b = true ∨ ∃ x ∈ l1, isS x = true := by
  intro l1
  induction l1 with
  | nil =>
    intro b e l2 h hc
    simp only [List.nil_append, ordOK, Bool.and_eq_true] at h
    left
    rcases h with ⟨h1, _⟩
    rw [hc] at h1
    simpa using h1
  | cons x rest ih =>
    intro b e l2 h hc
    simp only [List.cons_append, ordOK, Bool.and_eq_true] at h
    rcases h with ⟨_, h2⟩
    rcases ih (b || isS x) e l2 h2 hc with h3 | h3
    · have h3b : b = true ∨ isS x = true := by simpa using h3
      rcases h3b with h4 | h4
      · exact Or.inl h4
      · exact Or.inr ⟨x, List.mem_cons_self x rest, h4⟩
    · rcases h3 with ⟨y, hy, hys⟩
      exact Or.inr ⟨y, List.mem_cons_of_mem x hy, hys⟩

end AgStream

namespace AgStream

/-- TEXT_MESSAGE_START events of message id m. -/
def isTextStartOf (m : Nat) : Ev → Bool
  | Ev.textStart m2 => m2 == m
  | _ => false

/-- TEXT_MESSAGE_CONTENT events of message id m. -/
def isTextContentOf (m : Nat) : Ev → Bool
  | Ev.textContent m2 _ => m2 == m
  | _ => false

/-- The THINKING_TEXT_MESSAGE_START event. -/
def isTTStart : Ev → Bool
  | Ev.ttStart => true
  | _ => false

/-- The THINKING_START event. -/
def isThinkStart : Ev → Bool
  | Ev.thinkingStart => true
  | _ => false

/-- THINKING_TEXT_MESSAGE_CONTENT events. -/
def isTTContent : Ev → Bool
  | Ev.ttContent _ => true
  | _ => false

/-- TOOL_CALL_START events of call id i. -/
def isToolStartOf (i : String) : Ev → Bool
  | Ev.toolStart i2 _ _ => i2 == i
  | _ => false

/-- TOOL_CALL_ARGS events of call id i. -/
def isToolArgsOf (i : String) : Ev → Bool
  | Ev.toolArgs i2 _ => i2 == i
  | _ => false

theorem toolEv_ord_facts (mid : Nat) (e : Ev) (h : toolEv mid e = true) (m : Nat) :
    isTextStartOf m e = false ∧ isTextContentOf m e = false ∧ isTTStart e = false ∧
    isThinkStart e = false ∧ isTTContent e = false := by
  cases e <;>
    simp_all [toolEv, isTextStartOf, isTextContentOf, isTTStart, isThinkStart,
      isTTContent]

theorem contentEv_ord_facts (mid : Nat) (e : Ev) (h : contentEv mid e = true)
    (i : String) :
    isToolStartOf i e = false ∧ isToolArgsOf i e = false := by
  cases e <;> simp_all [contentEv, isToolStartOf, isToolArgsOf]

theorem contentEv_other_text (mid m : Nat) (hne : m ≠ mid) (e : Ev)
    (h : contentEv mid e = true) :
    isTextStartOf m e = false ∧ isTextContentOf m e = false := by
  cases e <;> simp_all [contentEv, isTextStartOf, isTextContentOf] <;> omega

theorem contEv_ord_facts (nid : Nat) (e : Ev) (h : contEv nid e = true)
    (i : String) :
    isTTStart e = false ∧ isThinkStart e = false ∧ isTTContent e = false ∧
    isToolStartOf i e = false ∧ isToolArgsOf i e = false := by
  cases e <;>
    simp_all [contEv, isTTStart, isThinkStart, isTTContent, isToolStartOf,
      isToolArgsOf]

theorem contEv_other_text (nid m : Nat) (hne : m ≠ nid) (e : Ev)
    (h : contEv nid e = true) :
    isTextStartOf m e = false ∧ isTextContentOf m e = false := by
  cases e <;> simp_all [contEv, isTextStartOf, isTextContentOf] <;> omega

end AgStream

namespace AgStream

theorem emitPlain_ord (mid : Nat) (st : DemSt) (txt : List Char) (bT : Bool)
    (hT : st.hasStartedText = true → bT = true) :
    ordOK (isTextStartOf mid) (isTextContentOf mid) bT (emitPlain mid st txt).2 =
      true ∧
    ((emitPlain mid st txt).1.hasStartedText = true →
      seenFold (isTextStartOf mid) bT (emitPlain mid st txt).2 = true) := by
  by_cases h1 : hasNonWs txt
  · by_cases h2 : st.hasStartedText
    · have hb := hT h2
      subst hb
      constructor
      · simp [emitPlain, h1, h2, ordOK, isTextContentOf, isTextStartOf]
      · intro _
        simp [emitPlain, h1, h2, seenFold]
    · constructor
      · simp [emitPlain, h1, h2, ordOK, isTextContentOf, isTextStartOf, seenFold]
      · intro _
        simp [emitPlain, h1, h2, seenFold, isTextStartOf]
  · constructor
    · simp [emitPlain, h1, ordOK]
    · intro hf
      have hst : st.hasStartedText = true := by simpa [emitPlain, h1] using hf
      simp [emitPlain, h1, seenFold, hT hst]

theorem emitPlain_no_think (mid : Nat) (st : DemSt) (txt : List Char) :
    ∀ e ∈ (emitPlain mid st txt).2, isTTContent e = false ∧ isTTStart e = false ∧
      isThinkStart e = false := by
  intro e he
  unfold emitPlain at he
  split at he
  · split at he
    · simp at he
      subst he
      simp [isTTContent, isTTStart, isThinkStart]
    · simp at he
      rcases he with h | h <;> subst h <;> simp [isTTContent, isTTStart, isThinkStart]
  · simp at he

theorem startThinking_ord (st : DemSt) (bH : Bool)
    (hH : st.hasStartedThinking = true → bH = true) :
    ordOK isTTStart isTTContent bH (startThinking st).2 = true ∧
    ordOK isThinkStart isTTContent bH (startThinking st).2 = true ∧
    ((startThinking st).1.hasStartedThinking = true →
      seenFold isTTStart bH (startThinking st).2 = true) ∧
    ((startThinking st).1.hasStartedThinking = true →
      seenFold isThinkStart bH (startThinking st).2 = true) := by
  by_cases h : st.hasStartedThinking
  · refine ⟨?_, ?_, ?_, ?_⟩ <;> simp [startThinking, h, ordOK, seenFold, hH h]
  · refine ⟨?_, ?_, ?_, ?_⟩ <;>
      simp [startThinking, h, ordOK, seenFold, isTTStart, isThinkStart, isTTContent]

theorem startThinking_no_text (m : Nat) (st : DemSt) :
    ∀ e ∈ (startThinking st).2, isTextContentOf m e = false ∧
      isTextStartOf m e = false := by
  intro e he
  unfold startThinking at he
  split at he
  · simp at he
  · simp at he
    rcases he with h | h <;> subst h <;> simp [isTextContentOf, isTextStartOf]

end AgStream

namespace AgStream

theorem emitPlain_hasStartedThinking (mid : Nat) (st : DemSt) (txt : List Char) :
    (emitPlain mid st txt).1.hasStartedThinking = st.hasStartedThinking := by
  unfold emitPlain
  split <;> [skip; rfl]
  split <;> rfl

theorem startThinking_hasStartedText (st : DemSt) :
    (startThinking st).1.hasStartedText = st.hasStartedText := by
  unfold startThinking
  split <;> rfl

theorem startThinking_isInThinking (st : DemSt) :
    (startThinking st).1.isInThinking = st.isInThinking := by
  unfold startThinking
  split <;> rfl

theorem startThinking_hst (st : DemSt) :
    (startThinking st).1.hasStartedThinking = true := by
  unfold startThinking
  split
  · rename_i h
    simpa using h
  · rfl

end AgStream

namespace AgStream

theorem processBuffer_ord (mid : Nat) :
    ∀ n : Nat, ∀ st : DemSt, st.buffer.length ≤ n →
      ∀ bT bH1 bH2 : Bool,
      (st.hasStartedText = true → bT = true) →
      (st.hasStartedThinking = true → bH1 = true) →
      (st.hasStartedThinking = true → bH2 = true) →
      (st.isInThinking = true → st.hasStartedThinking = true) →
      ordOK (isTextStartOf mid) (isTextContentOf mid) bT
        (processBuffer mid st).2 = true ∧
      ((processBuffer mid st).1.hasStartedText = true →
        seenFold (isTextStartOf mid) bT (processBuffer mid st).2 = true) ∧
      ordOK isTTStart isTTContent bH1 (processBuffer mid st).2 = true ∧
      ordOK isThinkStart isTTContent bH2 (processBuffer mid st).2 = true ∧
      ((processBuffer mid st).1.hasStartedThinking = true →
        seenFold isTTStart bH1 (processBuffer mid st).2 = true) ∧
      ((processBuffer mid st).1.hasStartedThinking = true →
        seenFold isThinkStart bH2 (processBuffer mid st).2 = true) ∧
      ((processBuffer mid st).1.isInThinking = true →
        (processBuffer mid st).1.hasStartedThinking = true) := by
  intro n
  induction n with
  | zero =>
    intro st hl bT bH1 bH2 hT hH1 hH2 hInv
    have hnil : st.buffer = [] := by
      cases hb : st.buffer with
      | nil => rfl
      | cons a r => rw [hb] at hl; simp at hl
    have hA : processBuffer mid st = ({ st with buffer := [] }, []) := by
      rw [processBuffer_eq]
      by_cases hth : st.isInThinking = false
      · simp [processBufferStep, hth, hnil, splitFirst, holdBack, emitPlain, hasNonWs]
      · have hth2 : st.isInThinking = true := by
          revert hth; cases st.isInThinking <;> simp
        simp [processBufferStep, hth2, hnil, splitFirst, holdBack, hasNonWs]
    rw [hA]
    exact ⟨rfl, hT, rfl, rfl, hH1, hH2, hInv⟩
  | succ k ih =>
    intro st hl bT bH1 bH2 hT hH1 hH2 hInv
    by_cases hth : st.isInThinking = false
    · cases hsp : splitFirst openTag st.buffer with
      | none =>
        by_cases hhold : holdBack st.buffer
        · have hA : processBuffer mid st = (st, []) := by
            rw [processBuffer_eq]
            simp [processBufferStep, hth, hsp, hhold]
          rw [hA]
          exact ⟨rfl, hT, rfl, rfl, hH1, hH2, hInv⟩
        · have hA : processBuffer mid st =
              ({ (emitPlain mid st st.buffer).1 with buffer := [] },
               (emitPlain mid st st.buffer).2) := by
            rw [processBuffer_eq]
            simp [processBufferStep, hth, hsp, hhold]
          rw [hA]
          have hE := emitPlain_ord mid st st.buffer bT hT
          have hEnt := emitPlain_no_think mid st st.buffer
          refine ⟨hE.1, hE.2, ?_, ?_, ?_, ?_, ?_⟩
          · exact ordOK_no_content _ _ _ (fun e he => (hEnt e he).1) bH1
          · exact ordOK_no_content _ _ _ (fun e he => (hEnt e he).1) bH2
          · intro h
            have hstt : st.hasStartedThinking = true := by
              have h2 : (emitPlain mid st st.buffer).1.hasStartedThinking = true := h
              rw [emitPlain_hasStartedThinking] at h2
              exact h2
            rw [hH1 hstt]
            exact seenFold_true _ _
          · intro h
            have hstt : st.hasStartedThinking = true := by
              have h2 : (emitPlain mid st st.buffer).1.hasStartedThinking = true := h
              rw [emitPlain_hasStartedThinking] at h2
              exact h2
            rw [hH2 hstt]
            exact seenFold_true _ _
          · intro h
            have hin : st.isInThinking = true := by
              have h2 : (emitPlain mid st st.buffer).1.isInThinking = true := h
              rw [emitPlain_isInThinking] at h2
              exact h2
            show (emitPlain mid st st.buffer).1.hasStartedThinking = true
            rw [emitPlain_hasStartedThinking]
            exact hInv hin
      | some pr =>
        obtain ⟨before, after⟩ := pr
        have hlt := splitFirst_suf_length openTag st.buffer before after openTag_ne_nil hsp
        have hA := processBuffer_eq mid st
        simp only [processBufferStep, hth, if_pos, hsp] at hA
        have hRbuf : (startThinking { (emitPlain mid st before).1 with
            isInThinking := true
            buffer := after
            openedSections := (emitPlain mid st before).1.openedSections + 1 }).1.buffer =
            after := by
          rw [startThinking_buffer]
        have hE := emitPlain_ord mid st before bT hT
        have hEnt := emitPlain_no_think mid st before
        have hST2h : ({ (emitPlain mid st before).1 with
            isInThinking := true
            buffer := after
            openedSections := (emitPlain mid st before).1.openedSections + 1 } :
            DemSt).hasStartedThinking = st.hasStartedThinking := by
          show (emitPlain mid st before).1.hasStartedThinking = st.hasStartedThinking
          exact emitPlain_hasStartedThinking mid st before
        have hS1 := startThinking_ord { (emitPlain mid st before).1 with
            isInThinking := true
            buffer := after
            openedSections := (emitPlain mid st before).1.openedSections + 1 } bH1
          (by rw [hST2h]; exact hH1)
        have hS2 := startThinking_ord { (emitPlain mid st before).1 with
            isInThinking := true
            buffer := after
            openedSections := (emitPlain mid st before).1.openedSections + 1 } bH2
          (by rw [hST2h]; exact hH2)
        have hSnt := startThinking_no_text mid { (emitPlain mid st before).1 with
            isInThinking := true
            buffer := after
            openedSections := (emitPlain mid st before).1.openedSections + 1 }
        have hRhst := startThinking_hst { (emitPlain mid st before).1 with
            isInThinking := true
            buffer := after
            openedSections := (emitPlain mid st before).1.openedSections + 1 }
        have hlinkT : (startThinking { (emitPlain mid st before).1 with
            isInThinking := true
            buffer := after
            openedSections := (emitPlain mid st before).1.openedSections + 1 }).1.hasStartedText =
            true →
            seenFold (isTextStartOf mid) bT ((emitPlain mid st before).2 ++
              (startThinking { (emitPlain mid st before).1 with
                isInThinking := true
                buffer := after
                openedSections := (emitPlain mid st before).1.openedSections + 1 }).2) =
            true := by
          intro h
          rw [startThinking_hasStartedText] at h
          have h2 : (emitPlain mid st before).1.hasStartedText = true := h
          rw [seenFold_append, hE.2 h2]
          exact seenFold_true _ _
        have hlinkH1 : (startThinking { (emitPlain mid st before).1 with
            isInThinking := true
            buffer := after
            openedSections := (emitPlain mid st before).1.openedSections + 1 }).1.hasStartedThinking =
            true →
            seenFold isTTStart bH1 ((emitPlain mid st before).2 ++
              (startThinking { (emitPlain mid st before).1 with
                isInThinking := true
                buffer := after
                openedSections := (emitPlain mid st before).1.openedSections + 1 }).2) =
            true := by
          intro h
          rw [seenFold_append,
            seenFold_none isTTStart _ (fun e he => (hEnt e he).2.1) bH1]
          exact hS1.2.2.1 h
        have hlinkH2 : (startThinking { (emitPlain mid st before).1 with
            isInThinking := true
            buffer := after
            openedSections := (emitPlain mid st before).1.openedSections + 1 }).1.hasStartedThinking =
            true →
            seenFold isThinkStart bH2 ((emitPlain mid st before).2 ++
              (startThinking { (emitPlain mid st before).1 with
                isInThinking := true
                buffer := after
                openedSections := (emitPlain mid st before).1.openedSections + 1 }).2) =
            true := by
          intro h
          rw [seenFold_append,
            seenFold_none isThinkStart _ (fun e he => (hEnt e he).2.2) bH2]
          exact hS2.2.2.2 h
        have hI := ih (startThinking { (emitPlain mid st before).1 with
            isInThinking := true
            buffer := after
            openedSections := (emitPlain mid st before).1.openedSections + 1 }).1
          (by rw [hRbuf]; omega)
          (seenFold (isTextStartOf mid) bT ((emitPlain mid st before).2 ++
            (startThinking { (emitPlain mid st before).1 with
              isInThinking := true
              buffer := after
              openedSections := (emitPlain mid st before).1.openedSections + 1 }).2))
          (seenFold isTTStart bH1 ((emitPlain mid st before).2 ++
            (startThinking { (emitPlain mid st before).1 with
              isInThinking := true
              buffer := after
              openedSections := (emitPlain mid st before).1.openedSections + 1 }).2))
          (seenFold isThinkStart bH2 ((emitPlain mid st before).2 ++
            (startThinking { (emitPlain mid st before).1 with
              isInThinking := true
              buffer := after
              openedSections := (emitPlain mid st before).1.openedSections + 1 }).2))
          hlinkT hlinkH1 hlinkH2 (fun _ => hRhst)
        obtain ⟨hI1, hI2, hI3, hI4, hI5, hI6, hI7⟩ := hI
        rw [hA]
        refine ⟨?_, ?_, ?_, ?_, ?_, ?_, hI7⟩
        · rw [ordOK_append, ordOK_append]
          simp only [Bool.and_eq_true]
          exact ⟨⟨hE.1, ordOK_no_content _ _ _ (fun e he => (hSnt e he).1) _⟩, hI1⟩
        · intro h
          rw [seenFold_append]
          exact hI2 h
        · rw [ordOK_append, ordOK_append,
            seenFold_none isTTStart _ (fun e he => (hEnt e he).2.1) bH1]
          simp only [Bool.and_eq_true]
          exact ⟨⟨ordOK_no_content _ _ _ (fun e he => (hEnt e he).1) bH1, hS1.1⟩, hI3⟩
        · rw [ordOK_append, ordOK_append,
            seenFold_none isThinkStart _ (fun e he => (hEnt e he).2.2) bH2]
          simp only [Bool.and_eq_true]
          exact ⟨⟨ordOK_no_content _ _ _ (fun e he => (hEnt e he).1) bH2, hS2.2.1⟩, hI4⟩
        · intro h
          rw [seenFold_append]
          exact hI5 h
        · intro h
          rw [seenFold_append]
          exact hI6 h
    · have hth2 : st.isInThinking = true := by
        revert hth; cases st.isInThinking <;> simp
      have hstt : st.hasStartedThinking = true := hInv hth2
      have hbH1 : bH1 = true := hH1 hstt
      have hbH2 : bH2 = true := hH2 hstt
      cases hsp : splitFirst closeTag st.buffer with
      | none =>
        by_cases hhold : holdBack st.buffer
        · have hA : processBuffer mid st = (st, []) := by
            rw [processBuffer_eq]
            simp [processBufferStep, hth2, hsp, hhold]
          rw [hA]
          exact ⟨rfl, hT, rfl, rfl, hH1, hH2, hInv⟩
        · have hA : processBuffer mid st =
              ({ st with buffer := [] },
               if hasNonWs st.buffer then [Ev.ttContent st.buffer] else []) := by
            rw [processBuffer_eq]
            simp [processBufferStep, hth2, hsp, hhold]
          rw [hA]
          refine ⟨?_, ?_, ?_, ?_, ?_, ?_, ?_⟩
          · apply ordOK_no_content
            intro e he
            by_cases htc : hasNonWs st.buffer
            · simp [htc] at he
              subst he
              simp [isTextContentOf]
            · simp [htc] at he
          · intro h
            have hb : bT = true := hT h
            rw [hb]
            exact seenFold_true _ _
          · rw [hbH1]
            exact ordOK_true _ _ _
          · rw [hbH2]
            exact ordOK_true _ _ _
          · intro _
            rw [hbH1]
            exact seenFold_true _ _
          · intro _
            rw [hbH2]
            exact seenFold_true _ _
          · intro _
            exact hstt
      | some pr =>
        obtain ⟨tc, after⟩ := pr
        have hlt := splitFirst_suf_length closeTag st.buffer tc after closeTag_ne_nil hsp
        have hA := processBuffer_eq mid st
        simp only [processBufferStep, hth2, hsp,
          if_neg (show ¬ ((true : Bool) = false) by decide)] at hA
        have hE0nt : ∀ e ∈ ((if hasNonWs tc then [Ev.ttContent tc] else []) ++
            [Ev.ttEnd, Ev.thinkingEnd]),
            isTextContentOf mid e = false ∧ isTextStartOf mid e = false := by
          intro e he
          by_cases htc : hasNonWs tc
          · simp [htc] at he
            rcases he with h | h | h <;> subst h <;>
              simp [isTextContentOf, isTextStartOf]
          · simp [htc] at he
            rcases he with h | h <;> subst h <;>
              simp [isTextContentOf, isTextStartOf]
        have hI := ih ({ st with
            isInThinking := false
            buffer := after
            closedSections := st.closedSections + 1 } : DemSt)
          (by show after.length ≤ k; omega)
          (seenFold (isTextStartOf mid) bT ((if hasNonWs tc then [Ev.ttContent tc]
            else []) ++ [Ev.ttEnd, Ev.thinkingEnd]))
          true true
          (by intro h
              have hb : bT = true := hT h
              rw [hb]
              exact seenFold_true _ _)
          (fun _ => rfl) (fun _ => rfl)
          (by intro h
              have hfalse : (false : Bool) = true := h
              simp at hfalse)
        obtain ⟨hI1, hI2, hI3, hI4, hI5, hI6, hI7⟩ := hI
        rw [hA]
        refine ⟨?_, ?_, ?_, ?_, ?_, ?_, hI7⟩
        · rw [ordOK_append]
          simp only [Bool.and_eq_true]
          exact ⟨ordOK_no_content _ _ _ (fun e he => (hE0nt e he).1) _, hI1⟩
        · intro h
          rw [seenFold_append]
          exact hI2 h
        · rw [hbH1]
          exact ordOK_true _ _ _
        · rw [hbH2]
          exact ordOK_true _ _ _
        · intro _
          rw [hbH1]
          exact seenFold_true _ _
        · intro _
          rw [hbH2]
          exact seenFold_true _ _

end AgStream

namespace AgStream

theorem feedContent_ord (mid : Nat) (st : DemSt) (frag : List Char)
    (bT bH1 bH2 : Bool)
    (hT : st.hasStartedText = true → bT = true)
    (hH1 : st.hasStartedThinking = true → bH1 = true)
    (hH2 : st.hasStartedThinking = true → bH2 = true)
    (hInv : st.isInThinking = true → st.hasStartedThinking = true) :
    ordOK (isTextStartOf mid) (isTextContentOf mid) bT
      (feedContent mid st frag).2 = true ∧
    ((feedContent mid st frag).1.hasStartedText = true →
      seenFold (isTextStartOf mid) bT (feedContent mid st frag).2 = true) ∧
    ordOK isTTStart isTTContent bH1 (feedContent mid st frag).2 = true ∧
    ordOK isThinkStart isTTContent bH2 (feedContent mid st frag).2 = true ∧
    ((feedContent mid st frag).1.hasStartedThinking = true →
      seenFold isTTStart bH1 (feedContent mid st frag).2 = true) ∧
    ((feedContent mid st frag).1.hasStartedThinking = true →
      seenFold isThinkStart bH2 (feedContent mid st frag).2 = true) ∧
    ((feedContent mid st frag).1.isInThinking = true →
      (feedContent mid st frag).1.hasStartedThinking = true) := by
  unfold feedContent
  split
  · exact ⟨rfl, hT, rfl, rfl, hH1, hH2, hInv⟩
  · exact processBuffer_ord mid _ _ (Nat.le_refl _) bT bH1 bH2 hT hH1 hH2 hInv

theorem processToolDelta_ord (exec : Exec) (mid : Nat) (ts : ToolSt)
    (tc : ToolDelta) (i : String) (b : Bool)
    (hlink : ts.curId = some i → b = true) :
    ordOK (isToolStartOf i) (isToolArgsOf i) b
      (processToolDelta exec mid ts tc).2.1 = true ∧
    ((processToolDelta exec mid ts tc).1.curId = some i →
      seenFold (isToolStartOf i) b (processToolDelta exec mid ts tc).2.1 = true) := by
  by_cases hid : tc.id = ""
  · by_cases hargs : tc.args = ""
    · constructor
      · simp [processToolDelta, hid, hargs, ordOK]
      · intro h
        have h2 : ts.curId = some i := by
          simpa [processToolDelta, hid, hargs] using h
        rw [hlink h2]
        exact seenFold_true _ _
    · cases hcur : ts.curId with
      | some cid =>
        by_cases hci : cid = i
        · have hb : b = true := hlink (by rw [hcur, hci])
          subst hb
          constructor
          · exact ordOK_true _ _ _
          · intro _
            exact seenFold_true _ _
        · constructor
          · simp [processToolDelta, hid, hargs, hcur, ordOK, isToolArgsOf,
              isToolStartOf, beq_iff_eq, hci]
          · intro h
            have hcid : cid = i := by
              simp [processToolDelta, hid, hargs, hcur] at h
              exact h
            exact absurd hcid hci
      | none =>
        constructor
        · simp [processToolDelta, hid, hargs, hcur, ordOK]
        · intro h
          simp [processToolDelta, hid, hargs, hcur] at h
  · cases hcur : ts.curId with
    | none =>
      by_cases hti : tc.id = i
      · subst hti
        constructor
        · by_cases hargs : tc.args = "" <;>
            simp [processToolDelta, hid, hargs, hcur, ordOK, isToolArgsOf,
              isToolStartOf]
        · intro _
          by_cases hargs : tc.args = "" <;>
            simp [processToolDelta, hid, hargs, hcur, seenFold, isToolStartOf,
              seenFold_true]
      · constructor
        · by_cases hargs : tc.args = "" <;>
            simp [processToolDelta, hid, hargs, hcur, ordOK, isToolArgsOf,
              isToolStartOf, beq_iff_eq, hti]
        · intro h
          have hcid : tc.id = i := by
            by_cases hargs : tc.args = "" <;>
              simp [processToolDelta, hid, hargs, hcur] at h <;>
              exact h
          exact absurd hcid hti
    | some cid =>
      cases hexec : exec ts.curName ts.curArgs with
      | error e =>
        constructor
        · simp [processToolDelta, hid, hcur, hexec, ordOK]
        · intro h
          have h2 : ts.curId = some i := by
            have h3 : cid = i := by
              simp [processToolDelta, hid, hcur, hexec] at h
              exact h
            rw [hcur, h3]
          rw [hlink h2]
          exact seenFold_true _ _
      | ok res =>
        by_cases hti : tc.id = i
        · subst hti
          constructor
          · by_cases hargs : tc.args = "" <;>
              simp [processToolDelta, hid, hargs, hcur, hexec, ordOK, isToolArgsOf,
                isToolStartOf]
          · intro _
            by_cases hargs : tc.args = "" <;>
              simp [processToolDelta, hid, hargs, hcur, hexec, seenFold,
                isToolStartOf, seenFold_true]
        · constructor
          · by_cases hargs : tc.args = "" <;>
              simp [processToolDelta, hid, hargs, hcur, hexec, ordOK, isToolArgsOf,
                isToolStartOf, beq_iff_eq, hti]
          · intro h
            have hcid : tc.id = i := by
              by_cases hargs : tc.args = "" <;>
                simp [processToolDelta, hid, hargs, hcur, hexec] at h <;>
                exact h
            exact absurd hcid hti

theorem processToolDeltas_ord (exec : Exec) (mid : Nat) (i : String) :
    ∀ tds : List ToolDelta, ∀ ts : ToolSt, ∀ b : Bool,
      (ts.curId = some i → b = true) →
      ordOK (isToolStartOf i) (isToolArgsOf i) b
        (processToolDeltas exec mid ts tds).2.1 = true ∧
      ((processToolDeltas exec mid ts tds).1.curId = some i →
        seenFold (isToolStartOf i) b (processToolDeltas exec mid ts tds).2.1 =
          true) := by
  intro tds
  induction tds with
  | nil =>
    intro ts b hlink
    constructor
    · rfl
    · intro h
      rw [hlink h]
      exact seenFold_true _ _
  | cons tc rest ih =>
    intro ts b hlink
    have h1 := processToolDelta_ord exec mid ts tc i b hlink
    simp only [processToolDeltas]
    cases hr : (processToolDelta exec mid ts tc).2.2 with
    | some e =>
      simp only []
      exact h1
    | none =>
      simp only []
      have h2 := ih (processToolDelta exec mid ts tc).1
        (seenFold (isToolStartOf i) b (processToolDelta exec mid ts tc).2.1)
        h1.2
      constructor
      · rw [ordOK_append]
        simp only [Bool.and_eq_true]
        exact ⟨h1.1, h2.1⟩
      · intro h
        rw [seenFold_append]
        exact h2.2 h

end AgStream

namespace AgStream

theorem contLoop_ord (nid : Nat) :
    ∀ chs : List Chunk, ∀ started b : Bool,
      (started = true → b = true) →
      ordOK (isTextStartOf nid) (isTextContentOf nid) b
        (contLoop nid started chs).2 = true ∧
      ((contLoop nid started chs).1 = true →
        seenFold (isTextStartOf nid) b (contLoop nid started chs).2 = true) := by
  intro chs
  induction chs with
  | nil =>
    intro started b hlink
    constructor
    · rfl
    · intro h
      rw [hlink h]
      exact seenFold_true _ _
  | cons ch rest ih =>
    intro started b hlink
    cases hstart : started with
    | true =>
      have hb := hlink hstart
      subst hb
      constructor
      · exact ordOK_true _ _ _
      · intro _
        exact seenFold_true _ _
    | false =>
      by_cases hc : ch.content = []
      · have hsh : contLoop nid false (ch :: rest) = contLoop nid false rest := by
          by_cases hf : ch.finishReason = "" <;> simp [contLoop, hc, hf]
        rw [hsh]
        exact ih false b (by intro h; simp at h)
      · by_cases hf : ch.finishReason = ""
        · have hsh : contLoop nid false (ch :: rest) =
              ((contLoop nid true rest).1,
               Ev.textStart nid :: Ev.textContent nid ch.content ::
                 (contLoop nid true rest).2) := by
            simp [contLoop, hc, hf]
          rw [hsh]
          have hrest := ih true true (fun _ => rfl)
          constructor
          · simp [ordOK, isTextStartOf, isTextContentOf, hrest.1,
              ordOK_true]
          · intro _
            simp [seenFold, isTextStartOf, seenFold_true]
        · have hsh : contLoop nid false (ch :: rest) =
              ((contLoop nid true rest).1,
               Ev.textStart nid :: Ev.textContent nid ch.content ::
                 Ev.textEnd nid :: (contLoop nid true rest).2) := by
            simp [contLoop, hc, hf]
          rw [hsh]
          constructor
          · simp [ordOK, isTextStartOf, isTextContentOf, ordOK_true]
          · intro _
            simp [seenFold, isTextStartOf, seenFold_true]

theorem processFinish_evs_split (exec : Exec) (mid nid : Nat) (cont : List Chunk)
    (cErr : Option String) (dem : DemSt) (ts : ToolSt) (reason : String) :
    ∃ pre : List Ev,
      (∀ e ∈ pre, (∃ c r, e = Ev.toolEnd c r) ∨ e = Ev.textEnd mid) ∧
      ((processFinish exec mid nid cont cErr dem ts reason).evs = pre ∨
       (processFinish exec mid nid cont cErr dem ts reason).evs =
         pre ++ (contLoop nid false cont).2) := by
  cases hcur : ts.curId with
  | none =>
    by_cases hst : dem.hasStartedText
    · refine ⟨[Ev.textEnd mid], ?_, Or.inl ?_⟩
      · intro e he
        simp at he
        subst he
        exact Or.inr rfl
      · by_cases hr2 : reason = "tool_calls" <;>
          simp [processFinish, hcur, processFinish2, hst, hr2]
    · refine ⟨[], ?_, Or.inl ?_⟩
      · intro e he
        simp at he
      · by_cases hr2 : reason = "tool_calls" <;>
          simp [processFinish, hcur, processFinish2, hst, hr2]
  | some cid =>
    cases hexec : exec ts.curName ts.curArgs with
    | error e =>
      refine ⟨[], ?_, Or.inl ?_⟩
      · intro e he
        simp at he
      · simp [processFinish, hcur, hexec]
    | ok res =>
      by_cases hr2 : reason = "tool_calls"
      · by_cases hst : dem.hasStartedText
        · refine ⟨[Ev.toolEnd cid res, Ev.textEnd mid], ?_, Or.inr ?_⟩
          · intro e he
            simp at he
            rcases he with h | h
            · exact Or.inl ⟨cid, res, h⟩
            · exact Or.inr h
          · simp [processFinish, hcur, hexec, processFinish2, hst, hr2]
        · refine ⟨[Ev.toolEnd cid res], ?_, Or.inr ?_⟩
          · intro e he
            simp at he
            exact Or.inl ⟨cid, res, he⟩
          · simp [processFinish, hcur, hexec, processFinish2, hst, hr2]
      · by_cases hst : dem.hasStartedText
        · refine ⟨[Ev.toolEnd cid res, Ev.textEnd mid], ?_, Or.inl ?_⟩
          · intro e he
            simp at he
            rcases he with h | h
            · exact Or.inl ⟨cid, res, h⟩
            · exact Or.inr h
          · simp [processFinish, hcur, hexec, processFinish2, hst, hr2]
        · refine ⟨[Ev.toolEnd cid res], ?_, Or.inl ?_⟩
          · intro e he
            simp at he
            exact Or.inl ⟨cid, res, he⟩
          · simp [processFinish, hcur, hexec, processFinish2, hst, hr2]

end AgStream

namespace AgStream

theorem processFinish_ts (exec : Exec) (mid nid : Nat) (cont : List Chunk)
    (cErr : Option String) (dem : DemSt) (ts : ToolSt) (reason : String) :
    (processFinish exec mid nid cont cErr dem ts reason).ts = ts := by
  cases hcur : ts.curId with
  | none =>
    by_cases hr2 : reason = "tool_calls" <;> by_cases hst : dem.hasStartedText <;>
      simp [processFinish, hcur, processFinish2, hr2, hst]
  | some cid =>
    cases hexec : exec ts.curName ts.curArgs with
    | error e => simp [processFinish, hcur, hexec]
    | ok res =>
      by_cases hr2 : reason = "tool_calls" <;> by_cases hst : dem.hasStartedText <;>
        simp [processFinish, hcur, hexec, processFinish2, hr2, hst]

theorem processFinish_nextId (exec : Exec) (mid nid : Nat) (cont : List Chunk)
    (cErr : Option String) (dem : DemSt) (ts : ToolSt) (reason : String) :
    (processFinish exec mid nid cont cErr dem ts reason).nextId = nid ∨
    (processFinish exec mid nid cont cErr dem ts reason).nextId = nid + 1 := by
  cases hcur : ts.curId with
  | none =>
    by_cases hr2 : reason = "tool_calls" <;> by_cases hst : dem.hasStartedText <;>
      simp [processFinish, hcur, processFinish2, hr2, hst]
  | some cid =>
    cases hexec : exec ts.curName ts.curArgs with
    | error e => simp [processFinish, hcur, hexec]
    | ok res =>
      by_cases hr2 : reason = "tool_calls" <;> by_cases hst : dem.hasStartedText <;>
        simp [processFinish, hcur, hexec, processFinish2, hr2, hst]

theorem processFinish_ord_facts (exec : Exec) (mid nid : Nat) (cont : List Chunk)
    (cErr : Option String) (dem : DemSt) (ts : ToolSt) (reason : String)
    (hne : nid ≠ mid) (i : String) :
    (∀ b, ordOK (isTextStartOf mid) (isTextContentOf mid) b
      (processFinish exec mid nid cont cErr dem ts reason).evs = true) ∧
    (∀ b, ordOK isTTStart isTTContent b
      (processFinish exec mid nid cont cErr dem ts reason).evs = true) ∧
    (∀ b, ordOK isThinkStart isTTContent b
      (processFinish exec mid nid cont cErr dem ts reason).evs = true) ∧
    (∀ b, ordOK (isToolStartOf i) (isToolArgsOf i) b
      (processFinish exec mid nid cont cErr dem ts reason).evs = true) ∧
    (∀ m, m ≠ mid → ∀ b, ordOK (isTextStartOf m) (isTextContentOf m) b
      (processFinish exec mid nid cont cErr dem ts reason).evs = true) := by
  obtain ⟨pre, hpre, hcase⟩ :=
    processFinish_evs_split exec mid nid cont cErr dem ts reason
  have hpreflat : ∀ e ∈ pre, ∀ m2 : Nat, isTextContentOf m2 e = false ∧
      isTTContent e = false ∧ isToolArgsOf i e = false ∧
      isTextStartOf m2 e = false := by
    intro e he m2
    rcases hpre e he with ⟨c, r, hE⟩ | hE <;> subst hE <;>
      simp [isTextContentOf, isTTContent, isToolArgsOf, isTextStartOf]
  have hcont := contLoop_events nid cont false
  refine ⟨?_, ?_, ?_, ?_, ?_⟩
  · intro b
    rcases hcase with h | h
    · rw [h]
      exact ordOK_no_content _ _ _ (fun e he => (hpreflat e he mid).1) b
    · rw [h, ordOK_append]
      simp only [Bool.and_eq_true]
      refine ⟨ordOK_no_content _ _ _ (fun e he => (hpreflat e he mid).1) b, ?_⟩
      exact ordOK_no_content _ _ _
        (fun e he => (contEv_other_text nid mid (Ne.symm hne) e (hcont e he)).2) _
  · intro b
    rcases hcase with h | h
    · rw [h]
      exact ordOK_no_content _ _ _ (fun e he => (hpreflat e he mid).2.1) b
    · rw [h, ordOK_append]
      simp only [Bool.and_eq_true]
      refine ⟨ordOK_no_content _ _ _ (fun e he => (hpreflat e he mid).2.1) b, ?_⟩
      exact ordOK_no_content _ _ _
        (fun e he => (contEv_ord_facts nid e (hcont e he) i).2.2.1) _
  · intro b
    rcases hcase with h | h
    · rw [h]
      exact ordOK_no_content _ _ _ (fun e he => (hpreflat e he mid).2.1) b
    · rw [h, ordOK_append]
      simp only [Bool.and_eq_true]
      refine ⟨ordOK_no_content _ _ _ (fun e he => (hpreflat e he mid).2.1) b, ?_⟩
      exact ordOK_no_content _ _ _
        (fun e he => (contEv_ord_facts nid e (hcont e he) i).2.2.1) _
  · intro b
    rcases hcase with h | h
    · rw [h]
      exact ordOK_no_content _ _ _ (fun e he => (hpreflat e he mid).2.2.1) b
    · rw [h, ordOK_append]
      simp only [Bool.and_eq_true]
      refine ⟨ordOK_no_content _ _ _ (fun e he => (hpreflat e he mid).2.2.1) b, ?_⟩
      exact ordOK_no_content _ _ _
        (fun e he => (contEv_ord_facts nid e (hcont e he) i).2.2.2.2) _
  · intro m hm b
    apply ordOK_mono
    rcases hcase with h | h
    · rw [h]
      exact ordOK_no_content _ _ _ (fun e he => (hpreflat e he m).1) false
    · rw [h, ordOK_append]
      simp only [Bool.and_eq_true]
      refine ⟨ordOK_no_content _ _ _ (fun e he => (hpreflat e he m).1) false, ?_⟩
      by_cases hmn : m = nid
      · subst hmn
        exact (contLoop_ord m cont false _ (by intro hx; simp at hx)).1
      · exact ordOK_no_content _ _ _
          (fun e he => (contEv_other_text nid m hmn e (hcont e he)).2) _

end AgStream

namespace AgStream

theorem processChunk_ord (exec : Exec) (mid : Nat) (cont : List Chunk)
    (cErr : Option String) (g : GSt) (ch : Chunk) (i : String)
    (bT bH1 bH2 bI : Bool)
    (hT : g.dem.hasStartedText = true → bT = true)
    (hH1 : g.dem.hasStartedThinking = true → bH1 = true)
    (hH2 : g.dem.hasStartedThinking = true → bH2 = true)
    (hbI : g.ts.curId = some i → bI = true)
    (hInv : g.dem.isInThinking = true → g.dem.hasStartedThinking = true)
    (hNid : mid < g.nextId) :
    ordOK (isTextStartOf mid) (isTextContentOf mid) bT
      (processChunk exec mid cont cErr g ch).evs = true ∧
    ordOK isTTStart isTTContent bH1
      (processChunk exec mid cont cErr g ch).evs = true ∧
    ordOK isThinkStart isTTContent bH2
      (processChunk exec mid cont cErr g ch).evs = true ∧
    ordOK (isToolStartOf i) (isToolArgsOf i) bI
      (processChunk exec mid cont cErr g ch).evs = true ∧
    (∀ m, m ≠ mid → ∀ b, ordOK (isTextStartOf m) (isTextContentOf m) b
      (processChunk exec mid cont cErr g ch).evs = true) ∧
    ((processChunk exec mid cont cErr g ch).st.dem.hasStartedText = true →
      seenFold (isTextStartOf mid) bT (processChunk exec mid cont cErr g ch).evs =
        true) ∧
    ((processChunk exec mid cont cErr g ch).st.dem.hasStartedThinking = true →
      seenFold isTTStart bH1 (processChunk exec mid cont cErr g ch).evs = true) ∧
    ((processChunk exec mid cont cErr g ch).st.dem.hasStartedThinking = true →
      seenFold isThinkStart bH2 (processChunk exec mid cont cErr g ch).evs = true) ∧
    ((processChunk exec mid cont cErr g ch).st.ts.curId = some i →
      seenFold (isToolStartOf i) bI (processChunk exec mid cont cErr g ch).evs =
        true) ∧
    ((processChunk exec mid cont cErr g ch).st.dem.isInThinking = true →
      (processChunk exec mid cont cErr g ch).st.dem.hasStartedThinking = true) ∧
    (mid < (processChunk exec mid cont cErr g ch).st.nextId) := by
  obtain ⟨hD1, hD2, hD3, hD4, hD5, hD6, hD7⟩ :=
    feedContent_ord mid g.dem ch.content bT bH1 bH2 hT hH1 hH2 hInv
  have hTD := processToolDeltas_ord exec mid i ch.toolCalls g.ts bI hbI
  have hDsh := feedContent_events mid g.dem ch.content
  have hTsh := processToolDeltas_events exec mid ch.toolCalls g.ts
  have hE1noToolC : ∀ e ∈ (feedContent mid g.dem ch.content).2,
      isToolArgsOf i e = false :=
    fun e he => (contentEv_ord_facts mid e (hDsh e he) i).2
  have hE1noToolS : ∀ e ∈ (feedContent mid g.dem ch.content).2,
      isToolStartOf i e = false :=
    fun e he => (contentEv_ord_facts mid e (hDsh e he) i).1
  have hE1seenT : seenFold (isToolStartOf i) bI
      (feedContent mid g.dem ch.content).2 = bI :=
    seenFold_none _ _ hE1noToolS bI
  have hE2noTextC : ∀ e ∈ (processToolDeltas exec mid g.ts ch.toolCalls).2.1,
      isTextContentOf mid e = false :=
    fun e he => (toolEv_ord_facts mid e (hTsh e he) mid).2.1
  have hE2noTTC : ∀ e ∈ (processToolDeltas exec mid g.ts ch.toolCalls).2.1,
      isTTContent e = false :=
    fun e he => (toolEv_ord_facts mid e (hTsh e he) mid).2.2.2.2
  have hcombine : ∀ m2 : Nat,
      ordOK (isTextStartOf m2) (isTextContentOf m2) bT
        (feedContent mid g.dem ch.content).2 = true →
      True := fun _ _ => True.intro
  cases hr : (processToolDeltas exec mid g.ts ch.toolCalls).2.2 with
  | some e =>
    have hshape : processChunk exec mid cont cErr g ch =
        { st := { dem := (feedContent mid g.dem ch.content).1
                  ts := (processToolDeltas exec mid g.ts ch.toolCalls).1
                  nextId := g.nextId }
          evs := (feedContent mid g.dem ch.content).2 ++
            (processToolDeltas exec mid g.ts ch.toolCalls).2.1
          appended := []
          contIssued := false
          err := some e } := by
      simp [processChunk, hr]
    rw [hshape]
    refine ⟨?_, ?_, ?_, ?_, ?_, ?_, ?_, ?_, ?_, hD7, hNid⟩
    · rw [ordOK_append]
      simp only [Bool.and_eq_true]
      exact ⟨hD1, ordOK_no_content _ _ _ hE2noTextC _⟩
    · rw [ordOK_append]
      simp only [Bool.and_eq_true]
      exact ⟨hD3, ordOK_no_content _ _ _ hE2noTTC _⟩
    · rw [ordOK_append]
      simp only [Bool.and_eq_true]
      exact ⟨hD4, ordOK_no_content _ _ _ hE2noTTC _⟩
    · rw [ordOK_append, hE1seenT]
      simp only [Bool.and_eq_true]
      exact ⟨ordOK_no_content _ _ _ hE1noToolC bI, hTD.1⟩
    · intro m hm b
      apply ordOK_mono
      rw [ordOK_append]
      simp only [Bool.and_eq_true]
      refine ⟨ordOK_no_content _ _ _
        (fun e he => (contentEv_other_text mid m hm e (hDsh e he)).2) false, ?_⟩
      exact ordOK_no_content _ _ _
        (fun e he => (toolEv_ord_facts mid e (hTsh e he) m).2.1) _
    · intro h
      rw [seenFold_append, hD2 h]
      exact seenFold_true _ _
    · intro h
      rw [seenFold_append, hD5 h]
      exact seenFold_true _ _
    · intro h
      rw [seenFold_append, hD6 h]
      exact seenFold_true _ _
    · intro h
      rw [seenFold_append, hE1seenT]
      exact hTD.2 h
  | none =>
    by_cases hfin : ch.finishReason = ""
    · have hshape : processChunk exec mid cont cErr g ch =
          { st := { dem := (feedContent mid g.dem ch.content).1
                    ts := (processToolDeltas exec mid g.ts ch.toolCalls).1
                    nextId := g.nextId }
            evs := (feedContent mid g.dem ch.content).2 ++
              (processToolDeltas exec mid g.ts ch.toolCalls).2.1
            appended := []
            contIssued := false
            err := none } := by
        simp [processChunk, hr, hfin]
      rw [hshape]
      refine ⟨?_, ?_, ?_, ?_, ?_, ?_, ?_, ?_, ?_, hD7, hNid⟩
      · rw [ordOK_append]
        simp only [Bool.and_eq_true]
        exact ⟨hD1, ordOK_no_content _ _ _ hE2noTextC _⟩
      · rw [ordOK_append]
        simp only [Bool.and_eq_true]
        exact ⟨hD3, ordOK_no_content _ _ _ hE2noTTC _⟩
      · rw [ordOK_append]
        simp only [Bool.and_eq_true]
        exact ⟨hD4, ordOK_no_content _ _ _ hE2noTTC _⟩
      · rw [ordOK_append, hE1seenT]
        simp only [Bool.and_eq_true]
        exact ⟨ordOK_no_content _ _ _ hE1noToolC bI, hTD.1⟩
      · intro m hm b
        apply ordOK_mono
        rw [ordOK_append]
        simp only [Bool.and_eq_true]
        refine ⟨ordOK_no_content _ _ _
          (fun e he => (contentEv_other_text mid m hm e (hDsh e he)).2) false, ?_⟩
        exact ordOK_no_content _ _ _
          (fun e he => (toolEv_ord_facts mid e (hTsh e he) m).2.1) _
      · intro h
        rw [seenFold_append, hD2 h]
        exact seenFold_true _ _
      · intro h
        rw [seenFold_append, hD5 h]
        exact seenFold_true _ _
      · intro h
        rw [seenFold_append, hD6 h]
        exact seenFold_true _ _
      · intro h
        rw [seenFold_append, hE1seenT]
        exact hTD.2 h
    · have hne : g.nextId ≠ mid := by omega
      have hF := processFinish_ord_facts exec mid g.nextId cont cErr
        (feedContent mid g.dem ch.content).1
        (processToolDeltas exec mid g.ts ch.toolCalls).1 ch.finishReason hne i
      have hshape : processChunk exec mid cont cErr g ch =
          { st := { dem := (feedContent mid g.dem ch.content).1
                    ts := (processFinish exec mid g.nextId cont cErr
                      (feedContent mid g.dem ch.content).1
                      (processToolDeltas exec mid g.ts ch.toolCalls).1
                      ch.finishReason).ts
                    nextId := (processFinish exec mid g.nextId cont cErr
                      (feedContent mid g.dem ch.content).1
                      (processToolDeltas exec mid g.ts ch.toolCalls).1
                      ch.finishReason).nextId }
            evs := (feedContent mid g.dem ch.content).2 ++
              (processToolDeltas exec mid g.ts ch.toolCalls).2.1 ++
              (processFinish exec mid g.nextId cont cErr
                (feedContent mid g.dem ch.content).1
                (processToolDeltas exec mid g.ts ch.toolCalls).1
                ch.finishReason).evs
            appended := (processFinish exec mid g.nextId cont cErr
              (feedContent mid g.dem ch.content).1
              (processToolDeltas exec mid g.ts ch.toolCalls).1
              ch.finishReason).appended
            contIssued := (processFinish exec mid g.nextId cont cErr
              (feedContent mid g.dem ch.content).1
              (processToolDeltas exec mid g.ts ch.toolCalls).1
              ch.finishReason).contIssued
            err := (processFinish exec mid g.nextId cont cErr
              (feedContent mid g.dem ch.content).1
              (processToolDeltas exec mid g.ts ch.toolCalls).1
              ch.finishReason).err } := by
        simp [processChunk, hr, hfin]
      rw [hshape]
      refine ⟨?_, ?_, ?_, ?_, ?_, ?_, ?_, ?_, ?_, hD7, ?_⟩
      · rw [ordOK_append, ordOK_append]
        simp only [Bool.and_eq_true]
        exact ⟨⟨hD1, ordOK_no_content _ _ _ hE2noTextC _⟩, hF.1 _⟩
      · rw [ordOK_append, ordOK_append]
        simp only [Bool.and_eq_true]
        exact ⟨⟨hD3, ordOK_no_content _ _ _ hE2noTTC _⟩, hF.2.1 _⟩
      · rw [ordOK_append, ordOK_append]
        simp only [Bool.and_eq_true]
        exact ⟨⟨hD4, ordOK_no_content _ _ _ hE2noTTC _⟩, hF.2.2.1 _⟩
      · rw [ordOK_append, ordOK_append, hE1seenT]
        simp only [Bool.and_eq_true]
        exact ⟨⟨ordOK_no_content _ _ _ hE1noToolC bI, hTD.1⟩, hF.2.2.2.1 _⟩
      · intro m hm b
        apply ordOK_mono
        rw [ordOK_append, ordOK_append]
        simp only [Bool.and_eq_true]
        refine ⟨⟨ordOK_no_content _ _ _
          (fun e he => (contentEv_other_text mid m hm e (hDsh e he)).2) false,
          ordOK_no_content _ _ _
            (fun e he => (toolEv_ord_facts mid e (hTsh e he) m).2.1) _⟩,
          hF.2.2.2.2 m hm _⟩
      · intro h
        rw [seenFold_append, seenFold_append, hD2 h, seenFold_true, seenFold_true]
      · intro h
        rw [seenFold_append, seenFold_append, hD5 h, seenFold_true, seenFold_true]
      · intro h
        rw [seenFold_append, seenFold_append, hD6 h, seenFold_true, seenFold_true]
      · intro h
        rw [processFinish_ts] at h
        rw [seenFold_append, seenFold_append, hE1seenT, hTD.2 h, seenFold_true]
      · show mid < (processFinish exec mid g.nextId cont cErr
          (feedContent mid g.dem ch.content).1
          (processToolDeltas exec mid g.ts ch.toolCalls).1 ch.finishReason).nextId
        have := processFinish_nextId exec mid g.nextId cont cErr
          (feedContent mid g.dem ch.content).1
          (processToolDeltas exec mid g.ts ch.toolCalls).1 ch.finishReason
        rcases this with h | h <;> rw [h] <;> omega

end AgStream

namespace AgStream

theorem runChunks_ord (exec : Exec) (mid : Nat) (cont : List Chunk)
    (cErr : Option String) (i : String) :
    ∀ chs : List Chunk, ∀ g : GSt, ∀ bT bH1 bH2 bI : Bool,
      (g.dem.hasStartedText = true → bT = true) →
      (g.dem.hasStartedThinking = true → bH1 = true) →
      (g.dem.hasStartedThinking = true → bH2 = true) →
      (g.ts.curId = some i → bI = true) →
      (g.dem.isInThinking = true → g.dem.hasStartedThinking = true) →
      (mid < g.nextId) →
      ordOK (isTextStartOf mid) (isTextContentOf mid) bT
        (runChunks exec mid cont cErr g chs).evs = true ∧
      ordOK isTTStart isTTContent bH1
        (runChunks exec mid cont cErr g chs).evs = true ∧
      ordOK isThinkStart isTTContent bH2
        (runChunks exec mid cont cErr g chs).evs = true ∧
      ordOK (isToolStartOf i) (isToolArgsOf i) bI
        (runChunks exec mid cont cErr g chs).evs = true ∧
      (∀ m, m ≠ mid → ∀ b, ordOK (isTextStartOf m) (isTextContentOf m) b
        (runChunks exec mid cont cErr g chs).evs = true) := by
  intro chs
  induction chs with
  | nil =>
    intro g bT bH1 bH2 bI _ _ _ _ _ _
    exact ⟨rfl, rfl, rfl, rfl, fun m hm b => rfl⟩
  | cons ch rest ih =>
    intro g bT bH1 bH2 bI hT hH1 hH2 hbI hInv hNid
    obtain ⟨C1, C2, C3, C4, C5, L1, L2, L3, L4, L5, L6⟩ :=
      processChunk_ord exec mid cont cErr g ch i bT bH1 bH2 bI hT hH1 hH2 hbI
        hInv hNid
    cases hr : (processChunk exec mid cont cErr g ch).err with
    | some e =>
      have hsh : runChunks exec mid cont cErr g (ch :: rest) =
          { st := (processChunk exec mid cont cErr g ch).st
            evs := (processChunk exec mid cont cErr g ch).evs
            appended := (processChunk exec mid cont cErr g ch).appended
            contCount := (if (processChunk exec mid cont cErr g ch).contIssued
              then 1 else 0)
            err := some e } := by
        simp [runChunks, hr]
      rw [hsh]
      exact ⟨C1, C2, C3, C4, C5⟩
    | none =>
      have hIH := ih (processChunk exec mid cont cErr g ch).st
        (seenFold (isTextStartOf mid) bT (processChunk exec mid cont cErr g ch).evs)
        (seenFold isTTStart bH1 (processChunk exec mid cont cErr g ch).evs)
        (seenFold isThinkStart bH2 (processChunk exec mid cont cErr g ch).evs)
        (seenFold (isToolStartOf i) bI (processChunk exec mid cont cErr g ch).evs)
        L1 L2 L3 L4 L5 L6
      have hsh : runChunks exec mid cont cErr g (ch :: rest) =
          { st := (runChunks exec mid cont cErr
              (processChunk exec mid cont cErr g ch).st rest).st
            evs := (processChunk exec mid cont cErr g ch).evs ++
              (runChunks exec mid cont cErr
                (processChunk exec mid cont cErr g ch).st rest).evs
            appended := (processChunk exec mid cont cErr g ch).appended ++
              (runChunks exec mid cont cErr
                (processChunk exec mid cont cErr g ch).st rest).appended
            contCount := (if (processChunk exec mid cont cErr g ch).contIssued
              then 1 else 0) + (runChunks exec mid cont cErr
                (processChunk exec mid cont cErr g ch).st rest).contCount
            err := (runChunks exec mid cont cErr
              (processChunk exec mid cont cErr g ch).st rest).err } := by
        simp [runChunks, hr]
      rw [hsh]
      refine ⟨?_, ?_, ?_, ?_, ?_⟩
      · rw [ordOK_append]
        simp only [Bool.and_eq_true]
        exact ⟨C1, hIH.1⟩
      · rw [ordOK_append]
        simp only [Bool.and_eq_true]
        exact ⟨C2, hIH.2.1⟩
      · rw [ordOK_append]
        simp only [Bool.and_eq_true]
        exact ⟨C3, hIH.2.2.1⟩
      · rw [ordOK_append]
        simp only [Bool.and_eq_true]
        exact ⟨C4, hIH.2.2.2.1⟩
      · intro m hm b
        apply ordOK_mono
        rw [ordOK_append]
        simp only [Bool.and_eq_true]
        exact ⟨C5 m hm false, hIH.2.2.2.2 m hm _⟩

end AgStream

namespace AgStream

theorem runGen_ord (exec : Exec) (inp : RunInput) :
    (∀ m : Nat, ordOK (isTextStartOf m) (isTextContentOf m) false
      (runGen exec inp).events = true) ∧
    ordOK isTTStart isTTContent false (runGen exec inp).events = true ∧
    ordOK isThinkStart isTTContent false (runGen exec inp).events = true ∧
    (∀ i : String, ordOK (isToolStartOf i) (isToolArgsOf i) false
      (runGen exec inp).events = true) := by
  obtain ⟨t, hev, hterm, _, _⟩ := runGen_events_form exec inp
  have hrun : ∀ i : String,
      ordOK (isTextStartOf mainMid) (isTextContentOf mainMid) false
        (runChunks exec mainMid inp.cont inp.contErr initGSt inp.chunks).evs =
          true ∧
      ordOK isTTStart isTTContent false
        (runChunks exec mainMid inp.cont inp.contErr initGSt inp.chunks).evs =
          true ∧
      ordOK isThinkStart isTTContent false
        (runChunks exec mainMid inp.cont inp.contErr initGSt inp.chunks).evs =
          true ∧
      ordOK (isToolStartOf i) (isToolArgsOf i) false
        (runChunks exec mainMid inp.cont inp.contErr initGSt inp.chunks).evs =
          true ∧
      (∀ m, m ≠ mainMid → ∀ b, ordOK (isTextStartOf m) (isTextContentOf m) b
        (runChunks exec mainMid inp.cont inp.contErr initGSt inp.chunks).evs =
          true) := by
    intro i
    exact runChunks_ord exec mainMid inp.cont inp.contErr i inp.chunks initGSt
      false false false false
      (by intro h; simp [initGSt] at h)
      (by intro h; simp [initGSt] at h)
      (by intro h; simp [initGSt] at h)
      (by intro h; simp [initGSt] at h)
      (by intro h; simp [initGSt] at h)
      (by decide)
  have htf : ∀ m2 : Nat, ∀ i2 : String, isTextContentOf m2 t = false ∧
      isTTContent t = false ∧ isToolArgsOf i2 t = false := by
    intro m2 i2
    cases t <;> simp_all [isTerminal, isTextContentOf, isTTContent, isToolArgsOf]
  have hwrap : ∀ isS isC : Ev → Bool, isC Ev.runStarted = false →
      isS Ev.runStarted = false → isC t = false →
      ordOK isS isC false
        (runChunks exec mainMid inp.cont inp.contErr initGSt inp.chunks).evs =
        true →
      ordOK isS isC false (runGen exec inp).events = true := by
    intro isS isC h1 h2 h3 h4
    rw [hev]
    show ordOK isS isC false (Ev.runStarted ::
      ((runChunks exec mainMid inp.cont inp.contErr initGSt inp.chunks).evs ++
        [t])) = true
    simp only [ordOK, h1, h2, Bool.not_false, Bool.or_false, Bool.true_and]
    rw [ordOK_append]
    simp only [Bool.and_eq_true]
    refine ⟨h4, ordOK_no_content _ _ _ ?_ _⟩
    intro e he
    simp at he
    subst he
    exact h3
  refine ⟨?_, ?_, ?_, ?_⟩
  · intro m
    apply hwrap _ _ rfl rfl (htf m "").1
    by_cases hm : m = mainMid
    · subst hm
      exact (hrun "").1
    · exact (hrun "").2.2.2.2 m hm false
  · exact hwrap _ _ rfl rfl (htf 0 "").2.1 (hrun "").2.1
  · exact hwrap _ _ rfl rfl (htf 0 "").2.1 (hrun "").2.2.1
  · intro i
    exact hwrap _ _ rfl rfl (htf 0 i).2.2 (hrun i).2.2.2.1

end AgStream

namespace AgStream

theorem isTextStartOf_eq (m : Nat) (x : Ev) (hxs : isTextStartOf m x = true) :
    x = Ev.textStart m := by
  cases x <;> simp_all [isTextStartOf]

theorem isTTStart_eq (x : Ev) (hxs : isTTStart x = true) : x = Ev.ttStart := by
  cases x <;> simp_all [isTTStart]

theorem isThinkStart_eq (x : Ev) (hxs : isThinkStart x = true) :
    x = Ev.thinkingStart := by
  cases x <;> simp_all [isThinkStart]

theorem isToolStartOf_eq (i : String) (x : Ev) (h : isToolStartOf i x = true) :
    ∃ nm p, x = Ev.toolStart i nm p := by
  cases x
  case toolStart i2 nm p =>
    simp [isToolStartOf] at h
    subst h
    exact ⟨nm, p, rfl⟩
  all_goals simp [isToolStartOf] at h

end AgStream


section Claims5

open AgStream

/-- C2 (amended): ordering and balance of start and end events.  For every
executor and every run input, each content-bearing event is strictly
preceded by the start event of its message, span, or call: every
TEXT_MESSAGE_CONTENT by the TEXT_MESSAGE_START of the same message id,
every THINKING_TEXT_MESSAGE_CONTENT by THINKING_TEXT_MESSAGE_START and by
THINKING_START, and every TOOL_CALL_ARGS by a TOOL_CALL_START of the same
call id.  Moreover, on a run whose model stream signals its finish reason
exactly on the last chunk and which completes without exception, the event
counts keep the generator's start/end ledger: THINKING_START and
THINKING_TEXT_MESSAGE_START are emitted at most once (exactly when some
thinking section was opened, however many sections there are),
THINKING_TEXT_MESSAGE_END and THINKING_END are emitted once per closed
section, a section still open at stream end stays unclosed (opened
sections exceed closed ones by the final thinking flag, and no end event
compensates), the turn's TEXT_MESSAGE_START is emitted at most once
(exactly when the text flag was raised) and TEXT_MESSAGE_END exactly as
often, and every TOOL_CALL_START is balanced by exactly as many
TOOL_CALL_END events per call id. -/
theorem C2_start_end_ledger (exec : Exec) (inp : RunInput) :
    (∀ m : Nat, ∀ l1 : List Ev, ∀ d : List Char, ∀ l2 : List Ev,
      (runGen exec inp).events = l1 ++ Ev.textContent m d :: l2 →
      Ev.textStart m ∈ l1) ∧
    (∀ l1 : List Ev, ∀ d : List Char, ∀ l2 : List Ev,
      (runGen exec inp).events = l1 ++ Ev.ttContent d :: l2 →
      Ev.ttStart ∈ l1 ∧ Ev.thinkingStart ∈ l1) ∧
    (∀ i : String, ∀ l1 : List Ev, ∀ d : String, ∀ l2 : List Ev,
      (runGen exec inp).events = l1 ++ Ev.toolArgs i d :: l2 →
      ∃ nm p, Ev.toolStart i nm p ∈ l1) ∧
    (∀ body : List Chunk, ∀ fin : Chunk,
      inp.chunks = body ++ [fin] →
      (∀ ch ∈ body, ch.finishReason = "") →
      fin.finishReason ≠ "" →
      (runGen exec inp).err = none →
      ((runGen exec inp).events.count Ev.thinkingStart =
        flagInd (runGen exec inp).finalSt.dem.hasStartedThinking ∧
      (runGen exec inp).events.count Ev.ttStart =
        flagInd (runGen exec inp).finalSt.dem.hasStartedThinking ∧
      (runGen exec inp).events.count Ev.ttEnd =
        (runGen exec inp).finalSt.dem.closedSections ∧
      (runGen exec inp).events.count Ev.thinkingEnd =
        (runGen exec inp).finalSt.dem.closedSections ∧
      (runGen exec inp).finalSt.dem.openedSections =
        (runGen exec inp).finalSt.dem.closedSections +
          flagInd (runGen exec inp).finalSt.dem.isInThinking ∧
      (runGen exec inp).events.count (Ev.textStart mainMid) =
        flagInd (runGen exec inp).finalSt.dem.hasStartedText ∧
      (runGen exec inp).events.count (Ev.textEnd mainMid) =
        flagInd (runGen exec inp).finalSt.dem.hasStartedText ∧
      (∀ s : String, cntToolStart s (runGen exec inp).events =
        cntToolEnd s (runGen exec inp).events))) := by
  obtain ⟨hOT, hOH1, hOH2, hOI⟩ := runGen_ord exec inp
  refine ⟨?_, ?_, ?_, ?_⟩
  · intro m l1 d l2 hsplit
    have hful := hOT m
    rw [hsplit] at hful
    rcases ordOK_split _ _ l1 false _ l2 hful (by simp [isTextContentOf]) with
      hf | ⟨x, hx, hxs⟩
    · simp at hf
    · rw [isTextStartOf_eq m x hxs] at hx
      exact hx
  · intro l1 d l2 hsplit
    constructor
    · have hful := hOH1
      rw [hsplit] at hful
      rcases ordOK_split _ _ l1 false _ l2 hful (by simp [isTTContent]) with
        hf | ⟨x, hx, hxs⟩
      · simp at hf
      · rw [isTTStart_eq x hxs] at hx
        exact hx
    · have hful := hOH2
      rw [hsplit] at hful
      rcases ordOK_split _ _ l1 false _ l2 hful (by simp [isTTContent]) with
        hf | ⟨x, hx, hxs⟩
      · simp at hf
      · rw [isThinkStart_eq x hxs] at hx
        exact hx
  · intro i l1 d l2 hsplit
    have hful := hOI i
    rw [hsplit] at hful
    rcases ordOK_split _ _ l1 false _ l2 hful (by simp [isToolArgsOf]) with
      hf | ⟨x, hx, hxs⟩
    · simp at hf
    · obtain ⟨nm, p, hxe⟩ := isToolStartOf_eq i x hxs
      rw [hxe] at hx
      exact ⟨nm, p, hx⟩
  · intro body fin hchunks hbody hfin herr
    have hL : (runChunks exec mainMid inp.cont inp.contErr initGSt inp.chunks).err =
        none := by
      cases hL0 : (runChunks exec mainMid inp.cont inp.contErr initGSt inp.chunks).err with
      | none => rfl
      | some e => exfalso; simp [runGen, hL0] at herr
    have hs : inp.streamErr = none := by
      cases hs0 : inp.streamErr with
      | none => rfl
      | some e => exfalso; simp [runGen, hL, hs0] at herr
    have hout1 : (runGen exec inp).events =
        Ev.runStarted :: ((runChunks exec mainMid inp.cont inp.contErr initGSt
          inp.chunks).evs ++ [Ev.runFinished]) := by
      simp [runGen, hL, hs]
    have hout2 : (runGen exec inp).finalSt =
        (runChunks exec mainMid inp.cont inp.contErr initGSt inp.chunks).st := by
      simp [runGen, hL, hs]
    have hpre : (runChunks exec mainMid inp.cont inp.contErr initGSt body).err =
        none := by
      apply runChunks_err_prefix exec mainMid inp.cont inp.contErr body [fin] initGSt
      rw [← hchunks]
      exact hL
    have happ := runChunks_append exec mainMid inp.cont inp.contErr body [fin]
      initGSt hpre
    have hLapp : runChunks exec mainMid inp.cont inp.contErr initGSt inp.chunks =
        runChunks exec mainMid inp.cont inp.contErr initGSt (body ++ [fin]) := by
      rw [hchunks]
    have hpcerr : (processChunk exec mainMid inp.cont inp.contErr
        (runChunks exec mainMid inp.cont inp.contErr initGSt body).st fin).err =
        none := by
      cases hpc0 : (processChunk exec mainMid inp.cont inp.contErr
          (runChunks exec mainMid inp.cont inp.contErr initGSt body).st fin).err with
      | none => rfl
      | some e =>
        exfalso
        rw [hLapp, happ] at hL
        simp [runChunks, hpc0] at hL
    have hr2evs : (runChunks exec mainMid inp.cont inp.contErr
        (runChunks exec mainMid inp.cont inp.contErr initGSt body).st [fin]).evs =
        (processChunk exec mainMid inp.cont inp.contErr
          (runChunks exec mainMid inp.cont inp.contErr initGSt body).st fin).evs := by
      simp [runChunks, hpcerr]
    have hr2st : (runChunks exec mainMid inp.cont inp.contErr
        (runChunks exec mainMid inp.cont inp.contErr initGSt body).st [fin]).st =
        (processChunk exec mainMid inp.cont inp.contErr
          (runChunks exec mainMid inp.cont inp.contErr initGSt body).st fin).st := by
      simp [runChunks, hpcerr]
    have hev : (runGen exec inp).events =
        Ev.runStarted ::
          (((runChunks exec mainMid inp.cont inp.contErr initGSt body).evs ++
            (processChunk exec mainMid inp.cont inp.contErr
              (runChunks exec mainMid inp.cont inp.contErr initGSt body).st fin).evs) ++
            [Ev.runFinished]) := by
      rw [hout1, hLapp, happ]
      simp only [hr2evs]
    have hstd : (runGen exec inp).finalSt.dem =
        (processChunk exec mainMid inp.cont inp.contErr
          (runChunks exec mainMid inp.cont inp.contErr initGSt body).st fin).st.dem := by
      rw [hout2, hLapp, happ]
      simp only [hr2st]
    have hnid := (runChunks_nofinish exec mainMid inp.cont inp.contErr body
      initGSt hbody).1
    have hne : (runChunks exec mainMid inp.cont inp.contErr initGSt body).st.nextId ≠
        mainMid := by
      rw [hnid]
      decide
    have hbodyled := runChunks_ledger_nofinish exec mainMid inp.cont inp.contErr
      "" body initGSt hbody hpre
    have hfinled := processChunk_ledger_finish exec mainMid inp.cont inp.contErr
      (runChunks exec mainMid inp.cont inp.contErr initGSt body).st fin ""
      hfin hne hpcerr
    have htot := demLedger_trans mainMid _ _ _ _ _ hbodyled.1 hfinled.1
    obtain ⟨A1, A2, A3, A4, A5, A6⟩ := htot
    have hz1 : flagInd initGSt.dem.hasStartedThinking = 0 := rfl
    have hz2 : flagInd initGSt.dem.hasStartedText = 0 := rfl
    have hz3 : flagInd initGSt.dem.isInThinking = 0 := rfl
    have hz4 : initGSt.dem.closedSections = 0 := rfl
    have hz5 : initGSt.dem.openedSections = 0 := rfl
    rw [hev, hstd]
    simp only [List.count_append, List.count_cons] at A1 A2 A3 A4 A5 A6 ⊢
    refine ⟨?_, ?_, ?_, ?_, ?_, ?_, ?_, ?_⟩
    · simp only [beq_iff_eq]
      simp
      omega
    · simp only [beq_iff_eq]
      simp
      omega
    · simp only [beq_iff_eq]
      simp
      omega
    · simp only [beq_iff_eq]
      simp
      omega
    · omega
    · simp only [beq_iff_eq]
      simp
      omega
    · have hb := hbodyled.2.1
      have hf := hfinled.2.1
      simp only [beq_iff_eq]
      simp
      omega
    · intro s
      have hbs := (runChunks_ledger_nofinish exec mainMid inp.cont inp.contErr
        s body initGSt hbody hpre).2.2
      have hfs := (processChunk_ledger_finish exec mainMid inp.cont inp.contErr
        (runChunks exec mainMid inp.cont inp.contErr initGSt body).st fin s
        hfin hne hpcerr).2.2
      have hz6 : pendInd initGSt.ts s = 0 := rfl
      rw [cntToolStart_cons_runStarted, cntToolEnd_cons_runStarted,
        cntToolStart_append, cntToolEnd_append, cntToolStart_append,
        cntToolEnd_append, cntToolStart_runFinished, cntToolEnd_runFinished]
      omega
end Claims5

section Claims6

open AgStream

/-- C2 witness: the theorem applied to the run whose model stream carries
one complete thinking section followed by plain text and a stop finish:
the thinking-content event at position 3 is preceded by the two thinking
start events, the start counts equal 1 (flag raised), and the section
close events equal the one closed section. -/
theorem C2_witness :
    (("stop" : String) ≠ "") ∧
    (Ev.ttStart ∈ [Ev.runStarted, Ev.thinkingStart, Ev.ttStart] ∧
     Ev.thinkingStart ∈ [Ev.runStarted, Ev.thinkingStart, Ev.ttStart]) ∧
    ((runGen echoExec (plainInput [contentChunk "<thinking>plan</thinking>ok",
        finishChunk "stop"])).events.count Ev.thinkingStart =
      flagInd (runGen echoExec (plainInput [contentChunk "<thinking>plan</thinking>ok",
        finishChunk "stop"])).finalSt.dem.hasStartedThinking) ∧
    ((runGen echoExec (plainInput [contentChunk "<thinking>plan</thinking>ok",
        finishChunk "stop"])).events.count Ev.ttEnd =
      (runGen echoExec (plainInput [contentChunk "<thinking>plan</thinking>ok",
        finishChunk "stop"])).finalSt.dem.closedSections) :=
  ⟨by decide,
   (C2_start_end_ledger echoExec
      (plainInput [contentChunk "<thinking>plan</thinking>ok", finishChunk "stop"])).2.1
     [Ev.runStarted, Ev.thinkingStart, Ev.ttStart] (String.toList "plan")
     [Ev.ttEnd, Ev.thinkingEnd, Ev.textStart mainMid,
      Ev.textContent mainMid (String.toList "ok"), Ev.textEnd mainMid,
      Ev.runFinished] (by decide),
   ((C2_start_end_ledger echoExec
      (plainInput [contentChunk "<thinking>plan</thinking>ok", finishChunk "stop"])).2.2.2
     [contentChunk "<thinking>plan</thinking>ok"] (finishChunk "stop")
     rfl (by decide) (by decide) rfl).1,
   ((C2_start_end_ledger echoExec
      (plainInput [contentChunk "<thinking>plan</thinking>ok", finishChunk "stop"])).2.2.2
     [contentChunk "<thinking>plan</thinking>ok"] (finishChunk "stop")
     rfl (by decide) (by decide) rfl).2.2.1⟩

end Claims6
